import Mathlib

/-!
Verification development for `claudey`.

Shallow embedding of the alias store (`hooks/internal/aliases/aliases.go`), of the
package-manager detector and its command builders
(`hooks/internal/pkgmanager/pkgmanager.go`), of the session files
(`internal/session/session.go`, `hooks/internal/hooks/sessionend.go`), of the file
helpers (`internal/fileutil/replace.go`, `hooks/internal/fileutil/fileutil.go`) and of
the inline hooks (`internal/hooks/inline.go`, `internal/hookio/hookio.go`).

Modelling conventions.

* Go strings are modelled by `String` (well-formed Unicode text).  `len(s)` is the
  byte length `String.utf8ByteSize`.  Where the code slices a string at byte positions
  the result is kept as the list of its bytes (`utf8Bytes`).
* A Go `map[string]AliasEntry` is an association list; map iteration visits the list
  in order.  Go maps have unique keys, which is the predicate `AliasMap.WF`.  Two
  enumerations of one map are two lists that are permutations of each other.
* The file system is the three sibling files used by `Save`: the alias file itself,
  its `.tmp` sibling and its `.bak` sibling.  A file holds what `json.Unmarshal`
  decodes from it (`Content`); `json.MarshalIndent` followed by `json.Unmarshal` is
  the identity on `AliasFile` values with a non-nil map.
* A file that exists can be read.  Every operation that writes, renames or removes
  may fail; whether it does is an input (`SaveEnv`).  A failed rename or remove leaves
  its target as it was.  A failed `os.WriteFile` leaves its target as it was when the
  file could not be opened; when it fails after the file was opened, the file has been
  truncated and holds only a part of the data, a text that does not decode.
* `time.Now().UTC().Format(time.RFC3339)` is an input of the function that calls it.
* `time.Local` is an input (`Location`) of the functions that call `time.Date`: the
  offset from UTC at every instant, with the period in which it is in use.  `time.Date`
  follows the library: a midnight that the location skips resolves to an instant of
  the day before.
* The world carries a ghost log `saved` of the arguments handed to `Save`.
* What a function reads of its host (environment variables, directory listings, file
  contents, `filepath.Join`, `json.Unmarshal` of a line or a config file) is an input
  of the function.  A value decoded into `any` is a `JSON` value.
* The regular expressions of the source are modelled one by one as matchers on lists
  of characters, with the semantics of Go `regexp`: leftmost-first matches, `$` is the
  end of the text, the dot matches every character but newline, `\s` and `\w` are
  the ASCII classes.
* What a hook writes is recorded in `Output`: the calls of `os.Stdout.Write` and the
  lines on standard error.
-/

namespace Claudey

/-! ## Strings and regular expressions -/

/-- Characters `a-z`, `A-Z`, `0-9`. -/
def isAlnum (c : Char) : Bool :=
  ('a' ≤ c && c ≤ 'z') || ('A' ≤ c && c ≤ 'Z') || ('0' ≤ c && c ≤ '9')

/-- Go `regexp` match of `^[cls]+$`: the text is non-empty and every character is in
the class (without the `m` flag `$` matches only at the end of the text). -/
def matchClassPlus (cls : Char → Bool) (s : String) : Bool :=
  !s.data.isEmpty && s.data.all cls

/-- Character class of `validAliasName`, `[a-zA-Z0-9_-]`. -/
def aliasChar (c : Char) : Bool :=
  isAlnum c || c == '_' || c == '-'

/-- The regular expression `validAliasName = ^[a-zA-Z0-9_-]+$`. -/
def validAliasName (s : String) : Bool :=
  matchClassPlus aliasChar s

/-- Go `unicode.IsSpace`. -/
def isSpace (c : Char) : Bool :=
  c == '\t' || c == '\n' || c.toNat == 0x0B || c.toNat == 0x0C || c == '\r' || c == ' ' ||
  c.toNat == 0x85 || c.toNat == 0xA0 || c.toNat == 0x1680 ||
  (0x2000 ≤ c.toNat && c.toNat ≤ 0x200A) ||
  c.toNat == 0x2028 || c.toNat == 0x2029 || c.toNat == 0x202F || c.toNat == 0x205F ||
  c.toNat == 0x3000

/-- Go `strings.TrimSpace`: drop leading and trailing white space. -/
def TrimSpace (s : String) : String :=
  ⟨((s.data.dropWhile isSpace).reverse.dropWhile isSpace).reverse⟩

/-- Go `strings.ToLower` on the ASCII range.  The alias store only lower-cases names
that already matched `validAliasName`, which are ASCII. -/
def ToLower (s : String) : String :=
  ⟨s.data.map Char.toLower⟩

/-- The keys of `reservedNames`. -/
def reservedNames : List String :=
  ["list", "help", "remove", "delete", "create", "set"]

/-- The constant `aliasVersion`. -/
def aliasVersion : String := "1.0"

/-! ## Data model -/

/-- Go struct `AliasEntry`. -/
structure AliasEntry where
  SessionPath : String
  CreatedAt : String
  UpdatedAt : String
  Title : String
deriving DecidableEq, Repr

/-- Go `map[string]AliasEntry`, in iteration order. -/
abbrev AliasMap := List (String × AliasEntry)

namespace AliasMap

/-- Map lookup `m[k]` with the `ok` flag. -/
def get? (m : AliasMap) (k : String) : Option AliasEntry :=
  match m with
  | [] => none
  | (k', v) :: rest => if k' = k then some v else get? rest k

/-- Go `delete(m, k)`. -/
def delete (m : AliasMap) (k : String) : AliasMap :=
  match m with
  | [] => []
  | (k', v) :: rest => if k' = k then delete rest k else (k', v) :: delete rest k

/-- Map assignment `m[k] = v`: an existing key keeps its place, a new key is added. -/
def put (m : AliasMap) (k : String) (v : AliasEntry) : AliasMap :=
  match m with
  | [] => [(k, v)]
  | (k', v') :: rest => if k' = k then (k, v) :: rest else (k', v') :: put rest k v

/-- The keys of the map. -/
def keys (m : AliasMap) : List String := m.map Prod.fst

/-- Keys are unique, as in every Go map. -/
def WF (m : AliasMap) : Prop := (keys m).Nodup

instance (m : AliasMap) : Decidable (WF m) := by unfold WF; infer_instance

end AliasMap

/-- The anonymous struct `Metadata` of `AliasFile`. -/
structure Metadata where
  TotalCount : Int
  LastUpdated : String
deriving DecidableEq, Repr

/-- Go struct `AliasFile` with a non-nil `Aliases` map. -/
structure AliasFile where
  Version : String
  Aliases : AliasMap
  Metadata : Metadata
deriving DecidableEq, Repr

/-- What `json.Unmarshal` makes of the bytes of a file. -/
inductive Content where
  /-- Not JSON of the right shape: `json.Unmarshal` returns an error. -/
  | unparsable (raw : String)
  /-- Decodes, but `aliases` is missing or `null`: `f.Aliases == nil`. -/
  | nilAliases (version : String) (md : Metadata)
  /-- Decodes to an `AliasFile` with a map. -/
  | file (f : AliasFile)
deriving DecidableEq, Repr

/-- The files `Save` works on, and the ghost log of `Save` calls. -/
structure World where
  /-- The file at `aliasesPath()`. -/
  main : Option Content
  /-- The file at `aliasesPath() + ".tmp"`. -/
  tmp : Option Content
  /-- The file at `aliasesPath() + ".bak"`. -/
  bak : Option Content
  /-- Ghost: the arguments of the calls of `Save` so far, oldest first. -/
  saved : List AliasFile
deriving DecidableEq, Repr

/-- The inputs of one call of `Save`: the clock, the platform and the outcome of each
fallible operation. -/
structure SaveEnv where
  /-- The time `Save` reads for `lastUpdated`. -/
  now : String
  /-- Whether `runtime.GOOS == "windows"`. -/
  windows : Bool
  /-- Whether `json.MarshalIndent` returns no error. -/
  marshalOk : Bool
  /-- Whether `platform.EnsureDir` returns no error. -/
  ensureDirOk : Bool
  /-- Whether `os.WriteFile(dst)` in `copyFile` succeeds. -/
  bakWriteOk : Bool
  /-- Whether `os.WriteFile(tmpPath)` succeeds. -/
  tmpWriteOk : Bool
  /-- Whether `os.Remove(path)` before the rename succeeds. -/
  removeMainOk : Bool
  /-- Whether `os.Rename(tmpPath, path)` succeeds. -/
  renameOk : Bool
  /-- Whether `os.WriteFile(dst)` in `restoreBackup` succeeds. -/
  restoreWriteOk : Bool
  /-- Whether `os.Remove(tmp)` in `cleanupTemp` succeeds. -/
  removeTmpOk : Bool
  /-- Whether the final `os.Remove(bakPath)` succeeds. -/
  removeBakOk : Bool
  /-- When `os.WriteFile(dst)` in `copyFile` fails: `none` when the file could not be
  opened, otherwise the text that the truncated file is left with. -/
  bakWriteCut : Option String := none
  /-- When `os.WriteFile(tmpPath)` fails: `none` when the file could not be opened,
  otherwise the text that the truncated file is left with. -/
  tmpWriteCut : Option String := none
  /-- When `os.WriteFile(dst)` in `restoreBackup` fails: `none` when the file could not
  be opened, otherwise the text that the truncated file is left with. -/
  restoreWriteCut : Option String := none
deriving DecidableEq, Repr

/-- Every step `Save` needs for returning `true` succeeds. -/
def SaveEnv.succeeds (env : SaveEnv) : Bool :=
  env.marshalOk && env.ensureDirOk && env.tmpWriteOk && env.renameOk

/-! ## The alias store -/

/-- Go `defaultFile`. -/
def defaultFile (now : String) : AliasFile :=
  { Version := aliasVersion, Aliases := [], Metadata := ⟨0, now⟩ }

/-- Go `Load`.  `now` is the time read by `defaultFile`. -/
def Load (now : String) (w : World) : AliasFile :=
  match w.main with
  | none => defaultFile now
  | some (.unparsable _) => defaultFile now
  | some (.nilAliases _ _) => defaultFile now
  | some (.file f) => if f.Version = "" then { f with Version := aliasVersion } else f

/-- The target of an `os.WriteFile` that fails: as it was when the file could not be
opened (`cut` is `none`), and otherwise truncated and left with a text that does not
decode. -/
def failedWrite (cut : Option String) (old : Option Content) : Option Content :=
  match cut with
  | none => old
  | some raw => some (.unparsable raw)

/-- Go `copyFile(path, bakPath)`. -/
def copyFile (writeOk : Bool) (cut : Option String) (w : World) : World :=
  match w.main with
  | none => w
  | some data =>
    if writeOk then { w with bak := some data }
    else { w with bak := failedWrite cut w.bak }

/-- Go `restoreBackup(bakPath, path)`; the result of its `os.WriteFile` is ignored. -/
def restoreBackup (writeOk : Bool) (cut : Option String) (w : World) : World :=
  match w.bak with
  | none => w
  | some data =>
    if writeOk then { w with main := some data }
    else { w with main := failedWrite cut w.main }

/-- Go `cleanupTemp(tmpPath)`. -/
def cleanupTemp (removeOk : Bool) (w : World) : World :=
  if removeOk then { w with tmp := none } else w

/-- The block `// Backup existing file` of `Save`. -/
def backupExisting (env : SaveEnv) (w : World) : World :=
  if w.main.isSome then copyFile env.bakWriteOk env.bakWriteCut w else w

/-- The block `// On Windows, remove destination before rename` of `Save`. -/
def removeDestination (env : SaveEnv) (w : World) : World :=
  if env.windows && w.main.isSome then
    (if env.removeMainOk then { w with main := none } else w)
  else w

/-- The block `// Remove backup on success` of `Save`. -/
def removeBackup (env : SaveEnv) (w : World) : World :=
  if env.removeBakOk then { w with bak := none } else w

/-- The value `Save` serialises: `f` with `totalCount` and `lastUpdated` recomputed. -/
def stamp (env : SaveEnv) (f : AliasFile) : AliasFile :=
  { f with Metadata := ⟨(f.Aliases.length : Int), env.now⟩ }

/-- Go `Save`. -/
def Save (env : SaveEnv) (f : AliasFile) (w : World) : Bool × World :=
  let w0 := { w with saved := w.saved ++ [f] }
  let f := stamp env f
  if !env.marshalOk then (false, w0) else
  if !env.ensureDirOk then (false, w0) else
  let w1 := backupExisting env w0
  if !env.tmpWriteOk then
    (false, restoreBackup env.restoreWriteOk env.restoreWriteCut
      { w1 with tmp := failedWrite env.tmpWriteCut w1.tmp }) else
  let w2 := { w1 with tmp := some (.file f) }
  let w3 := removeDestination env w2
  if !env.renameOk then
    (false, cleanupTemp env.removeTmpOk
      (restoreBackup env.restoreWriteOk env.restoreWriteCut w3))
  else
  let w4 := { w3 with main := w3.tmp, tmp := none }
  (true, removeBackup env w4)

/-- Go `Resolve`; `none` is the nil pointer. -/
def Resolve (tLoad : String) (aliasName : String) (w : World) : Option AliasEntry :=
  if aliasName = "" || !validAliasName aliasName then none
  else (Load tLoad w).Aliases.get? aliasName

/-- Go struct `SetResult`. -/
structure SetResult where
  Success : Bool := false
  IsNew : Bool := false
  Alias : String := ""
  SessionPath : String := ""
  Title : String := ""
  Error : String := ""
deriving DecidableEq, Repr

/-- The part of Go `Set` that follows the validation of its arguments. -/
def setStore (tLoad now : String) (env : SaveEnv) (aliasName sessionPath title : String)
    (w : World) : SetResult × World :=
  let f := Load tLoad w
  let existing := f.Aliases.get? aliasName
  let entry : AliasEntry :=
    { SessionPath := sessionPath
      UpdatedAt := now
      Title := if title ≠ "" then title else ""
      CreatedAt := match existing with
        | some e => e.CreatedAt
        | none => now }
  let f := { f with Aliases := f.Aliases.put aliasName entry }
  let r := Save env f w
  if !r.1 then
    ({ Error := "Failed to save alias" }, r.2)
  else
    ({ Success := true, IsNew := existing.isNone, Alias := aliasName,
       SessionPath := sessionPath, Title := title }, r.2)

/-- Go `Set`.  `tLoad` is the time read by `Load`, `now` the one read by `Set`. -/
def Set (tLoad now : String) (env : SaveEnv) (aliasName sessionPath title : String)
    (w : World) : SetResult × World :=
  if aliasName = "" then
    ({ Error := "Alias name cannot be empty" }, w)
  else if sessionPath = "" || TrimSpace sessionPath = "" then
    ({ Error := "Session path cannot be empty" }, w)
  else if aliasName.utf8ByteSize > 128 then
    ({ Error := "Alias name cannot exceed 128 characters" }, w)
  else if !validAliasName aliasName then
    ({ Error := "Alias name must contain only letters, numbers, dashes, and underscores" }, w)
  else if reservedNames.contains (ToLower aliasName) then
    ({ Error := "\x27" ++ aliasName ++ "\x27 is a reserved alias name" }, w)
  else
    setStore tLoad now env aliasName sessionPath title w

/-- Go struct `DeleteResult`. -/
structure DeleteResult where
  Success : Bool := false
  Alias : String := ""
  DeletedSessionPath : String := ""
  Error : String := ""
deriving DecidableEq, Repr

/-- Go `Delete`. -/
def Delete (tLoad : String) (env : SaveEnv) (aliasName : String) (w : World) :
    DeleteResult × World :=
  let f := Load tLoad w
  match f.Aliases.get? aliasName with
  | none => ({ Error := "Alias \x27" ++ aliasName ++ "\x27 not found" }, w)
  | some entry =>
    let r := Save env { f with Aliases := f.Aliases.delete aliasName } w
    if !r.1 then
      ({ Error := "Failed to delete alias" }, r.2)
    else
      ({ Success := true, Alias := aliasName, DeletedSessionPath := entry.SessionPath }, r.2)

/-- The part of Go `Rename` that follows the validation of the new name.  `env`
belongs to the first `Save`, `env2` to the `Save` of the rollback. -/
def renameStore (tLoad now : String) (env env2 : SaveEnv) (oldAlias newAlias : String)
    (w : World) : SetResult × World :=
  let f := Load tLoad w
  match f.Aliases.get? oldAlias with
  | none => ({ Error := "Alias \x27" ++ oldAlias ++ "\x27 not found" }, w)
  | some entry0 =>
    if (f.Aliases.get? newAlias).isSome then
      ({ Error := "Alias \x27" ++ newAlias ++ "\x27 already exists" }, w)
    else
      let m1 := f.Aliases.delete oldAlias
      let entry := { entry0 with UpdatedAt := now }
      let m2 := m1.put newAlias entry
      let r := Save env { f with Aliases := m2 } w
      if !r.1 then
        let m3 := m2.put oldAlias entry
        let m4 := m3.delete newAlias
        let r2 := Save env2 { f with Aliases := m4 } r.2
        ({ Error := "Failed to save renamed alias — rolled back to original" }, r2.2)
      else
        ({ Success := true, Alias := newAlias, SessionPath := entry.SessionPath }, r.2)

/-- Go `Rename`. -/
def Rename (tLoad now : String) (env env2 : SaveEnv) (oldAlias newAlias : String)
    (w : World) : SetResult × World :=
  if newAlias = "" then
    ({ Error := "New alias name cannot be empty" }, w)
  else if newAlias.utf8ByteSize > 128 then
    ({ Error := "New alias name cannot exceed 128 characters" }, w)
  else if !validAliasName newAlias then
    ({ Error := "New alias name must contain only letters, numbers, dashes, and underscores" }, w)
  else if reservedNames.contains (ToLower newAlias) then
    ({ Error := "\x27" ++ newAlias ++ "\x27 is a reserved alias name" }, w)
  else
    renameStore tLoad now env env2 oldAlias newAlias w

/-- Go `Cleanup`; the result is `((checked, removed), world)`. -/
def Cleanup (tLoad : String) (env : SaveEnv) (sessionExists : String → Bool)
    (w : World) : (Nat × Nat) × World :=
  let f := Load tLoad w
  let toRemove := (f.Aliases.filter (fun p => !sessionExists p.2.SessionPath)).map Prod.fst
  let checked := f.Aliases.length
  let m := toRemove.foldl AliasMap.delete f.Aliases
  let w1 := if toRemove.length > 0 then (Save env { f with Aliases := m } w).2 else w
  ((checked, toRemove.length), w1)

/-! ## Command builders of the package-manager detector -/

/-- Go struct `Config`. -/
structure Config where
  Name : String
  LockFile : String
  InstallCmd : String
  RunCmd : String
  ExecCmd : String
  TestCmd : String
  BuildCmd : String
  DevCmd : String
deriving DecidableEq, Repr

/-- Go struct `Result` of the detector. -/
structure Result where
  Name : String
  Config : Config
  Source : String
deriving DecidableEq, Repr

/-- The entry `managers["npm"]`. -/
def npmConfig : Config :=
  { Name := "npm", LockFile := "package-lock.json", InstallCmd := "npm install",
    RunCmd := "npm run", ExecCmd := "npx", TestCmd := "npm test",
    BuildCmd := "npm run build", DevCmd := "npm run dev" }

/-- Character class of `safeNameRegex`: at sign, letters, digits, underscore, dot,
slash and dash. -/
def safeNameChar (c : Char) : Bool :=
  c == '@' || isAlnum c || c == '_' || c == '.' || c == '/' || c == '-'

/-- The class `\s` of Go `regexp`: `[\t\n\f\r ]`. -/
def reSpace (c : Char) : Bool :=
  c == '\t' || c == '\n' || c.toNat == 0x0C || c == '\r' || c == ' '

/-- Character class of `safeArgsRegex`: at sign, letters, digits, the class `\s`,
underscore, dot, slash, colon, equals sign, comma, both quotes, star, plus and dash. -/
def safeArgsChar (c : Char) : Bool :=
  c == '@' || isAlnum c || reSpace c || c == '_' || c == '.' || c == '/' || c == ':' ||
  c == '=' || c == ',' || c.toNat == 0x27 || c == '"' || c == '*' || c == '+' || c == '-'

/-- The regular expression `safeNameRegex`. -/
def safeNameRegex (s : String) : Bool := matchClassPlus safeNameChar s

/-- The regular expression `safeArgsRegex`. -/
def safeArgsRegex (s : String) : Bool := matchClassPlus safeArgsChar s

/-- Go `GetRunCommand`.  `Detect` is the detector, which reads the environment and the
project directory; `.error` is the Go result `("", err)`. -/
def GetRunCommand (Detect : String → Result) (script projectDir : String) :
    Except String String :=
  if script = "" then
    .error "script name must be a non-empty string"
  else if !safeNameRegex script then
    .error ("script name contains unsafe characters: " ++ script)
  else
    let pm := Detect projectDir
    if script = "install" then .ok pm.Config.InstallCmd
    else if script = "test" then .ok pm.Config.TestCmd
    else if script = "build" then .ok pm.Config.BuildCmd
    else if script = "dev" then .ok pm.Config.DevCmd
    else .ok (pm.Config.RunCmd ++ " " ++ script)

/-- Go `GetExecCommand`. -/
def GetExecCommand (Detect : String → Result) (binary args projectDir : String) :
    Except String String :=
  if binary = "" then
    .error "binary name must be a non-empty string"
  else if !safeNameRegex binary then
    .error ("binary name contains unsafe characters: " ++ binary)
  else if args ≠ "" && !safeArgsRegex args then
    .error ("arguments contain unsafe characters: " ++ args)
  else
    let pm := Detect projectDir
    let cmd := pm.Config.ExecCmd ++ " " ++ binary
    let cmd := if args ≠ "" then cmd ++ " " ++ args else cmd
    .ok cmd

/-! ## Go library functions used by the listings -/

/-- The bytes of a Go string, as numbers. -/
def utf8Bytes (s : String) : List Nat :=
  (s.data.flatMap String.utf8EncodeChar).map UInt8.toNat

/-- Lexicographic order on byte sequences. -/
def lexLt : List Nat → List Nat → Bool
  | _, [] => false
  | [], _ :: _ => true
  | a :: as, b :: bs => decide (a < b) || (a == b && lexLt as bs)

/-- Go `a > b` on strings: byte-wise lexicographic comparison. -/
def strGt (a b : String) : Bool := lexLt (utf8Bytes b) (utf8Bytes a)

/-- Inner loop of Go `insertionSortLessFunc`: the element `x` enters the sorted prefix
from the right and is swapped with its left neighbour as long as it is less than it.
The prefix is given last element first. -/
def insertFromRight {α : Type} (less : α → α → Bool) (x : α) : List α → List α
  | [] => [x]
  | y :: ys => if less x y then y :: insertFromRight less x ys else x :: y :: ys

/-- Go `sort.Slice(data, less)`, as the insertion sort the library runs on slices of at
most 12 elements.  On longer slices the library may leave elements that are equal under
`less` in another order. -/
def sortSlice {α : Type} (less : α → α → Bool) (data : List α) : List α :=
  (data.foldl (fun sortedRev x => insertFromRight less x sortedRev) []).reverse

/-- Go `strings.Contains`. -/
def Contains (s substr : String) : Bool :=
  s.data.tails.any (fun t => substr.data.isPrefixOf t)

/-- Go `strings.HasPrefix`. -/
def HasPrefix (s pre : String) : Bool := pre.data.isPrefixOf s.data

/-- Go `strings.HasSuffix`. -/
def HasSuffix (s suffix : String) : Bool := suffix.data.isSuffixOf s.data

/-- Go `strings.ToLower` on arbitrary text: every rune is mapped by `unicode.ToLower`,
a table of the Go library that is the parameter `lower`. -/
def ToLowerWith (lower : Char → Char) (s : String) : String :=
  ⟨s.data.map lower⟩

/-! ## Listing and resolving aliases -/

/-- Go struct `AliasInfo`. -/
structure AliasInfo where
  Name : String
  SessionPath : String
  CreatedAt : String
  UpdatedAt : String
  Title : String
deriving DecidableEq, Repr

/-- The `AliasInfo` that `List` appends for a map entry. -/
def aliasInfo (p : String × AliasEntry) : AliasInfo :=
  { Name := p.1, SessionPath := p.2.SessionPath, CreatedAt := p.2.CreatedAt,
    UpdatedAt := p.2.UpdatedAt, Title := p.2.Title }

/-- The time `List` sorts by: `UpdatedAt`, or `CreatedAt` when `UpdatedAt` is empty. -/
def effective (a : AliasInfo) : String :=
  if a.UpdatedAt = "" then a.CreatedAt else a.UpdatedAt

/-- The comparison function `List` hands to `sort.Slice`. -/
def newerFirst (x y : AliasInfo) : Bool := strGt (effective x) (effective y)

/-- The filter of `List` for a search string already in lower case. -/
def searchMatches (lower : Char → Char) (searchLower : String) (a : AliasInfo) : Bool :=
  Contains (ToLowerWith lower a.Name) searchLower ||
    Contains (ToLowerWith lower a.Title) searchLower

/-- Go `List` of the alias store.  `lower` is `unicode.ToLower`. -/
def ListAliases (lower : Char → Char) (tLoad : String) (search : String) (limit : Int)
    (w : World) : List AliasInfo :=
  let f := Load tLoad w
  let aliases : List AliasInfo := f.Aliases.map aliasInfo
  let aliases := sortSlice newerFirst aliases
  let aliases :=
    if search ≠ "" then
      aliases.filter (searchMatches lower (ToLowerWith lower search))
    else aliases
  if limit > 0 ∧ (aliases.length : Int) > limit then aliases.take limit.toNat else aliases

/-- Go `ResolveSessionAlias`. -/
def ResolveSessionAlias (tLoad : String) (aliasOrID : String) (w : World) : String :=
  match Resolve tLoad aliasOrID w with
  | some entry => entry.SessionPath
  | none => aliasOrID

/-! ## Session file names -/

/-- The class `\d` of Go `regexp`: an ASCII digit. -/
def isDigit (c : Char) : Bool := '0' ≤ c && c ≤ '9'

/-- The class `[a-z0-9]`. -/
def idChar (c : Char) : Bool := ('a' ≤ c && c ≤ 'z') || isDigit c

/-- Match of `\d{4}-\d{2}-\d{2}` against a whole text. -/
def datePattern : List Char → Bool
  | [y1, y2, y3, y4, s1, m1, m2, s2, d1, d2] =>
    isDigit y1 && isDigit y2 && isDigit y3 && isDigit y4 && s1 == '-' &&
    isDigit m1 && isDigit m2 && s2 == '-' && isDigit d1 && isDigit d2
  | _ => false

/-- The literal tail `-session\.tmp` of `filenameRegex`. -/
def sessionSuffix : List Char := "-session.tmp".data

/-- The regular expression `filenameRegex`,
`^(\d{4}-\d{2}-\d{2})(?:-([a-z0-9]{8,}))?-session\.tmp$`, as
`FindStringSubmatch`: the result holds the groups 1 and 2, group 2 being empty when
the optional part does not take part in the match.  The optional part is tried first;
its `[a-z0-9]{8,}` must reach the next dash, so it is the whole run of such
characters. -/
def filenameRegex (filename : String) : Option (String × String) :=
  let date := filename.data.take 10
  let rest := filename.data.drop 10
  if !datePattern date then none
  else
    match rest with
    | '-' :: r =>
      if 8 ≤ (r.takeWhile idChar).length && r.dropWhile idChar == sessionSuffix then
        some (⟨date⟩, ⟨r.takeWhile idChar⟩)
      else if rest == sessionSuffix then some (⟨date⟩, "")
      else none
    | _ => none

/-- Go `strings.Split(s, sep)` for a separator of one character. -/
def splitSep (sep : Char) : List Char → List (List Char)
  | [] => [[]]
  | c :: cs =>
    if c = sep then [] :: splitSep sep cs
    else
      match splitSep sep cs with
      | [] => [[c]]
      | p :: ps => (c :: p) :: ps

/-- Go `strconv.Atoi` on a text of decimal digits. -/
def Atoi (s : List Char) : Nat :=
  s.foldl (fun n c => 10 * n + (c.toNat - '0'.toNat)) 0

/-- Leap years of the Gregorian calendar, as in Go `time`. -/
def isLeap (year : Nat) : Bool :=
  year % 4 == 0 && (year % 100 != 0 || year % 400 == 0)

/-- The number of days of a month. -/
def daysIn (year month : Nat) : Nat :=
  if month = 2 then (if isLeap year then 29 else 28)
  else if month = 4 ∨ month = 6 ∨ month = 9 ∨ month = 11 then 30
  else 31

/-- The civil date that `time.Date(year, month, day, ...)` asks for, with a month from
1 to 12 and a day from 1 to 31: a day past the end of the month is normalised into the
next month. -/
def timeDate (year month day : Nat) : Nat × Nat × Nat :=
  if day ≤ daysIn year month then (year, month, day)
  else if month = 12 then (year + 1, 1, day - daysIn year month)
  else (year, month + 1, day - daysIn year month)

/-- A Go `*time.Location`, such as `time.Local`: `lookup sec` is the offset in seconds
east of UTC that is in use at the instant `sec` (seconds since 1 January 1970 UTC), and
the instants at which that offset starts and ends. -/
structure Location where
  lookup : Int → Int × Int × Int

/-- The number of days from 1 January 1970 to the given day of the Gregorian calendar,
the count behind the seconds of `time.Date`; a day past the end of the month counts
on. -/
def daysFromCivil (year month day : Nat) : Int :=
  let y : Int := if month ≤ 2 then (year : Int) - 1 else (year : Int)
  let era := y / 400
  let yoe := y - era * 400
  let mp : Int := if month > 2 then (month : Int) - 3 else (month : Int) + 9
  let doy := (153 * mp + 2) / 5 + (day : Int) - 1
  let doe := yoe * 365 + yoe / 4 - yoe / 100 + doy
  era * 146097 + doe - 719468

/-- Leap years, for a year of any sign. -/
def isLeapYear (year : Int) : Bool :=
  year % 4 == 0 && (year % 100 != 0 || year % 400 == 0)

/-- The number of days of a month, for a year of any sign. -/
def monthLength (year : Int) (month : Nat) : Nat :=
  if month = 2 then (if isLeapYear year then 29 else 28)
  else if month = 4 ∨ month = 6 ∨ month = 9 ∨ month = 11 then 30
  else 31

/-- The day before a date. -/
def prevDay (d : Int × Nat × Nat) : Int × Nat × Nat :=
  if d.2.2 > 1 then (d.1, d.2.1, d.2.2 - 1)
  else if d.2.1 > 1 then (d.1, d.2.1 - 1, monthLength d.1 (d.2.1 - 1))
  else (d.1 - 1, 12, 31)

/-- The day after a date. -/
def nextDay (d : Int × Nat × Nat) : Int × Nat × Nat :=
  if d.2.2 < monthLength d.1 d.2.1 then (d.1, d.2.1, d.2.2 + 1)
  else if d.2.1 < 12 then (d.1, d.2.1 + 1, 1)
  else (d.1 + 1, 1, 1)

/-- The date `k` days after a date (before it, for a negative `k`). -/
def shiftDays (k : Int) (d : Int × Nat × Nat) : Int × Nat × Nat :=
  if k ≥ 0 then Nat.iterate nextDay k.toNat d else Nat.iterate prevDay (-k).toNat d

/-- Go `time.Date(year, month, day, 0, 0, 0, 0, loc)` for a month from 1 to 12 and a day
from 1 to 31, as `Year()`, `Month()` and `Day()` of the result.  The library takes the
seconds of the civil midnight as if it were UTC, looks the offset up at that instant,
looks it up again when the instant so corrected is outside the period of the first
offset, and subtracts it.  The date of the result is the date of its wall clock in the
location: the civil date asked for, moved by the whole days that lie between that
wall clock and the midnight asked for. -/
def timeDateIn (loc : Location) (year month day : Nat) : Int × Nat × Nat :=
  let unix := daysFromCivil year month day * 86400
  let zone := loc.lookup unix
  let result :=
    if zone.1 ≠ 0 then
      let utc := unix - zone.1
      let offset :=
        if utc < zone.2.1 ∨ utc ≥ zone.2.2 then (loc.lookup utc).1 else zone.1
      unix - offset
    else unix
  let wall := result + (loc.lookup result).1
  let civil := timeDate year month day
  shiftDays ((wall - unix) / 86400) ((civil.1 : Int), civil.2.1, civil.2.2)

/-- Go struct `FileInfo`; `Datetime` is kept as the year, month and day of the time
value in its location. -/
structure FileInfo where
  Filename : String
  ShortID : String
  Date : String
  Datetime : Int × Nat × Nat
deriving DecidableEq, Repr

/-- Go `ParseFilename`; `none` is the nil pointer.  `loc` is `time.Local`. -/
def ParseFilename (loc : Location) (filename : String) : Option FileInfo :=
  match filenameRegex filename with
  | none => none
  | some (dateStr, id) =>
    let parts := splitSep '-' dateStr.data
    let year := Atoi (parts.getD 0 [])
    let month := Atoi (parts.getD 1 [])
    let day := Atoi (parts.getD 2 [])
    if month < 1 || month > 12 || day < 1 || day > 31 then none
    else
      let d := timeDateIn loc year month day
      if d.2.1 ≠ month || d.2.2 ≠ day then none
      else
        some { Filename := filename
               ShortID := if id = "" then "no-id" else id
               Date := dateStr
               Datetime := d }

/-! ## Listing and finding sessions -/

/-- What `os.Stat` reports of a file: `Size()` and `ModTime()`, the time as a number. -/
structure FileStat where
  Size : Int
  ModTime : Int
deriving DecidableEq, Repr

/-- An entry of `os.ReadDir`, with the outcome of `os.Stat` on its path (`none` when
`os.Stat` returns an error). -/
structure DirEntry where
  Name : String
  IsDir : Bool
  Stat : Option FileStat
deriving DecidableEq, Repr

/-- Go struct `SessionEntry`. -/
structure SessionEntry where
  toFileInfo : FileInfo
  SessionPath : String
  HasContent : Bool
  Size : Int
  ModifiedTime : Int
  CreatedTime : Int
deriving DecidableEq, Repr

/-- Go struct `ListResult`. -/
structure ListResult where
  Sessions : List SessionEntry
  Total : Int
  Offset : Int
  Limit : Int
  HasMore : Bool
deriving DecidableEq, Repr

/-- Addition of Go `int` values on a 64-bit platform wraps around. -/
def wrap64 (x : Int) : Int := (x + 2 ^ 63) % 2 ^ 64 - 2 ^ 63

/-- Go `filepath.Join(sessionsDir, name)` for a clean directory and a plain name. -/
def joinPath (sessionsDir name : String) : String := sessionsDir ++ "/" ++ name

/-- The body of the loop of `ListAll` for one entry: the session appended, if any. -/
def listEntry (loc : Location) (sessionsDir dateFilter search : String)
    (entry : DirEntry) : Option SessionEntry :=
  if entry.IsDir || !HasSuffix entry.Name ".tmp" then none
  else
    match ParseFilename loc entry.Name with
    | none => none
    | some info =>
      if dateFilter ≠ "" && info.Date ≠ dateFilter then none
      else if search ≠ "" && !Contains info.ShortID search then none
      else
        match entry.Stat with
        | none => none
        | some stat =>
          some { toFileInfo := info
                 SessionPath := joinPath sessionsDir entry.Name
                 HasContent := stat.Size > 0
                 Size := stat.Size
                 ModifiedTime := stat.ModTime
                 CreatedTime := stat.ModTime }

/-- The comparison function `ListAll` hands to `sort.Slice`. -/
def modifiedAfter (a b : SessionEntry) : Bool := decide (a.ModifiedTime > b.ModifiedTime)

/-- Go `ListAll`.  `loc` is `time.Local` and `dir` is the result of `os.ReadDir` (`none`
when it returns an error).  The result is `none` when the slice expression
`sessions[start:end]` panics. -/
def ListAll (loc : Location) (sessionsDir : String) (dir : Option (List DirEntry))
    (limit offset : Int) (dateFilter search : String) : Option ListResult :=
  let limit := if limit ≤ 0 then 50 else limit
  let offset := if offset < 0 then 0 else offset
  match dir with
  | none => some { Sessions := [], Total := 0, Offset := offset, Limit := limit,
                   HasMore := false }
  | some entries =>
    let sessions := entries.filterMap (listEntry loc sessionsDir dateFilter search)
    let sessions := sortSlice modifiedAfter sessions
    let total : Int := sessions.length
    let end0 := wrap64 (offset + limit)
    let end1 := if end0 > total then total else end0
    let start := if offset > total then total else offset
    if 0 ≤ start ∧ start ≤ end1 ∧ end1 ≤ total then
      some { Sessions := (sessions.drop start.toNat).take (end1 - start).toNat
             Total := total, Offset := offset, Limit := limit
             HasMore := decide (end1 < total) }
    else none

/-- The three ways an entry matches the id in `FindByID`. -/
def idMatches (sessionID : String) (name : String) (info : FileInfo) : Bool :=
  let shortIDMatch := decide (sessionID.utf8ByteSize > 0) && info.ShortID != "no-id" &&
    HasPrefix info.ShortID sessionID
  let filenameMatch := name == sessionID || name == sessionID ++ ".tmp"
  let noIDMatch := info.ShortID == "no-id" && name == sessionID ++ "-session.tmp"
  shortIDMatch || filenameMatch || noIDMatch

/-- The loop of `FindByID` over the directory entries. -/
def findLoop (loc : Location) (sessionsDir sessionID : String) :
    List DirEntry → Option SessionEntry
  | [] => none
  | entry :: rest =>
    if entry.IsDir || !HasSuffix entry.Name ".tmp" then
      findLoop loc sessionsDir sessionID rest
    else
      match ParseFilename loc entry.Name with
      | none => findLoop loc sessionsDir sessionID rest
      | some info =>
        if !idMatches sessionID entry.Name info then
          findLoop loc sessionsDir sessionID rest
        else
          match entry.Stat with
          | none => none
          | some stat =>
            some { toFileInfo := info
                   SessionPath := joinPath sessionsDir entry.Name
                   HasContent := false
                   Size := stat.Size
                   ModifiedTime := stat.ModTime
                   CreatedTime := stat.ModTime }

/-- Go `FindByID`; `none` is the nil pointer.  `loc` is `time.Local`. -/
def FindByID (loc : Location) (sessionsDir : String) (dir : Option (List DirEntry))
    (sessionID : String) (_includeContent : Bool) : Option SessionEntry :=
  match dir with
  | none => none
  | some entries => findLoop loc sessionsDir sessionID entries

/-! ## Session metadata -/

/-- The part `\s*\n` of the section expressions at the head of a text, as the text
that follows the match: `\s*` is greedy, so the longer run of white space is tried
first and the run is given back character by character until a newline follows. -/
def skipSpaceNewline : List Char → Option (List Char)
  | [] => none
  | c :: cs =>
    if reSpace c then
      match skipSpaceNewline cs with
      | some r => some r
      | none => if c = '\n' then some cs else none
    else none

/-- The part `([\s\S]*?)(?:###|\n\n|$)` of the section expressions at the head of a
text, as group 1: the shortest text that is followed by `###`, by two newlines or by
the end of the text. -/
def lazyUntilBreak : List Char → List Char
  | [] => []
  | c :: cs =>
    if "###".data.isPrefixOf (c :: cs) || "\n\n".data.isPrefixOf (c :: cs) then []
    else c :: lazyUntilBreak cs

/-- A match of `hdr\s*\n([\s\S]*?)(?:###|\n\n|$)` at the head of a text, as group 1. -/
def sectionAt (hdr : List Char) (s : List Char) : Option (List Char) :=
  if hdr.isPrefixOf s then (skipSpaceNewline (s.drop hdr.length)).map lazyUntilBreak
  else none

/-- Go `FindStringSubmatch` of `hdr\s*\n([\s\S]*?)(?:###|\n\n|$)`: group 1 of the
leftmost match (`completedRe` and `progressRe` are the instances for the headers
`### Completed` and `### In Progress`). -/
def findSection (hdr : List Char) : List Char → Option (List Char)
  | [] => sectionAt hdr []
  | c :: cs =>
    match sectionAt hdr (c :: cs) with
    | some g => some g
    | none => findSection hdr cs

/-- The part `\s*(.+)` of the checkbox expressions at the head of a text, as group 1
and the text after the match: `\s*` is greedy and gives back, `.` is any character but
the newline and `.+` is greedy. -/
def spaceThenText : List Char → Option (List Char × List Char)
  | [] => none
  | c :: cs =>
    if reSpace c then
      match spaceThenText cs with
      | some r => some r
      | none =>
        if c ≠ '\n' then
          some ((c :: cs).takeWhile (fun d => d != '\n'), (c :: cs).dropWhile (fun d => d != '\n'))
        else none
    else
      some ((c :: cs).takeWhile (fun d => d != '\n'), (c :: cs).dropWhile (fun d => d != '\n'))

/-- A match of `mark\s*(.+)` at the head of a text. -/
def checkboxAt (mark : List Char) (s : List Char) : Option (List Char × List Char) :=
  if mark.isPrefixOf s then spaceThenText (s.drop mark.length) else none

/-- Go `FindAllStringSubmatch(s, -1)` of `mark\s*(.+)`: group 1 of the successive
leftmost matches, each search starting where the match before ended (`checkboxXRe` and
`checkboxRe` are the instances for the marks `- [x]` and `- [ ]`).  `skip` counts the
characters of the last match that are still to be passed. -/
def findAllFrom (mark : List Char) : Nat → List Char → List (List Char)
  | _, [] => []
  | skip + 1, _ :: cs => findAllFrom mark skip cs
  | 0, c :: cs =>
    match checkboxAt mark (c :: cs) with
    | some (g, rest) => g :: findAllFrom mark ((c :: cs).length - rest.length - 1) cs
    | none => findAllFrom mark 0 cs

/-- The fields `Completed` and `InProgress` of the Go struct `Metadata` of a session.
The other fields (`Title`, `Date`, `Started`, `LastUpdated`, `Notes`, `Context`) are
each set from an expression of their own and do not enter these two. -/
structure SessionMetadata where
  Completed : List String
  InProgress : List String
deriving DecidableEq, Repr

/-- The items of one section of `ParseMetadata`. -/
def sectionItems (hdr mark : String) (content : String) : List String :=
  match findSection hdr.data content.data with
  | some g => (findAllFrom mark.data 0 g).map (fun item => TrimSpace ⟨item⟩)
  | none => []

/-- Go `ParseMetadata`, for the fields `Completed` and `InProgress`. -/
def ParseMetadata (content : String) : SessionMetadata :=
  if content = "" then { Completed := [], InProgress := [] }
  else
    { Completed := sectionItems "### Completed" "- [x]" content
      InProgress := sectionItems "### In Progress" "- [ ]" content }

/-! ## The package-manager detector -/

/-- The entry `managers["pnpm"]`. -/
def pnpmConfig : Config :=
  { Name := "pnpm", LockFile := "pnpm-lock.yaml", InstallCmd := "pnpm install",
    RunCmd := "pnpm", ExecCmd := "pnpm dlx", TestCmd := "pnpm test",
    BuildCmd := "pnpm build", DevCmd := "pnpm dev" }

/-- The entry `managers["yarn"]`. -/
def yarnConfig : Config :=
  { Name := "yarn", LockFile := "yarn.lock", InstallCmd := "yarn", RunCmd := "yarn",
    ExecCmd := "yarn dlx", TestCmd := "yarn test", BuildCmd := "yarn build",
    DevCmd := "yarn dev" }

/-- The entry `managers["bun"]`. -/
def bunConfig : Config :=
  { Name := "bun", LockFile := "bun.lockb", InstallCmd := "bun install",
    RunCmd := "bun run", ExecCmd := "bunx", TestCmd := "bun test",
    BuildCmd := "bun run build", DevCmd := "bun run dev" }

/-- The zero value of the Go struct `Config`. -/
def zeroConfig : Config :=
  { Name := "", LockFile := "", InstallCmd := "", RunCmd := "", ExecCmd := "",
    TestCmd := "", BuildCmd := "", DevCmd := "" }

/-- The Go map `managers`, as the lookup `cfg, ok := managers[name]`. -/
def managers (name : String) : Option Config :=
  if name = "npm" then some npmConfig
  else if name = "pnpm" then some pnpmConfig
  else if name = "yarn" then some yarnConfig
  else if name = "bun" then some bunConfig
  else none

/-- The Go expression `managers[name]`: the zero value for a missing key. -/
def managersAt (name : String) : Config := (managers name).getD zeroConfig

/-- The Go slice `detectionPriority`. -/
def detectionPriority : List String := ["pnpm", "bun", "yarn", "npm"]

/-- What the detector reads of its host: the environment (`os.Getenv`), the working
directory (`os.Getwd`), `platform.ClaudeDir()`, `filepath.Join`, the readable files
(`fileutil.ReadFile`, `none` when the file cannot be read), the paths `os.Stat` finds
(`fileutil.Exists`), and `json.Unmarshal` into a struct with the one field
`packageManager` (`none` when it returns an error). -/
structure Host where
  Getenv : String → String
  Getwd : String
  ClaudeDir : String
  Join : List String → String
  ReadFile : String → Option String
  Exists : String → Bool
  Unmarshal : String → Option String

/-- Go `configPath`. -/
def configPath (h : Host) : String := h.Join [h.ClaudeDir, "package-manager.json"]

/-- The loop of `DetectFromLockFile` over the remaining names. -/
def lockFileLoop (h : Host) (projectDir : String) : List String → String
  | [] => ""
  | name :: rest =>
    let cfg := managersAt name
    if h.Exists (h.Join [projectDir, cfg.LockFile]) then name
    else lockFileLoop h projectDir rest

/-- Go `DetectFromLockFile`. -/
def DetectFromLockFile (h : Host) (projectDir : String) : String :=
  lockFileLoop h projectDir detectionPriority

/-- Go `DetectFromPackageJSON`. -/
def DetectFromPackageJSON (h : Host) (projectDir : String) : String :=
  match h.ReadFile (h.Join [projectDir, "package.json"]) with
  | none => ""
  | some content =>
    match h.Unmarshal content with
    | none => ""
    | some packageManager =>
      if packageManager = "" then ""
      else
        let name : String := ⟨(splitSep '@' packageManager.data).headD []⟩
        if (managers name).isSome then name else ""

/-- The stages 2 and 5 of `Detect`: the manager named by the config file at `path`,
when the file can be read, decodes, and names an entry of `managers`. -/
def configStage (h : Host) (path source : String) : Option Result :=
  match h.ReadFile path with
  | none => none
  | some content =>
    match h.Unmarshal content with
    | none => none
    | some packageManager =>
      if packageManager ≠ "" then
        match managers packageManager with
        | some c => some { Name := packageManager, Config := c, Source := source }
        | none => none
      else none

/-- Go `Detect`. -/
def Detect (h : Host) (projectDir : String) : Result :=
  let projectDir := if projectDir = "" then h.Getwd else projectDir
  let envPm := h.Getenv "CLAUDE_PACKAGE_MANAGER"
  match (if envPm ≠ "" then managers envPm else none) with
  | some cfg => { Name := envPm, Config := cfg, Source := "environment" }
  | none =>
    match configStage h (h.Join [projectDir, ".claude", "package-manager.json"])
        "project-config" with
    | some r => r
    | none =>
      let name := DetectFromPackageJSON h projectDir
      if name ≠ "" then { Name := name, Config := managersAt name, Source := "package.json" }
      else
        let name := DetectFromLockFile h projectDir
        if name ≠ "" then { Name := name, Config := managersAt name, Source := "lock-file" }
        else
          match configStage h (configPath h) "global-config" with
          | some r => r
          | none => { Name := "npm", Config := managersAt "npm", Source := "default" }

/-! ## The hook protocol -/

/-- A value that `json.Unmarshal` stores in an `any`: `nil`, `bool`, `float64` (kept as
its literal), `string`, `[]any` or `map[string]any`.  A map is an association list with
unique keys. -/
inductive JSON where
  | null : JSON
  | bool : Bool → JSON
  | number : String → JSON
  | string : String → JSON
  | array : List JSON → JSON
  | object : List (String × JSON) → JSON

/-- The Go expression `v.(string)` with its flag, on the result of a map lookup. -/
def asString : Option JSON → Option String
  | some (.string s) => some s
  | _ => none

/-- The Go expression `v.(map[string]any)` with its flag, on the result of a map
lookup. -/
def asObject : Option JSON → Option (List (String × JSON))
  | some (.object m) => some m
  | _ => none

/-- The Go expression `v.([]any)` with its flag, on the result of a map lookup. -/
def asArray : Option JSON → Option (List JSON)
  | some (.array a) => some a
  | _ => none

/-- Go `GetToolInput`; `none` is the nil map. -/
def GetToolInput (input : List (String × JSON)) : Option (List (String × JSON)) :=
  asObject (input.lookup "tool_input")

/-- Go `GetToolInputString`. -/
def GetToolInputString (input : List (String × JSON)) (field : String) : String :=
  match GetToolInput input with
  | none => ""
  | some ti =>
    match asString (ti.lookup field) with
    | some s => s
    | none => ""

/-- Go `GetToolOutput`; `none` is the nil map. -/
def GetToolOutput (input : List (String × JSON)) : Option (List (String × JSON)) :=
  asObject (input.lookup "tool_output")

/-- Go `GetToolOutputString`. -/
def GetToolOutputString (input : List (String × JSON)) (field : String) : String :=
  match GetToolOutput input with
  | none => ""
  | some toolOutput =>
    match asString (toolOutput.lookup field) with
    | some s => s
    | none => ""

/-- What a hook has written: the calls of `os.Stdout.Write`, each with its bytes, and
the lines printed on standard error, both in order. -/
structure Output where
  stdout : List (List Nat)
  stderr : List String
deriving DecidableEq, Repr

/-- Go `Passthrough`. -/
def Passthrough (data : List Nat) (o : Output) : Output :=
  { o with stdout := o.stdout ++ [data] }

/-- Go `Log`, and `Logf` on the text already formatted. -/
def Log (message : String) (o : Output) : Output :=
  { o with stderr := o.stderr ++ [message ++ "\n"] }

/-! ## The regular expressions of the inline hooks -/

/-- The class `\w` of Go `regexp`. -/
def isWordChar (c : Char) : Bool := isAlnum c || c == '_'

/-- An unanchored `MatchString`: the expression matches at the start of some suffix of
the text. -/
def matchesSomewhere (atStart : List Char → Bool) (s : String) : Bool :=
  s.data.tails.any atStart

/-- A literal at the start of the text. -/
def lit (l : String) (t : List Char) : Bool := l.data.isPrefixOf t

/-- A literal that ends in a word character, followed by `\b`: the next character is
not a word character. -/
def litB (l : String) (t : List Char) : Bool :=
  l.data.isPrefixOf t &&
    match (t.drop l.data.length).head? with
    | some c => !isWordChar c
    | none => true

/-- The regular expression `devServerRe`. -/
def devServerRe (s : String) : Bool :=
  matchesSomewhere (fun t => litB "npm run dev" t || (litB "pnpm run dev" t || litB "pnpm dev" t)
    || litB "yarn dev" t || litB "bun run dev" t) s

/-- The regular expression `longRunningRe`; the group after `yarn ` is optional, so the
third alternative matches the literal `yarn ` alone. -/
def longRunningRe (s : String) : Bool :=
  matchesSomewhere (fun t =>
    (lit "npm install" t || lit "npm test" t) || (lit "pnpm install" t || lit "pnpm test" t)
    || lit "yarn " t || (lit "bun install" t || lit "bun test" t) || lit "cargo build" t
    || litB "make" t || litB "docker" t || lit "pytest" t || lit "vitest" t
    || lit "playwright" t) s

/-- The regular expression `gitPushRe`. -/
def gitPushRe (s : String) : Bool := matchesSomewhere (lit "git push") s

/-- The regular expression `randomDocRe`: `$` is the end of the text. -/
def randomDocRe (s : String) : Bool :=
  matchesSomewhere (fun t => t == ".md".data || t == ".txt".data) s

/-- The regular expression `allowedDocRe`. -/
def allowedDocRe (s : String) : Bool :=
  matchesSomewhere (fun t => t == "README.md".data || t == "CLAUDE.md".data ||
    t == "AGENTS.md".data || t == "CONTRIBUTING.md".data) s

/-- The regular expression `plansPathRe`. -/
def plansPathRe (s : String) : Bool := matchesSomewhere (lit ".claude/plans/") s

/-- The regular expression `ghPrCreateRe`. -/
def ghPrCreateRe (s : String) : Bool := matchesSomewhere (lit "gh pr create") s

/-- The regular expression `buildCmdRe`. -/
def buildCmdRe (s : String) : Bool :=
  matchesSomewhere (fun t => lit "npm run build" t || lit "pnpm build" t ||
    lit "yarn build" t) s

/-- The greedy `[^/]+` followed by the literal `next`, which starts with a slash: the
longest run without a slash is the only one that a slash can follow.  The result is
the run and the text after the literal. -/
def segmentThen (next : String) (t : List Char) : Option (List Char × List Char) :=
  let run := t.takeWhile (fun c => c ≠ '/')
  let rest := t.dropWhile (fun c => c ≠ '/')
  if run ≠ [] ∧ next.data.isPrefixOf rest then some (run, rest.drop next.data.length)
  else none

/-- The match of `prURLRe` at the start of the text, if there is one. -/
def prURLAt (t : List Char) : Option (List Char) :=
  if "https://github.com/".data.isPrefixOf t then
    match segmentThen "/" (t.drop "https://github.com/".data.length) with
    | none => none
    | some (owner, t1) =>
      match segmentThen "/pull/" t1 with
      | none => none
      | some (repo, t2) =>
        let digits := t2.takeWhile isDigit
        if digits ≠ [] then
          some ("https://github.com/".data ++ owner ++ '/' :: repo ++ "/pull/".data ++ digits)
        else none
  else none

/-- Go `prURLRe.FindString`: the leftmost match, the empty string when there is none. -/
def prURLFind : List Char → String
  | [] => ""
  | c :: cs =>
    match prURLAt (c :: cs) with
    | some m => ⟨m⟩
    | none => prURLFind cs

/-! ## The inline hooks -/

/-- Go `BlockDevServer`: the exit code and what was written.  `windows` is the test
`runtime.GOOS == "windows"`. -/
def BlockDevServer (windows : Bool) (input : List (String × JSON)) (raw : List Nat)
    (o : Output) : Int × Output :=
  if windows then (0, Passthrough raw o)
  else
    let cmd := GetToolInputString input "command"
    if devServerRe cmd then
      let o := Log "[Hook] BLOCKED: Dev server must run in tmux for log access" o
      let o := Log "[Hook] Use: tmux new-session -d -s dev \"npm run dev\"" o
      let o := Log "[Hook] Then: tmux attach -t dev" o
      (2, Passthrough raw o)
    else (0, Passthrough raw o)

/-- Go `inTmux`; `tmux` is the value of the environment variable `TMUX`. -/
def inTmux (tmux : String) : Bool := tmux ≠ ""

/-- Go `TmuxReminder`. -/
def TmuxReminder (windows : Bool) (tmux : String) (input : List (String × JSON))
    (raw : List Nat) (o : Output) : Output :=
  if windows then Passthrough raw o
  else
    let cmd := GetToolInputString input "command"
    let o :=
      if longRunningRe cmd then
        if !inTmux tmux then
          let o := Log "[Hook] Consider running in tmux for session persistence" o
          Log "[Hook] tmux new -s dev  |  tmux attach -t dev" o
        else o
      else o
    Passthrough raw o

/-- Go `GitPushReminder`. -/
def GitPushReminder (input : List (String × JSON)) (raw : List Nat) (o : Output) : Output :=
  let cmd := GetToolInputString input "command"
  let o :=
    if gitPushRe cmd then
      let o := Log "[Hook] Review changes before push..." o
      Log "[Hook] Continuing with push (remove this hook to add interactive review)" o
    else o
  Passthrough raw o

/-- Go `BlockRandomDocs`: the exit code and what was written. -/
def BlockRandomDocs (input : List (String × JSON)) (raw : List Nat) (o : Output) :
    Int × Output :=
  let filePath := GetToolInputString input "file_path"
  if filePath ≠ "" && randomDocRe filePath && !allowedDocRe filePath &&
      !plansPathRe filePath then
    let o := Log "[Hook] BLOCKED: Unnecessary documentation file creation" o
    let o := Log ("[Hook] File: " ++ filePath) o
    let o := Log "[Hook] Use README.md for documentation instead" o
    (2, Passthrough raw o)
  else (0, Passthrough raw o)

/-- Go `PRCreatedLog`. -/
def PRCreatedLog (input : List (String × JSON)) (raw : List Nat) (o : Output) : Output :=
  let cmd := GetToolInputString input "command"
  let o :=
    if ghPrCreateRe cmd then
      let output := GetToolOutputString input "output"
      let m := prURLFind output.data
      if m ≠ "" then
        let o := Log ("[Hook] PR created: " ++ m) o
        let parts := splitSep '/' m.data
        if parts.length ≥ 7 then
          let repo : String := ⟨parts.getD 3 []⟩ ++ "/" ++ ⟨parts.getD 4 []⟩
          let pr : String := ⟨parts.getD 6 []⟩
          Log ("[Hook] To review: gh pr review " ++ pr ++ " --repo " ++ repo) o
        else o
      else o
    else o
  Passthrough raw o

/-- Go `BuildAnalysis`. -/
def BuildAnalysis (input : List (String × JSON)) (raw : List Nat) (o : Output) : Output :=
  let cmd := GetToolInputString input "command"
  let o :=
    if buildCmdRe cmd then
      Log "[Hook] Build completed - async analysis running in background" o
    else o
  Passthrough raw o

/-! ## Glob patterns of `FindFiles` -/

/-- The text `globToRegex` writes for one character of the pattern. -/
def globChar (ch : Char) : List Char :=
  if ch = '*' then ['.', '*']
  else if ch = '?' then ['.']
  else if ch = '.' ∨ ch = '+' ∨ ch = '^' ∨ ch = '$' ∨ ch = '{' ∨ ch = '}' ∨ ch = '(' ∨
      ch = ')' ∨ ch = '|' ∨ ch = '[' ∨ ch = ']' ∨ ch = '\\' then ['\\', ch]
  else [ch]

/-- Go `globToRegex`: the loop over the runes of the pattern, writing to the builder. -/
def globToRegex (pattern : String) : String :=
  ⟨pattern.data.foldl (fun b ch => b ++ globChar ch) []⟩

/-- A piece of the regular expressions that `globToRegex` writes: `.*`, `.`, or a
character that stands for itself. -/
inductive Piece where
  | anyStar : Piece
  | anyChar : Piece
  | literal : Char → Piece
deriving DecidableEq, Repr

/-- The characters with a meaning in the syntax of Go `regexp`. -/
def isRegexMeta (c : Char) : Bool :=
  c == '\\' || c == '.' || c == '+' || c == '*' || c == '?' || c == '(' || c == ')' ||
  c == '|' || c == '[' || c == ']' || c == '{' || c == '}' || c == '^' || c == '$'

/-- Go `regexp.Compile` on the text that follows the opening `^`, for the expressions
made of `.*`, `.`, escaped punctuation and plain characters, closed by `$`.  An
expression with any other construct is outside the model (`none`); the text is read
from the left, one or two characters at a time. -/
def compileBody : List Char → Option (List Piece)
  | [] => none
  | [c] => if c = '$' then some [] else none
  | c :: d :: rest =>
    if c = '$' then none
    else if c = '\\' then
      if isRegexMeta d then (compileBody rest).map (fun ps => Piece.literal d :: ps)
      else none
    else if c = '.' then
      if d = '*' then (compileBody rest).map (fun ps => Piece.anyStar :: ps)
      else (compileBody (d :: rest)).map (fun ps => Piece.anyChar :: ps)
    else if isRegexMeta c then none
    else (compileBody (d :: rest)).map (fun ps => Piece.literal c :: ps)

/-- Go `regexp.Compile` on an expression that starts with `^`, as above. -/
def compileAnchored (re : String) : Option (List Piece) :=
  match re.data with
  | '^' :: body => compileBody body
  | _ => none

/-- The piece `.*` followed by the rest of the expression `k`: any run of characters
other than newline, then `k`. -/
def matchStar (k : List Char → Bool) : List Char → Bool
  | [] => k []
  | x :: s => k (x :: s) || (x != '\n' && matchStar k s)

/-- Go `MatchString` for an expression anchored at both ends: the pieces match the whole
text.  The dot matches every character but newline. -/
def matchPieces : List Piece → List Char → Bool
  | [], s => s.isEmpty
  | Piece.literal c :: ps, s =>
    match s with
    | x :: s' => x == c && matchPieces ps s'
    | [] => false
  | Piece.anyChar :: ps, s =>
    match s with
    | x :: s' => x != '\n' && matchPieces ps s'
    | [] => false
  | Piece.anyStar :: ps, s => matchStar (matchPieces ps) s

/-- The test of `FindFiles` on a file name: `regexp.Compile("^" + globToRegex(pattern) +
"$")` and `re.MatchString(name)`; `none` when `Compile` returns an error. -/
def globMatches (pattern name : String) : Option Bool :=
  (compileAnchored ("^" ++ globToRegex pattern ++ "$")).map (fun ps => matchPieces ps name.data)

/-! ## Replacing in a file -/

/-- A compiled regular expression of Go `regexp` that does not look behind (no `^`, no
`\b`).  `matchAt t` is the length of the leftmost-first match that starts at the head of
`t`, `none` when no match starts there; `expand template matched` is the text that
`Expand` writes for a template with a dollar sign and the matched text. -/
structure Regexp where
  matchAt : List Char → Option Nat
  expand : String → List Char → List Char

/-- The text that `ReplaceAllString` puts in the place of a match: the template itself
when it has no dollar sign. -/
def replacement (re : Regexp) (repl : String) (matched : List Char) : List Char :=
  if '$' ∈ repl.data then re.expand repl matched else repl.data

/-- The loop of the library function `replaceAll` behind `ReplaceAllString`, over the
text that is left.  `skip` counts the characters of the current match still to pass
over; `afterMatch` says that a match has just ended here, where an empty match is not
replaced.  Every match is replaced, from left to right, without overlap. -/
def replaceAll (re : Regexp) (repl : String) : Nat → Bool → List Char → List Char
  | _, afterMatch, [] =>
    match re.matchAt [] with
    | some _ => if afterMatch then [] else replacement re repl []
    | none => []
  | skip + 1, _, _ :: t => replaceAll re repl skip true t
  | 0, afterMatch, c :: t =>
    match re.matchAt (c :: t) with
    | none => c :: replaceAll re repl 0 false t
    | some 0 =>
      (if afterMatch then [] else replacement re repl []) ++
        c :: replaceAll re repl 0 false t
    | some (n + 1) =>
      replacement re repl ((c :: t).take (n + 1)) ++ replaceAll re repl n true t

/-- Go `(*Regexp).ReplaceAllString`. -/
def ReplaceAllString (re : Regexp) (src repl : String) : String :=
  ⟨replaceAll re repl 0 false src.data⟩

/-- Go `ReplaceRegexInFile`: the flag returned and the content of the file afterwards.
`file` is the content of the file (`none` when `ReadFile` fails), `Compile` is
`regexp.Compile` (`none` for an error) and `writeOk` says whether `WriteFile`
succeeds. -/
def ReplaceRegexInFile (Compile : String → Option Regexp) (writeOk : Bool)
    (file : Option String) (pattern replace : String) : Bool × Option String :=
  match file with
  | none => (false, file)
  | some content =>
    match Compile pattern with
    | none => (false, file)
    | some re =>
      let newContent := ReplaceAllString re content replace
      if newContent = content then (false, file)
      else if writeOk then (true, some newContent)
      else (false, file)

/-! ## The summary of a session -/

/-- Go struct `SessionSummary`.  A user message is kept as the bytes of the text, since
the slice `text[:200]` may end inside a character. -/
structure SessionSummary where
  UserMessages : List (List Nat)
  ToolsUsed : List String
  FilesModified : List String
  TotalMessages : Int
deriving DecidableEq, Repr

/-- Go `strings.Join`. -/
def Join (parts : List String) (sep : String) : String := sep.intercalate parts

/-- Go `contentToString`. -/
def contentToString (v : Option JSON) : String :=
  match v with
  | some (.string s) => TrimSpace s
  | some (.array arr) =>
    let parts := arr.filterMap (fun item =>
      match item with
      | .object m => asString (m.lookup "text")
      | _ => none)
    TrimSpace (Join parts " ")
  | _ => ""

/-- Go `extractText`. -/
def extractText (entry : List (String × JSON)) : String :=
  match asObject (entry.lookup "message") with
  | some msg => contentToString (msg.lookup "content")
  | none => contentToString (entry.lookup "content")

/-- Go `extractFilePath`. -/
def extractFilePath (entry : List (String × JSON)) (key : String) : String :=
  match asObject (entry.lookup key) with
  | some input =>
    match asString (input.lookup "file_path") with
    | some fp => fp
    | none => ""
  | none => ""

/-- Go `strOr`. -/
def strOr : List (Option JSON) → String
  | [] => ""
  | v :: vals =>
    match asString v with
    | some s => if s ≠ "" then s else strOr vals
    | none => strOr vals

/-- The Go statement `m[k] = true` on a set of strings, kept as the list of its keys. -/
def setKey (m : List String) (k : String) : List String := if k ∈ m then m else m ++ [k]

/-- Go `mapKeys`; the map is visited in the order of the list. -/
def mapKeys (m : List String) (limit : Nat) : List String :=
  m.foldl (fun keys k => if keys.length ≥ limit ∧ keys ≠ [] then keys else keys ++ [k]) []

/-- The variables of the loop of `extractSessionSummary`. -/
structure Scan where
  userMessages : List (List Nat)
  toolsUsed : List String
  filesModified : List String
  parseErrors : Nat
deriving DecidableEq, Repr

/-- The test `entry[key] != nil`. -/
def nonNil : Option JSON → Bool
  | none => false
  | some .null => false
  | some _ => true

/-- The part of the loop body that collects a user message. -/
def scanUser (entry : List (String × JSON)) (st : Scan) : Scan :=
  let entryType := (asString (entry.lookup "type")).getD ""
  let role := (asString (entry.lookup "role")).getD ""
  let msgRole :=
    match asObject (entry.lookup "message") with
    | some msg => (asString (msg.lookup "role")).getD ""
    | none => ""
  if entryType = "user" ∨ role = "user" ∨ msgRole = "user" then
    let text := extractText entry
    if text ≠ "" then
      let bytes := utf8Bytes text
      let bytes := if bytes.length > 200 then bytes.take 200 else bytes
      { st with userMessages := st.userMessages ++ [bytes] }
    else st
  else st

/-- The part of the loop body for a direct tool entry. -/
def scanTool (entry : List (String × JSON)) (st : Scan) : Scan :=
  let entryType := (asString (entry.lookup "type")).getD ""
  if entryType = "tool_use" ∨ nonNil (entry.lookup "tool_name") = true then
    let toolName := strOr [entry.lookup "tool_name", entry.lookup "name"]
    let st := if toolName ≠ "" then { st with toolsUsed := setKey st.toolsUsed toolName }
      else st
    let filePath := extractFilePath entry "tool_input"
    let filePath := if filePath = "" then extractFilePath entry "input" else filePath
    if filePath ≠ "" ∧ (toolName = "Edit" ∨ toolName = "Write") then
      { st with filesModified := setKey st.filesModified filePath }
    else st
  else st

/-- The body of the loop over the content blocks of an assistant message. -/
def scanBlock (st : Scan) (block : JSON) : Scan :=
  match block with
  | .object blockMap =>
    if (asString (blockMap.lookup "type")).getD "" = "tool_use" then
      let toolName := (asString (blockMap.lookup "name")).getD ""
      let st := if toolName ≠ "" then { st with toolsUsed := setKey st.toolsUsed toolName }
        else st
      match asObject (blockMap.lookup "input") with
      | some inputMap =>
        match asString (inputMap.lookup "file_path") with
        | some fp =>
          if fp ≠ "" ∧ (toolName = "Edit" ∨ toolName = "Write") then
            { st with filesModified := setKey st.filesModified fp }
          else st
        | none => st
      | none => st
    else st
  | _ => st

/-- The part of the loop body for an assistant entry. -/
def scanAssistant (entry : List (String × JSON)) (st : Scan) : Scan :=
  if (asString (entry.lookup "type")).getD "" = "assistant" then
    match asObject (entry.lookup "message") with
    | some msg =>
      match asArray (msg.lookup "content") with
      | some content => content.foldl scanBlock st
      | none => st
    | none => st
  else st

/-- The body of the loop of `extractSessionSummary` for one line.  `Unmarshal` is
`json.Unmarshal` into a `map[string]any` (`none` when it returns an error). -/
def scanLine (Unmarshal : String → Option (List (String × JSON))) (st : Scan)
    (line : String) : Scan :=
  let line := TrimSpace line
  if line = "" then st
  else
    match Unmarshal line with
    | none => { st with parseErrors := st.parseErrors + 1 }
    | some entry => scanAssistant entry (scanTool entry (scanUser entry st))

/-- Go `extractSessionSummary`: the summary (`none` is the nil pointer) and what was
logged.  `file` is the content of the transcript, `none` when `ReadFile` fails. -/
def extractSessionSummary (Unmarshal : String → Option (List (String × JSON)))
    (file : Option String) (o : Output) : Option SessionSummary × Output :=
  match file with
  | none => (none, o)
  | some content =>
    let lines := (splitSep '\n' content.data).map String.mk
    let st := lines.foldl (scanLine Unmarshal) ⟨[], [], [], 0⟩
    let o :=
      if st.parseErrors > 0 then
        Log ("[SessionEnd] Skipped " ++ toString st.parseErrors ++ "/" ++
          toString lines.length ++ " unparseable transcript lines") o
      else o
    if st.userMessages.length = 0 then (none, o)
    else
      let start := if st.userMessages.length > 10 then st.userMessages.length - 10 else 0
      let tools := mapKeys st.toolsUsed 20
      let files := mapKeys st.filesModified 30
      (some { UserMessages := st.userMessages.drop start
              ToolsUsed := tools
              FilesModified := files
              TotalMessages := st.userMessages.length }, o)

/-! ## The name of the session file -/

/-- Go `sessionIDShort`.  `sessionID` is the value of `CLAUDE_SESSION_ID` and
`projectName` the result of `gitutil.ProjectName()`, both as bytes, since the slice
`sessionID[len(sessionID)-8:]` takes the last 8 bytes. -/
def sessionIDShort (sessionID projectName : List Nat) : List Nat :=
  if sessionID ≠ [] ∧ sessionID.length > 0 then
    if sessionID.length > 8 then sessionID.drop (sessionID.length - 8)
    else sessionID
  else if projectName ≠ [] then projectName
  else utf8Bytes "default"

/-- The file name that `SessionEnd` joins to the sessions directory:
`today+"-"+shortID+"-session.tmp"`, where `today` is `datetime.DateString()`. -/
def sessionFileName (today : String) (shortID : List Nat) : List Nat :=
  utf8Bytes today ++ utf8Bytes "-" ++ shortID ++ utf8Bytes "-session.tmp"

/-! ## Vocabulary of the specification -/

/-- The specification's valid alias name: 1 to 128 characters of `[A-Za-z0-9_-]`, not
a reserved word ignoring case. -/
def ValidAlias (s : String) : Prop :=
  1 ≤ s.length ∧ s.length ≤ 128 ∧ (∀ c ∈ s.data, aliasChar c = true) ∧
    ToLower s ∉ reservedNames

/-- The specification's invalid alias name: empty, longer than 128 characters, with a
character outside `[A-Za-z0-9_-]`, or a reserved word ignoring case. -/
def InvalidAlias (s : String) : Prop :=
  s.length = 0 ∨ 128 < s.length ∨ (∃ c ∈ s.data, aliasChar c = false) ∨
    ToLower s ∈ reservedNames

/-- A blank session path: empty or white space only. -/
def Blank (s : String) : Prop := ∀ c ∈ s.data, isSpace c = true

instance (s : String) : Decidable (ValidAlias s) := by
  unfold ValidAlias; infer_instance

instance (s : String) : Decidable (InvalidAlias s) := by
  unfold InvalidAlias; infer_instance

instance (s : String) : Decidable (Blank s) := by
  unfold Blank; infer_instance

/-- The alias map stored in the alias file, as `Load` sees it. -/
def stored (w : World) : AliasMap := (Load "" w).Aliases

/-- The alias map a file decodes to under `Load`: empty when the file is absent, does
not parse, or has no `aliases` map. -/
def aliasesOf (c : Option Content) : AliasMap :=
  match c with
  | some (.file f) => f.Aliases
  | _ => []

/-- Every key of the map is a valid alias name. -/
def KeysOk (m : AliasMap) : Prop := ∀ k ∈ m.keys, ValidAlias k

instance (m : AliasMap) : Decidable (KeysOk m) := by
  unfold KeysOk; infer_instance

/-- The alias-key invariant on the alias file and on its `.bak` sibling. -/
def KeyInv (w : World) : Prop := KeysOk (stored w) ∧ KeysOk (aliasesOf w.bak)

instance (w : World) : Decidable (KeyInv w) := by
  unfold KeyInv; infer_instance

/-- A property of file contents holds of the alias file and of its backup. -/
def Both (P : Option Content → Prop) (w : World) : Prop := P w.main ∧ P w.bak

/-- The alias file decodes, and its `totalCount` is the number of its aliases. -/
def CountOk (w : World) : Prop :=
  match w.main with
  | some (.file f) => f.Metadata.TotalCount = (f.Aliases.length : Int)
  | _ => False

instance (w : World) : Decidable (CountOk w) := by
  unfold CountOk; split <;> infer_instance

/-- A Unicode control character (category Cc). -/
def isControl (c : Char) : Bool :=
  c.toNat < 0x20 || (0x7F ≤ c.toNat && c.toNat ≤ 0x9F)

/-- The shell metacharacters of the specification: semicolon, bar, ampersand, dollar,
backquote, angle brackets, parentheses, braces, backslash. -/
def isShellMeta (c : Char) : Bool :=
  c == ';' || c == '|' || c == '&' || c == '$' || c.toNat == 0x60 || c == '<' || c == '>' ||
  c == '(' || c == ')' || c.toNat == 0x7B || c.toNat == 0x7D || c.toNat == 0x5C

/-- Byte-wise `a >= b` on strings. -/
def strGe (a b : String) : Bool := !strGt b a

/-- A syntactically valid alias name, as `Resolve` checks it: not empty and made of
characters of `[A-Za-z0-9_-]`. -/
def SyntacticAlias (s : String) : Prop := s.data ≠ [] ∧ ∀ c ∈ s.data, aliasChar c = true

instance (s : String) : Decidable (SyntacticAlias s) := by
  unfold SyntacticAlias; infer_instance

/-- The value of a decimal digit. -/
def digitVal (c : Char) : Nat := c.toNat - '0'.toNat

/-- A real calendar date: a month from 1 to 12 and a day from 1 to the number of days
of that month in that year. -/
def RealDate (year month day : Nat) : Prop :=
  1 ≤ month ∧ month ≤ 12 ∧ 1 ≤ day ∧ day ≤ daysIn year month

instance (y m d : Nat) : Decidable (RealDate y m d) := by
  unfold RealDate; infer_instance

/-- The id segment of a session file name: absent, or a dash and at least 8 characters
of `[a-z0-9]`. -/
def IdSegment (seg : List Char) : Prop :=
  seg = [] ∨ ∃ id : List Char, seg = '-' :: id ∧ 8 ≤ id.length ∧ ∀ c ∈ id, idChar c = true

/-- The name has the form `YYYY-MM-DD-session.tmp` or `YYYY-MM-DD-<id>-session.tmp`,
with an id segment `seg`, and `YYYY-MM-DD` is a real calendar date. -/
def SessionName (name : String) (seg : List Char) : Prop :=
  ∃ y1 y2 y3 y4 m1 m2 d1 d2 : Char,
    (isDigit y1 = true ∧ isDigit y2 = true ∧ isDigit y3 = true ∧ isDigit y4 = true ∧
      isDigit m1 = true ∧ isDigit m2 = true ∧ isDigit d1 = true ∧ isDigit d2 = true) ∧
    IdSegment seg ∧
    name.data = [y1, y2, y3, y4, '-', m1, m2, '-', d1, d2] ++ seg ++ sessionSuffix ∧
    RealDate (1000 * digitVal y1 + 100 * digitVal y2 + 10 * digitVal y3 + digitVal y4)
      (10 * digitVal m1 + digitVal m2) (10 * digitVal d1 + digitVal d2)

/-- The name has the form `YYYY-MM-DD-session.tmp` or `YYYY-MM-DD-<id>-session.tmp`,
with an id segment `seg`; the date need not be a real one. -/
def SessionShape (name : String) (seg : List Char) : Prop :=
  ∃ y1 y2 y3 y4 m1 m2 d1 d2 : Char,
    (isDigit y1 = true ∧ isDigit y2 = true ∧ isDigit y3 = true ∧ isDigit y4 = true ∧
      isDigit m1 = true ∧ isDigit m2 = true ∧ isDigit d1 = true ∧ isDigit d2 = true) ∧
    IdSegment seg ∧
    name.data = [y1, y2, y3, y4, '-', m1, m2, '-', d1, d2] ++ seg ++ sessionSuffix

/-- Every midnight that is asked of the location exists in it: `time.Date` returns the
civil date it was given, normalised. -/
def MidnightKept (loc : Location) : Prop :=
  ∀ year month day : Nat, timeDateIn loc year month day =
    (((timeDate year month day).1 : Int), (timeDate year month day).2.1,
      (timeDate year month day).2.2)

/-- A session file that `ListAll` counts: an entry that is not a directory, that
`os.Stat` finds, whose name parses and which passes the date filter and the search. -/
def isListed (loc : Location) (dateFilter search : String) (e : DirEntry) : Bool :=
  !e.IsDir && e.Stat.isSome &&
    match ParseFilename loc e.Name with
    | none => false
    | some info =>
      (dateFilter == "" || info.Date == dateFilter) &&
        (search == "" || Contains info.ShortID search)

/-- An entry that `FindByID` can return for the id: not a directory, with a name that
parses, and matching the id in one of the three ways. -/
def qualifies (loc : Location) (sessionID : String) (e : DirEntry) : Bool :=
  !e.IsDir &&
    match ParseFilename loc e.Name with
    | none => false
    | some info => idMatches sessionID e.Name info

/-- The lines `mark t1`, ..., `mark tn` of a section, each ended by a newline. -/
def checkboxLines (mark : String) (ts : List (List Char)) : List Char :=
  ts.flatMap (fun t => mark.data ++ ' ' :: t ++ ['\n'])

/-- An item text: not empty, on a single line, without white space at its start or
end. -/
def ItemText (t : List Char) : Prop :=
  t.head?.map isSpace = some false ∧ t.getLast?.map isSpace = some false ∧ '\n' ∉ t

instance (t : List Char) : Decidable (ItemText t) := by
  unfold ItemText; infer_instance

/-- The text does not contain `###`. -/
def NoHashes (t : List Char) : Prop :=
  t.tails.any (fun s => "###".data.isPrefixOf s) = false

instance (t : List Char) : Decidable (NoHashes t) := by
  unfold NoHashes; infer_instance

/-- The header text does not occur in the content before position `n`. -/
def FirstOccurrence (hdr : String) (content : List Char) (n : Nat) : Prop :=
  ∀ k < n, hdr.data.isPrefixOf (content.drop k) = false

instance (hdr : String) (content : List Char) (n : Nat) :
    Decidable (FirstOccurrence hdr content n) := by
  unfold FirstOccurrence; infer_instance

/-- What may follow the lines of a section: the end of the content, a blank line, or
`###`. -/
def SectionEnd (post : List Char) : Prop :=
  post = [] ∨ post.head? = some '\n' ∨ "###".data.isPrefixOf post = true

instance (post : List Char) : Decidable (SectionEnd post) := by
  unfold SectionEnd; infer_instance

/-- One of the four package managers. -/
def KnownManager (n : String) : Prop := n = "npm" ∨ n = "pnpm" ∨ n = "yarn" ∨ n = "bun"

instance (n : String) : Decidable (KnownManager n) := by
  unfold KnownManager; infer_instance

/-- The lock file of each of the four managers. -/
def lockFileOf (n : String) : String :=
  if n = "pnpm" then "pnpm-lock.yaml"
  else if n = "bun" then "bun.lockb"
  else if n = "yarn" then "yarn.lock"
  else if n = "npm" then "package-lock.json"
  else ""

/-- The lock file of the manager `n` exists in the directory. -/
def hasLockFile (h : Host) (dir n : String) : Bool := h.Exists (h.Join [dir, lockFileOf n])

/-- What a stage names, when that is one of the four managers. -/
def named (s : String) : Option String := if KnownManager s then some s else none

/-- The text before the first at sign. -/
def beforeAt (s : String) : String := ⟨s.data.takeWhile (fun c => c ≠ '@')⟩

/-- The stage of the environment variable. -/
def envStage (h : Host) : Option String := named (h.Getenv "CLAUDE_PACKAGE_MANAGER")

/-- The stage of a config file: the manager its `packageManager` field names. -/
def fileStage (h : Host) (path : String) : Option String :=
  ((h.ReadFile path).bind h.Unmarshal).bind named

/-- The stage of `package.json`: the manager named by the text before the at sign of its
`packageManager` field. -/
def packageJSONStage (h : Host) (dir : String) : Option String :=
  ((h.ReadFile (h.Join [dir, "package.json"])).bind h.Unmarshal).bind
    (fun pm => named (beforeAt pm))

/-- The stage of the lock files: the first manager in the order pnpm, bun, yarn, npm
whose lock file exists. -/
def lockStage (h : Host) (dir : String) : Option String :=
  ["pnpm", "bun", "yarn", "npm"].find? (hasLockFile h dir)

/-- The five stages of the detector in their order, each with the name of its source. -/
def stages (h : Host) (dir : String) : List (Option String × String) :=
  [(envStage h, "environment"),
   (fileStage h (h.Join [dir, ".claude", "package-manager.json"]), "project-config"),
   (packageJSONStage h dir, "package.json"),
   (lockStage h dir, "lock-file"),
   (fileStage h (h.Join [h.ClaudeDir, "package-manager.json"]), "global-config")]

/-- The first stage that names a manager, with its source. -/
def firstNamed : List (Option String × String) → Option (String × String)
  | [] => none
  | (some n, source) :: _ => some (n, source)
  | (none, _) :: rest => firstNamed rest

/-- The value of `tool_input.file_path` when `tool_input` is an object and its
`file_path` is a string. -/
def toolInputFilePath (input : List (String × JSON)) : Option String :=
  match input.lookup "tool_input" with
  | some (.object ti) =>
    match ti.lookup "file_path" with
    | some (.string s) => some s
    | _ => none
  | _ => none

/-- The paths that `BlockRandomDocs` is said to block: not empty, ending with `.md` or
`.txt`, not ending with one of the four allowed names, and not under `.claude/plans/`. -/
def BlockedDoc (p : String) : Prop :=
  p ≠ "" ∧ (HasSuffix p ".md" = true ∨ HasSuffix p ".txt" = true) ∧
  ¬ (HasSuffix p "README.md" = true ∨ HasSuffix p "CLAUDE.md" = true ∨
     HasSuffix p "AGENTS.md" = true ∨ HasSuffix p "CONTRIBUTING.md" = true) ∧
  Contains p ".claude/plans/" = false

instance (p : String) : Decidable (BlockedDoc p) := by
  unfold BlockedDoc; infer_instance

/-- The text `s` matches the glob `p`: a star stands for any sequence of characters, a
question mark for exactly one character, every other character for itself. -/
def GlobMatch : List Char → List Char → Prop
  | [], s => s = []
  | c :: p, s =>
    if c = '*' then ∃ a b, s = a ++ b ∧ GlobMatch p b
    else if c = '?' then ∃ x t, s = x :: t ∧ GlobMatch p t
    else ∃ t, s = c :: t ∧ GlobMatch p t

/-- The piece that stands for one character of a glob. -/
def pieceOf (c : Char) : Piece :=
  if c = '*' then Piece.anyStar else if c = '?' then Piece.anyChar else Piece.literal c

/-- The entries of a transcript: its lines, trimmed, that are not empty and decode. -/
def transcriptEntries (Unmarshal : String → Option (List (String × JSON)))
    (content : String) : List (List (String × JSON)) :=
  (((splitSep '\n' content.data).map (fun l => TrimSpace ⟨l⟩)).filter
    (fun l => l ≠ "")).filterMap Unmarshal

/-- A user message: an entry whose `type`, `role` or `message.role` is `user`. -/
def isUserMessage (entry : List (String × JSON)) : Bool :=
  asString (entry.lookup "type") == some "user" ||
  asString (entry.lookup "role") == some "user" ||
  (match asObject (entry.lookup "message") with
   | some msg => asString (msg.lookup "role") == some "user"
   | none => false)

/-- The texts of the user messages of a transcript that have a non-empty text, in the
order of the transcript. -/
def userTexts (Unmarshal : String → Option (List (String × JSON))) (content : String) :
    List String :=
  (((transcriptEntries Unmarshal content).filter isUserMessage).map extractText).filter
    (fun t => t ≠ "")

/-- The first 200 bytes of a text. -/
def first200 (t : String) : List Nat := (utf8Bytes t).take 200

/-- The last `n` elements of a list. -/
def lastN {α : Type} (n : Nat) (l : List α) : List α := l.drop (l.length - n)

/-- The slice bounds `start` and `end` that `ListAll` computes from its arguments and
the number `total` of sessions. -/
def sliceBounds (limit offset total : Int) : Int × Int :=
  let limit := if limit ≤ 0 then 50 else limit
  let offset := if offset < 0 then 0 else offset
  let end0 := wrap64 (offset + limit)
  let end1 := if end0 > total then total else end0
  let start := if offset > total then total else offset
  (start, end1)

/-- The slice expression `sessions[start:end]` is in range. -/
def InRange (bounds : Int × Int) (total : Int) : Prop :=
  0 ≤ bounds.1 ∧ bounds.1 ≤ bounds.2 ∧ bounds.2 ≤ total

instance (bounds : Int × Int) (total : Int) : Decidable (InRange bounds total) := by
  unfold InRange; infer_instance

/-- No two entries of the map have the same effective time stamp, as byte sequences. -/
def DistinctTimes (m : AliasMap) : Prop :=
  m.Pairwise (fun p q =>
    utf8Bytes (effective (aliasInfo p)) ≠ utf8Bytes (effective (aliasInfo q)))

instance (m : AliasMap) : Decidable (DistinctTimes m) := by
  unfold DistinctTimes; infer_instance

/-! ## Sample data -/

/-- An environment, not on Windows, in which every step of `Save` succeeds. -/
def envOk (now : String) : SaveEnv :=
  { now := now, windows := false, marshalOk := true, ensureDirOk := true,
    bakWriteOk := true, tmpWriteOk := true, removeMainOk := true, renameOk := true,
    restoreWriteOk := true, removeTmpOk := true, removeBakOk := true }

/-- As `envOk`, but the write of the temp file fails. -/
def envTmpFails (now : String) : SaveEnv :=
  { envOk now with tmpWriteOk := false }

/-- Go `time.UTC`: the offset is 0 at every instant. -/
def utc : Location :=
  { lookup := fun _ => (0, -9223372036854775808, 9223372036854775807) }

/-- The zone `America/Santiago` around the year 2026: UTC-4 from 5 April 2026 03:00 UTC
(instant 1775358000) until 6 September 2026 04:00 UTC (instant 1788667200), when the
clocks go from 24:00 to 01:00, and UTC-3 before and after. -/
def santiago : Location :=
  { lookup := fun sec =>
      if sec < 1775358000 then (-10800, 1757217600, 1775358000)
      else if sec < 1788667200 then (-14400, 1775358000, 1788667200)
      else (-10800, 1788667200, 1806807600) }

/-- A world whose alias file holds the map `m` and which has no sibling files. -/
def worldOf (m : AliasMap) : World :=
  { main := some (.file ⟨aliasVersion, m, ⟨(m.length : Int), "2026-01-01T00:00:00Z"⟩⟩),
    tmp := none, bak := none, saved := [] }

/-- A decoder for the sample hosts: it reads the field of a text of the exact form
`{"packageManager": "NAME"}`, yields the empty field for `{}`, and fails on any other
text. -/
def sampleUnmarshal (content : String) : Option String :=
  let pre := "\x7b\"packageManager\": \"".data
  let post := "\"\x7d".data
  if content = "\x7b\x7d" then some ""
  else if pre.isPrefixOf content.data ∧ post.isSuffixOf (content.data.drop pre.length) then
    some ⟨(content.data.drop pre.length).take
      (content.data.length - pre.length - post.length)⟩
  else none

/-- A host with the given value of `CLAUDE_PACKAGE_MANAGER` and the given files (path
and content), working directory `/work` and configuration directory `/home/.claude`. -/
def hostOf (envPm : String) (files : List (String × String)) : Host :=
  { Getenv := fun k => if k = "CLAUDE_PACKAGE_MANAGER" then envPm else ""
    Getwd := "/work"
    ClaudeDir := "/home/.claude"
    Join := fun parts => "/".intercalate parts
    ReadFile := fun p => files.lookup p
    Exists := fun p => (files.lookup p).isSome
    Unmarshal := sampleUnmarshal }

/-- The compiled expression `\*\*Last Updated:\*\*.*`: the literal `**Last Updated:**`
followed by the longest run of characters other than newline.  It has no group;
`expand` is whatever `Expand` does, it is not used for a template without a dollar
sign. -/
def lastUpdatedRe (expand : String → List Char → List Char) : Regexp :=
  { matchAt := fun t =>
      if "**Last Updated:**".data.isPrefixOf t then
        some ("**Last Updated:**".data.length +
          ((t.drop "**Last Updated:**".data.length).takeWhile (fun c => c ≠ '\n')).length)
      else none
    expand := expand }

/-- A `regexp.Compile` that knows the expression `\*\*Last Updated:\*\*.*`. -/
def compileLastUpdated (expand : String → List Char → List Char) (pattern : String) :
    Option Regexp :=
  if pattern = "\\*\\*Last Updated:\\*\\*.*" then some (lastUpdatedRe expand) else none

/-- A decoder for the sample transcripts: it reads a line of the exact form
`{"type":"user","content":"TEXT"}` and fails on any other line. -/
def sampleEntry (line : String) : Option (List (String × JSON)) :=
  let pre := "\x7b\"type\":\"user\",\"content\":\"".data
  let post := "\"\x7d".data
  if pre.isPrefixOf line.data ∧ post.isSuffixOf (line.data.drop pre.length) then
    some [("type", .string "user"),
      ("content", .string ⟨(line.data.drop pre.length).take
        (line.data.length - pre.length - post.length)⟩)]
  else none

/-! ## Lemmas on strings -/

theorem char_le_iff (a b : Char) : a ≤ b ↔ a.toNat ≤ b.toNat := by
  rfl

theorem aliasChar_toNat_lt (c : Char) (h : aliasChar c = true) : c.toNat < 128 := by
  simp only [aliasChar, isAlnum, Bool.or_eq_true, Bool.and_eq_true, decide_eq_true_eq,
    beq_iff_eq, char_le_iff] at h
  have h1 : 'z'.toNat = 122 := rfl
  have h2 : 'Z'.toNat = 90 := rfl
  have h3 : '9'.toNat = 57 := rfl
  rcases h with (((h | h) | h) | h) | h
  · omega
  · omega
  · omega
  · subst h; decide
  · subst h; decide

theorem utf8Size_of_toNat_lt (c : Char) (h : c.toNat < 128) : c.utf8Size = 1 := by
  unfold Char.utf8Size
  have h1 : c.val ≤ UInt32.ofNatCore 127 (by decide) := by
    show c.val.toNat ≤ 127
    have : c.val.toNat = c.toNat := rfl
    omega
  rw [if_pos h1]

theorem length_le_utf8Len (l : List Char) : l.length ≤ String.utf8Len l := by
  induction l with
  | nil => simp
  | cons c cs ih =>
    simp only [String.utf8Len_cons, List.length_cons]
    have := c.utf8Size_pos
    omega

theorem utf8Len_eq_length (l : List Char) (h : ∀ c ∈ l, aliasChar c = true) :
    String.utf8Len l = l.length := by
  induction l with
  | nil => simp
  | cons c cs ih =>
    simp only [String.utf8Len_cons, List.length_cons]
    rw [ih (fun d hd => h d (List.mem_cons_of_mem _ hd)),
      utf8Size_of_toNat_lt c (aliasChar_toNat_lt c (h c (List.mem_cons_self _ _)))]

theorem length_le_utf8ByteSize (s : String) : s.length ≤ s.utf8ByteSize := by
  cases s with
  | mk l => exact length_le_utf8Len l

theorem utf8ByteSize_eq_length (s : String) (h : ∀ c ∈ s.data, aliasChar c = true) :
    s.utf8ByteSize = s.length := by
  cases s with
  | mk l => exact utf8Len_eq_length l h

theorem dropWhile_all_nil {α : Type} (p : α → Bool) (l : List α)
    (h : ∀ x ∈ l.dropWhile p, p x = true) : l.dropWhile p = [] := by
  induction l with
  | nil => rfl
  | cons a t ih =>
    by_cases ha : p a = true
    · rw [List.dropWhile_cons_of_pos ha] at h ⊢
      exact ih h
    · rw [List.dropWhile_cons_of_neg ha] at h
      exact absurd (h a (List.mem_cons_self _ _)) ha

theorem trimSpace_eq_empty (s : String) : TrimSpace s = "" ↔ Blank s := by
  unfold TrimSpace Blank
  constructor
  · intro h
    have h1 : ((s.data.dropWhile isSpace).reverse.dropWhile isSpace).reverse = [] :=
      congrArg String.data h
    rw [List.reverse_eq_nil_iff, List.dropWhile_eq_nil_iff] at h1
    have h2 : s.data.dropWhile isSpace = [] :=
      dropWhile_all_nil _ _ (fun x hx => h1 x (List.mem_reverse.mpr hx))
    exact List.dropWhile_eq_nil_iff.mp h2
  · intro h
    have h2 : s.data.dropWhile isSpace = [] := List.dropWhile_eq_nil_iff.mpr h
    rw [h2]; rfl

theorem str_eq_empty (s : String) : s = "" ↔ s.data = [] := by
  constructor
  · intro h; rw [h]
  · intro h; cases s; simp_all

theorem blank_of_empty (s : String) (h : s = "") : Blank s := by
  intro c hc
  rw [h] at hc
  cases hc

theorem contains_iff_mem (l : List String) (a : String) :
    l.contains a = true ↔ a ∈ l := by
  show List.elem a l = true ↔ a ∈ l
  exact List.elem_iff

theorem validAliasName_iff (s : String) :
    validAliasName s = true ↔ s.data ≠ [] ∧ ∀ c ∈ s.data, aliasChar c = true := by
  unfold validAliasName matchClassPlus
  cases hd : s.data <;> simp

/-- The validation shared by `Set` and `Rename` lets exactly the valid names pass. -/
theorem validAlias_checks (s : String) (h : ValidAlias s) :
    s ≠ "" ∧ ¬ s.utf8ByteSize > 128 ∧ validAliasName s = true ∧
      reservedNames.contains (ToLower s) = false := by
  obtain ⟨h1, h2, h3, h4⟩ := h
  have hne : s.data ≠ [] := by
    intro h0
    have : s.length = 0 := by show s.data.length = 0; rw [h0]; rfl
    omega
  refine ⟨fun h0 => hne ((str_eq_empty s).mp h0), ?_, (validAliasName_iff s).mpr ⟨hne, h3⟩, ?_⟩
  · rw [utf8ByteSize_eq_length s h3]; omega
  · cases hc : reservedNames.contains (ToLower s)
    · rfl
    · exact absurd ((contains_iff_mem _ _).mp hc) h4

/-- The validation shared by `Set` and `Rename` stops every invalid name. -/
theorem invalidAlias_checks (s : String) (h : InvalidAlias s) :
    s = "" ∨ s.utf8ByteSize > 128 ∨ validAliasName s = false ∨
      reservedNames.contains (ToLower s) = true := by
  rcases h with h | h | h | h
  · left
    exact (str_eq_empty s).mpr (List.length_eq_zero.mp h)
  · right; left
    have := length_le_utf8ByteSize s
    omega
  · right; right; left
    obtain ⟨c, hc, hbad⟩ := h
    cases hv : validAliasName s
    · rfl
    · have := ((validAliasName_iff s).mp hv).2 c hc
      rw [hbad] at this
      cases this
  · right; right; right
    exact (contains_iff_mem _ _).mpr h

/-! ## Lemmas on maps -/

theorem get?_put_self (m : AliasMap) (k : String) (v : AliasEntry) :
    (m.put k v).get? k = some v := by
  induction m with
  | nil => simp [AliasMap.put, AliasMap.get?]
  | cons p t ih =>
    obtain ⟨k1, v1⟩ := p
    by_cases h : k1 = k
    · simp [AliasMap.put, AliasMap.get?, h]
    · simp [AliasMap.put, AliasMap.get?, h, ih]

theorem get?_put_ne (m : AliasMap) (k k2 : String) (v : AliasEntry) (hne : k ≠ k2) :
    (m.put k v).get? k2 = m.get? k2 := by
  induction m with
  | nil => simp [AliasMap.put, AliasMap.get?, hne]
  | cons p t ih =>
    obtain ⟨k1, v1⟩ := p
    by_cases h : k1 = k
    · subst h
      simp [AliasMap.put, AliasMap.get?, hne]
    · by_cases h2 : k1 = k2
      · subst h2
        simp [AliasMap.put, AliasMap.get?, h]
      · simp [AliasMap.put, AliasMap.get?, h, h2, ih]

theorem get?_delete_self (m : AliasMap) (k : String) : (m.delete k).get? k = none := by
  induction m with
  | nil => rfl
  | cons p t ih =>
    obtain ⟨k1, v1⟩ := p
    by_cases h : k1 = k
    · simp [AliasMap.delete, h, ih]
    · simp [AliasMap.delete, AliasMap.get?, h, ih]

theorem get?_delete_ne (m : AliasMap) (k k2 : String) (hne : k ≠ k2) :
    (m.delete k).get? k2 = m.get? k2 := by
  induction m with
  | nil => rfl
  | cons p t ih =>
    obtain ⟨k1, v1⟩ := p
    by_cases h : k1 = k
    · subst h
      simp [AliasMap.delete, AliasMap.get?, hne, ih]
    · by_cases h2 : k1 = k2
      · subst h2
        simp [AliasMap.delete, AliasMap.get?, h]
      · simp [AliasMap.delete, AliasMap.get?, h, h2, ih]

theorem mem_keys_of_get? (m : AliasMap) (k : String) (v : AliasEntry)
    (h : m.get? k = some v) : k ∈ m.keys := by
  induction m with
  | nil => simp [AliasMap.get?] at h
  | cons p t ih =>
    obtain ⟨k1, v1⟩ := p
    by_cases h1 : k1 = k
    · simp [AliasMap.keys, h1]
    · simp only [AliasMap.get?, h1, if_false] at h
      have := ih h
      simp only [AliasMap.keys] at this ⊢
      exact List.mem_cons_of_mem _ this

theorem keys_put (m : AliasMap) (k : String) (v : AliasEntry) (x : String)
    (h : x ∈ (m.put k v).keys) : x = k ∨ x ∈ m.keys := by
  induction m with
  | nil => simp [AliasMap.put, AliasMap.keys] at h; exact Or.inl h
  | cons p t ih =>
    obtain ⟨k1, v1⟩ := p
    by_cases h1 : k1 = k
    · simp only [AliasMap.put, h1, if_true, AliasMap.keys, List.map_cons, List.mem_cons] at h ⊢
      rcases h with h | h
      · exact Or.inl h
      · exact Or.inr (Or.inr h)
    · simp only [AliasMap.put, h1, if_false, AliasMap.keys, List.map_cons, List.mem_cons] at h ⊢
      rcases h with h | h
      · exact Or.inr (Or.inl h)
      · rcases ih h with h | h
        · exact Or.inl h
        · exact Or.inr (Or.inr h)

theorem delete_eq_filter (m : AliasMap) (k : String) :
    m.delete k = m.filter (fun p => decide (p.1 ≠ k)) := by
  induction m with
  | nil => rfl
  | cons p t ih =>
    obtain ⟨k1, v1⟩ := p
    by_cases h : k1 = k
    · simp [AliasMap.delete, h, ih]
    · simp [AliasMap.delete, h, ih]

theorem keys_delete (m : AliasMap) (k : String) (x : String)
    (h : x ∈ (m.delete k).keys) : x ∈ m.keys := by
  rw [delete_eq_filter] at h
  simp only [AliasMap.keys, List.mem_map, List.mem_filter] at h ⊢
  obtain ⟨p, ⟨hp, _⟩, hx⟩ := h
  exact ⟨p, hp, hx⟩

/-! ## Lemmas on `Save` -/

@[simp] theorem backupExisting_saved (env : SaveEnv) (w : World) :
    (backupExisting env w).saved = w.saved := by
  unfold backupExisting copyFile
  split_ifs <;> (try split) <;> rfl

@[simp] theorem backupExisting_main (env : SaveEnv) (w : World) :
    (backupExisting env w).main = w.main := by
  unfold backupExisting copyFile
  split_ifs <;> (try split) <;> rfl

@[simp] theorem restoreBackup_saved (b : Bool) (c : Option String) (w : World) :
    (restoreBackup b c w).saved = w.saved := by
  unfold restoreBackup
  split <;> (try split_ifs) <;> rfl

@[simp] theorem restoreBackup_bak (b : Bool) (c : Option String) (w : World) :
    (restoreBackup b c w).bak = w.bak := by
  unfold restoreBackup
  split <;> (try split_ifs) <;> rfl

@[simp] theorem cleanupTemp_saved (b : Bool) (w : World) :
    (cleanupTemp b w).saved = w.saved := by
  unfold cleanupTemp
  split_ifs <;> rfl

@[simp] theorem cleanupTemp_main (b : Bool) (w : World) :
    (cleanupTemp b w).main = w.main := by
  unfold cleanupTemp
  split_ifs <;> rfl

@[simp] theorem cleanupTemp_bak (b : Bool) (w : World) :
    (cleanupTemp b w).bak = w.bak := by
  unfold cleanupTemp
  split_ifs <;> rfl

@[simp] theorem removeDestination_saved (env : SaveEnv) (w : World) :
    (removeDestination env w).saved = w.saved := by
  unfold removeDestination
  split_ifs <;> rfl

@[simp] theorem removeDestination_bak (env : SaveEnv) (w : World) :
    (removeDestination env w).bak = w.bak := by
  unfold removeDestination
  split_ifs <;> rfl

@[simp] theorem removeDestination_tmp (env : SaveEnv) (w : World) :
    (removeDestination env w).tmp = w.tmp := by
  unfold removeDestination
  split_ifs <;> rfl

@[simp] theorem removeBackup_saved (env : SaveEnv) (w : World) :
    (removeBackup env w).saved = w.saved := by
  unfold removeBackup
  split_ifs <;> rfl

@[simp] theorem removeBackup_main (env : SaveEnv) (w : World) :
    (removeBackup env w).main = w.main := by
  unfold removeBackup
  split_ifs <;> rfl

theorem Save_fst (env : SaveEnv) (f : AliasFile) (w : World) :
    (Save env f w).1 = env.succeeds := by
  unfold Save SaveEnv.succeeds
  cases env.marshalOk <;> cases env.ensureDirOk <;> cases env.tmpWriteOk <;>
    cases env.renameOk <;> rfl

theorem Save_main_of_succeeds (env : SaveEnv) (f : AliasFile) (w : World)
    (h : env.succeeds = true) :
    (Save env f w).2.main = some (.file (stamp env f)) := by
  unfold SaveEnv.succeeds at h
  simp only [Bool.and_eq_true] at h
  obtain ⟨⟨⟨h1, h2⟩, h3⟩, h4⟩ := h
  unfold Save
  simp [h1, h2, h3, h4]

theorem Save_saved (env : SaveEnv) (f : AliasFile) (w : World) :
    (Save env f w).2.saved = w.saved ++ [f] := by
  unfold Save
  cases env.marshalOk <;> cases env.ensureDirOk <;> cases env.tmpWriteOk <;>
    cases env.renameOk <;> simp

theorem Load_of_main (t : String) (w : World) (f : AliasFile) (h : w.main = some (.file f)) :
    (Load t w).Aliases = f.Aliases := by
  unfold Load
  rw [h]
  simp only
  split_ifs <;> rfl

/-! ## `Set` and `Resolve` -/

theorem quote_append_ne_empty (a b : String) : "\x27" ++ a ++ b ≠ "" := by
  intro h
  have := congrArg String.length h
  simp [String.length_append] at this
  have h2 : ("\x27" : String).length = 1 := rfl
  have h3 : ("" : String).length = 0 := rfl
  omega

theorem Set_of_valid (tLoad now : String) (env : SaveEnv) (aliasName path title : String)
    (w : World) (hname : ValidAlias aliasName) (hpath : ¬ Blank path) :
    Set tLoad now env aliasName path title w = setStore tLoad now env aliasName path title w := by
  obtain ⟨c1, c2, c3, c4⟩ := validAlias_checks aliasName hname
  have hp1 : path ≠ "" := fun h0 => hpath (blank_of_empty path h0)
  have hp2 : TrimSpace path ≠ "" := fun h0 => hpath ((trimSpace_eq_empty path).mp h0)
  unfold Set
  rw [if_neg c1, if_neg (by simp [hp1, hp2]), if_neg c2, if_neg (by simp [c3]),
    if_neg (by rw [c4]; exact Bool.false_ne_true)]

theorem Set_invalid (tLoad now : String) (env : SaveEnv) (aliasName path title : String)
    (w : World) (h : InvalidAlias aliasName) :
    (Set tLoad now env aliasName path title w).1.Success = false ∧
    (Set tLoad now env aliasName path title w).1.Error ≠ "" ∧
    (Set tLoad now env aliasName path title w).2 = w := by
  have hc := invalidAlias_checks aliasName h
  unfold Set
  split_ifs with h1 h2 h3 h4 h5
  · exact ⟨rfl, by simp, rfl⟩
  · exact ⟨rfl, by simp, rfl⟩
  · exact ⟨rfl, by simp, rfl⟩
  · exact ⟨rfl, by simp, rfl⟩
  · exact ⟨rfl, quote_append_ne_empty _ _, rfl⟩
  · exfalso
    rcases hc with hc | hc | hc | hc
    · exact h1 hc
    · exact h3 hc
    · rw [hc] at h4; exact h4 rfl
    · exact h5 hc

theorem title_ite (title : String) : (if title ≠ "" then title else "") = title := by
  split_ifs with h
  · rfl
  · exact (not_not.mp h).symm

/-- C1: for a valid alias name, a non-blank session path and any title, when the save
succeeds `Set` reports success and a following `Resolve` of the alias returns an entry
whose `SessionPath` is the path and whose `Title` is the title. -/
theorem C1_set_then_resolve (tLoad now tLoad2 : String) (env : SaveEnv)
    (aliasName path title : String) (w : World)
    (hname : ValidAlias aliasName) (hpath : ¬ Blank path) (hsave : env.succeeds = true) :
    (Set tLoad now env aliasName path title w).1.Success = true ∧
    ∃ e, Resolve tLoad2 aliasName (Set tLoad now env aliasName path title w).2 = some e ∧
      e.SessionPath = path ∧ e.Title = title := by
  obtain ⟨c1, c2, c3, c4⟩ := validAlias_checks aliasName hname
  rw [Set_of_valid _ _ _ _ _ _ _ hname hpath]
  unfold setStore
  simp only [Save_fst, hsave, Bool.not_true, Bool.false_eq_true, if_false]
  refine ⟨trivial, ?_⟩
  unfold Resolve
  rw [if_neg (by simp [c1, c3])]
  rw [Load_of_main tLoad2 _ _ (Save_main_of_succeeds env _ w hsave)]
  simp only [stamp, get?_put_self, title_ite]
  exact ⟨_, rfl, rfl, rfl⟩

theorem C1_set_then_resolve_witness :
    (Set "t0" "t1" (envOk "t2")
      "myalias" "/path/to/session" "My Session" ⟨none, none, none, []⟩).1.Success = true ∧
    ∃ e, Resolve "t3" "myalias"
      (Set "t0" "t1" (envOk "t2")
        "myalias" "/path/to/session" "My Session" ⟨none, none, none, []⟩).2 = some e ∧
      e.SessionPath = "/path/to/session" ∧ e.Title = "My Session" :=
  C1_set_then_resolve "t0" "t1" "t3" _ "myalias" "/path/to/session" "My Session" _
    (by decide) (by decide) (by decide)

/-- C2: for an invalid alias name (empty, longer than 128 characters, with a character
outside `[A-Za-z0-9_-]`, or a reserved word ignoring case), whatever the session path
and the title, `Set` returns `Success = false` with a non-empty `Error`, and the world
is exactly what it was: no file is touched and `Save` is not called. -/
theorem C2_set_rejects_invalid (tLoad now : String) (env : SaveEnv)
    (aliasName path title : String) (w : World) (h : InvalidAlias aliasName) :
    (Set tLoad now env aliasName path title w).1.Success = false ∧
    (Set tLoad now env aliasName path title w).1.Error ≠ "" ∧
    (Set tLoad now env aliasName path title w).2 = w ∧
    (Set tLoad now env aliasName path title w).2.saved = w.saved := by
  obtain ⟨h1, h2, h3⟩ := Set_invalid tLoad now env aliasName path title w h
  exact ⟨h1, h2, h3, by rw [h3]⟩

theorem C2_set_rejects_invalid_witness :
    (Set "t0" "t1" (envOk "t2")
      "LIST" "/path" "" ⟨none, none, none, []⟩).1.Success = false ∧
    (Set "t0" "t1" (envOk "t2")
      "LIST" "/path" "" ⟨none, none, none, []⟩).1.Error ≠ "" ∧
    (Set "t0" "t1" (envOk "t2")
      "LIST" "/path" "" ⟨none, none, none, []⟩).2 = ⟨none, none, none, []⟩ ∧
    (Set "t0" "t1" (envOk "t2")
      "LIST" "/path" "" ⟨none, none, none, []⟩).2.saved = [] :=
  C2_set_rejects_invalid "t0" "t1" _ "LIST" "/path" "" ⟨none, none, none, []⟩ (by decide)

/-! ## The command builders -/

theorem char_eq_iff (a b : Char) : a = b ↔ a.toNat = b.toNat := by
  constructor
  · intro h; rw [h]
  · intro h
    apply Char.ext
    apply UInt32.ext
    exact h

theorem safeNameChar_clean (c : Char) (h : safeNameChar c = true) :
    isControl c = false ∧ isShellMeta c = false := by
  simp only [safeNameChar, isAlnum, isControl, isShellMeta, Bool.or_eq_true, Bool.and_eq_true,
    decide_eq_true_eq, beq_iff_eq, char_le_iff, char_eq_iff, Bool.or_eq_false_iff,
    Bool.and_eq_false_iff, decide_eq_false_iff_not, beq_eq_false_iff_ne, ne_eq] at h ⊢
  simp only [Char.reduceToNat] at h ⊢
  omega

theorem safeArgsChar_clean (c : Char) (h : safeArgsChar c = true) :
    isShellMeta c = false ∧ (isControl c = true → reSpace c = true) := by
  simp only [safeArgsChar, reSpace, isAlnum, isControl, isShellMeta, Bool.or_eq_true, Bool.and_eq_true,
    decide_eq_true_eq, beq_iff_eq, char_le_iff, char_eq_iff, Bool.or_eq_false_iff,
    Bool.and_eq_false_iff, decide_eq_false_iff_not, beq_eq_false_iff_ne, ne_eq] at h ⊢
  simp only [Char.reduceToNat] at h ⊢
  omega

theorem matchClassPlus_all (cls : Char → Bool) (s : String) (h : matchClassPlus cls s = true) :
    ∀ c ∈ s.data, cls c = true := by
  unfold matchClassPlus at h
  simp only [Bool.and_eq_true, List.all_eq_true] at h
  exact h.2

/-- A name with a control character or a shell metacharacter fails `safeNameRegex`. -/
theorem safeNameRegex_rejects (s : String)
    (h : ∃ c ∈ s.data, isControl c = true ∨ isShellMeta c = true) :
    safeNameRegex s = false := by
  obtain ⟨c, hc, hbad⟩ := h
  cases hm : safeNameRegex s
  · rfl
  · have h1 := safeNameChar_clean c (matchClassPlus_all _ _ hm c hc)
    rcases hbad with hbad | hbad
    · rw [h1.1] at hbad; cases hbad
    · rw [h1.2] at hbad; cases hbad

/-- An argument string with a shell metacharacter, or with a control character outside
the class `\s`, fails `safeArgsRegex` and is not empty. -/
theorem safeArgsRegex_rejects (s : String)
    (h : ∃ c ∈ s.data, isShellMeta c = true ∨ (isControl c = true ∧ reSpace c = false)) :
    s ≠ "" ∧ safeArgsRegex s = false := by
  obtain ⟨c, hc, hbad⟩ := h
  constructor
  · intro h0
    rw [h0] at hc
    cases hc
  · cases hm : safeArgsRegex s
    · rfl
    · have h1 := safeArgsChar_clean c (matchClassPlus_all _ _ hm c hc)
      rcases hbad with hbad | ⟨hb1, hb2⟩
      · rw [h1.1] at hbad; cases hbad
      · rw [h1.2 hb1] at hb2; cases hb2

theorem GetRunCommand_unsafe (Detect : String → Result) (script dir : String)
    (h : safeNameRegex script = false) : ∃ e, GetRunCommand Detect script dir = .error e := by
  unfold GetRunCommand
  split_ifs with h1 h2
  · exact ⟨_, rfl⟩
  · exact ⟨_, rfl⟩
  all_goals (rw [h] at h2; exact absurd rfl h2)

theorem GetExecCommand_unsafe_name (Detect : String → Result) (binary args dir : String)
    (h : safeNameRegex binary = false) :
    ∃ e, GetExecCommand Detect binary args dir = .error e := by
  unfold GetExecCommand
  split_ifs with h1 h2 h3
  · exact ⟨_, rfl⟩
  · exact ⟨_, rfl⟩
  · exact ⟨_, rfl⟩
  · rw [h] at h2; exact absurd rfl h2

theorem GetExecCommand_unsafe_args (Detect : String → Result) (binary args dir : String)
    (h : args ≠ "" ∧ safeArgsRegex args = false) :
    ∃ e, GetExecCommand Detect binary args dir = .error e := by
  unfold GetExecCommand
  split_ifs with h1 h2 h3
  · exact ⟨_, rfl⟩
  · exact ⟨_, rfl⟩
  · exact ⟨_, rfl⟩
  · exfalso
    apply h3
    simp [h.1, h.2]

/-- What the builders do reject: `GetRunCommand` and `GetExecCommand` return an error
and no command whenever the name contains a control character or a shell
metacharacter, and `GetExecCommand` also whenever the argument string contains a shell
metacharacter or a control character outside the class `\s` of `safeArgsRegex`. -/
theorem command_builders_reject_unsafe (Detect : String → Result) (name args dir : String)
    (h : (∃ c ∈ name.data, isControl c = true ∨ isShellMeta c = true) ∨
      (∃ c ∈ args.data, isShellMeta c = true ∨ (isControl c = true ∧ reSpace c = false))) :
    ((∃ c ∈ name.data, isControl c = true ∨ isShellMeta c = true) →
      ∃ e, GetRunCommand Detect name dir = .error e) ∧
    ∃ e, GetExecCommand Detect name args dir = .error e := by
  refine ⟨fun hn => GetRunCommand_unsafe _ _ _ (safeNameRegex_rejects _ hn), ?_⟩
  rcases h with h | h
  · exact GetExecCommand_unsafe_name _ _ _ _ (safeNameRegex_rejects _ h)
  · exact GetExecCommand_unsafe_args _ _ _ _ (safeArgsRegex_rejects _ h)

theorem command_builders_reject_unsafe_example :
    ((∃ c ∈ ("test; rm -rf /").data, isControl c = true ∨ isShellMeta c = true) →
      ∃ e, GetRunCommand (fun _ => ⟨"npm", npmConfig, "default"⟩) "test; rm -rf /" "" = .error e) ∧
    ∃ e, GetExecCommand (fun _ => ⟨"npm", npmConfig, "default"⟩) "test; rm -rf /" "" "" = .error e :=
  command_builders_reject_unsafe _ "test; rm -rf /" "" "" (Or.inl (by decide))

/-- C3 (failing input): the argument string `--write .`, newline, `rm -rf /` holds a
newline, a control character.  `safeArgsRegex` lists the class `\s` among the allowed
characters, so `GetExecCommand` returns no error and interpolates the newline into the
command, which is then two lines for a shell.  A tab and a carriage return pass in the
same way.  The same text as a name is rejected by `safeNameRegex`, whose class has no
white space. -/
theorem C3_exec_command_accepts_newline :
    (∃ c ∈ ("--write .\nrm -rf /").data, isControl c = true ∧ c = '\n') ∧
    GetExecCommand (Detect (hostOf "npm" [])) "prettier" "--write .\nrm -rf /" "" =
      .ok "npx prettier --write .\nrm -rf /" ∧
    GetExecCommand (Detect (hostOf "npm" [])) "prettier" "--write\t.\r" "" =
      .ok "npx prettier --write\t.\r" ∧
    safeNameRegex "--write .\nrm -rf /" = false ∧
    GetRunCommand (Detect (hostOf "npm" [])) "--write .\nrm -rf /" "" =
      .error "script name contains unsafe characters: --write .\nrm -rf /" ∧
    GetExecCommand (Detect (hostOf "npm" [])) "--write .\nrm -rf /" "" "" =
      .error "binary name contains unsafe characters: --write .\nrm -rf /" :=
  ⟨by decide, by rfl, by rfl, by decide, by rfl, by rfl⟩

/-! ## `Rename` -/

theorem Load_aliases_indep (t t2 : String) (w : World) :
    (Load t w).Aliases = (Load t2 w).Aliases := by
  unfold Load
  split <;> rfl

theorem Load_aliases_stored (t : String) (w : World) : (Load t w).Aliases = stored w :=
  Load_aliases_indep t "" w

theorem stored_of_main (w : World) (f : AliasFile) (h : w.main = some (.file f)) :
    stored w = f.Aliases :=
  Load_of_main "" w f h

theorem Rename_of_valid (tLoad now : String) (env env2 : SaveEnv) (a b : String) (w : World)
    (hb : ValidAlias b) :
    Rename tLoad now env env2 a b w = renameStore tLoad now env env2 a b w := by
  obtain ⟨c1, c2, c3, c4⟩ := validAlias_checks b hb
  unfold Rename
  rw [if_neg c1, if_neg c2, if_neg (by simp [c3]),
    if_neg (by rw [c4]; exact Bool.false_ne_true)]

theorem Resolve_eq_none_of_get? (t : String) (a : String) (w : World)
    (h : (stored w).get? a = none) : Resolve t a w = none := by
  unfold Resolve
  split_ifs
  · rfl
  · rw [Load_aliases_stored]; exact h

/-- C4: in a store where `a` is present and `b` is absent, with `b` a valid alias name,
when the save succeeds `Rename a b` reports success, `Resolve a` then returns absent
and `Resolve b` returns the entry `a` had, with the same `SessionPath`, `CreatedAt` and
`Title` and with `UpdatedAt` set to the time of the rename. -/
theorem C4_rename_moves_entry (tLoad now tLoad2 : String) (env env2 : SaveEnv)
    (a b : String) (w : World) (e : AliasEntry)
    (ha : (stored w).get? a = some e) (hb : (stored w).get? b = none)
    (hvalid : ValidAlias b) (hsave : env.succeeds = true) :
    (Rename tLoad now env env2 a b w).1.Success = true ∧
    Resolve tLoad2 a (Rename tLoad now env env2 a b w).2 = none ∧
    Resolve tLoad2 b (Rename tLoad now env env2 a b w).2 =
      some { SessionPath := e.SessionPath, CreatedAt := e.CreatedAt, UpdatedAt := now,
             Title := e.Title } := by
  obtain ⟨c1, c2, c3, c4⟩ := validAlias_checks b hvalid
  have hab : a ≠ b := by
    intro h; rw [h, hb] at ha; cases ha
  rw [Rename_of_valid _ _ _ _ _ _ _ hvalid]
  unfold renameStore
  simp only [Load_aliases_stored, ha, hb, Option.isSome_none, Bool.false_eq_true, if_false,
    Save_fst, hsave, Bool.not_true]
  refine ⟨trivial, ?_, ?_⟩
  · apply Resolve_eq_none_of_get?
    rw [stored_of_main _ _ (Save_main_of_succeeds env _ w hsave)]
    simp only [stamp]
    rw [get?_put_ne _ _ _ _ (Ne.symm hab), get?_delete_self]
  · unfold Resolve
    rw [if_neg (by simp [c1, c3]), Load_aliases_stored,
      stored_of_main _ _ (Save_main_of_succeeds env _ w hsave)]
    simp only [stamp, get?_put_self]

theorem Rename_rejects (tLoad now : String) (env env2 : SaveEnv) (a b : String) (w : World)
    (h : (stored w).get? a = none ∨ (stored w).get? b ≠ none ∨ InvalidAlias b) :
    (Rename tLoad now env env2 a b w).1.Success = false ∧
    (Rename tLoad now env env2 a b w).2 = w := by
  unfold Rename
  split_ifs with h1 h2 h3 h4
  · exact ⟨rfl, rfl⟩
  · exact ⟨rfl, rfl⟩
  · exact ⟨rfl, rfl⟩
  · exact ⟨rfl, rfl⟩
  · unfold renameStore
    simp only [Load_aliases_stored]
    cases hga : (stored w).get? a with
    | none => exact ⟨rfl, rfl⟩
    | some e0 =>
      cases hgb : (stored w).get? b with
      | some e1 => exact ⟨rfl, rfl⟩
      | none =>
        exfalso
        rcases h with h | h | h
        · rw [hga] at h; cases h
        · exact h hgb
        · rcases invalidAlias_checks b h with hc | hc | hc | hc
          · exact h1 hc
          · exact h2 hc
          · rw [hc] at h3; exact h3 rfl
          · exact h4 hc

theorem C4_rename_moves_entry_witness :
    (Rename "t0" "2026-02-01T00:00:00Z" (envOk "t1") (envOk "t2") "oldname" "newname"
      (worldOf [("oldname", ⟨"/path", "2026-01-01T00:00:00Z", "2026-01-01T00:00:00Z", "Title"⟩)])).1.Success = true ∧
    Resolve "t3" "oldname"
      (Rename "t0" "2026-02-01T00:00:00Z" (envOk "t1") (envOk "t2") "oldname" "newname"
        (worldOf [("oldname", ⟨"/path", "2026-01-01T00:00:00Z", "2026-01-01T00:00:00Z", "Title"⟩)])).2 = none ∧
    Resolve "t3" "newname"
      (Rename "t0" "2026-02-01T00:00:00Z" (envOk "t1") (envOk "t2") "oldname" "newname"
        (worldOf [("oldname", ⟨"/path", "2026-01-01T00:00:00Z", "2026-01-01T00:00:00Z", "Title"⟩)])).2 =
      some ⟨"/path", "2026-01-01T00:00:00Z", "2026-02-01T00:00:00Z", "Title"⟩ :=
  C4_rename_moves_entry "t0" "2026-02-01T00:00:00Z" "t3" (envOk "t1") (envOk "t2")
    "oldname" "newname" _ ⟨"/path", "2026-01-01T00:00:00Z", "2026-01-01T00:00:00Z", "Title"⟩
    (by decide) (by decide) (by decide) (by decide)

/-- C5 (failing input): the alias `old` was last updated on 2026-01-01; a `Rename` at
2026-02-01 whose first save fails at the temp file hands to the second `Save` a store
in which `old` carries `UpdatedAt` 2026-02-01, and this is what the second save
writes; the new name is absent and the result reports failure. -/
theorem C5_rollback_changes_updatedAt :
    (stored (worldOf [("old", ⟨"/p", "2026-01-01T00:00:00Z", "2026-01-01T00:00:00Z", "T"⟩)])).get? "old"
      = some ⟨"/p", "2026-01-01T00:00:00Z", "2026-01-01T00:00:00Z", "T"⟩ ∧
    (Rename "t0" "2026-02-01T00:00:00Z" (envTmpFails "t1") (envOk "t2") "old" "new"
      (worldOf [("old", ⟨"/p", "2026-01-01T00:00:00Z", "2026-01-01T00:00:00Z", "T"⟩)])).1.Success = false ∧
    (Rename "t0" "2026-02-01T00:00:00Z" (envTmpFails "t1") (envOk "t2") "old" "new"
      (worldOf [("old", ⟨"/p", "2026-01-01T00:00:00Z", "2026-01-01T00:00:00Z", "T"⟩)])).2.saved.map
        (fun f => (f.Aliases.get? "old", f.Aliases.get? "new"))
      = [(none, some ⟨"/p", "2026-01-01T00:00:00Z", "2026-02-01T00:00:00Z", "T"⟩),
         (some ⟨"/p", "2026-01-01T00:00:00Z", "2026-02-01T00:00:00Z", "T"⟩, none)] ∧
    (stored (Rename "t0" "2026-02-01T00:00:00Z" (envTmpFails "t1") (envOk "t2") "old" "new"
      (worldOf [("old", ⟨"/p", "2026-01-01T00:00:00Z", "2026-01-01T00:00:00Z", "T"⟩)])).2).get? "old"
      = some ⟨"/p", "2026-01-01T00:00:00Z", "2026-02-01T00:00:00Z", "T"⟩ := by
  decide

/-- C6: when the old name is absent from the store, or the new name is already present
(also when both names are equal), or the new name fails the validation `Set` applies,
`Rename` returns `Success = false` and leaves the world, so the alias file, unchanged. -/
theorem C6_rename_rejects (tLoad now : String) (env env2 : SaveEnv) (a b : String)
    (w : World)
    (h : (stored w).get? a = none ∨ (stored w).get? b ≠ none ∨ InvalidAlias b) :
    (Rename tLoad now env env2 a b w).1.Success = false ∧
    (Rename tLoad now env env2 a b w).2 = w :=
  Rename_rejects tLoad now env env2 a b w h

theorem C6_rename_rejects_witness :
    (Rename "t0" "t1" (envOk "t2") (envOk "t3") "a" "a"
      (worldOf [("a", ⟨"/p", "t", "t", ""⟩)])).1.Success = false ∧
    (Rename "t0" "t1" (envOk "t2") (envOk "t3") "a" "a"
      (worldOf [("a", ⟨"/p", "t", "t", ""⟩)])).2 = worldOf [("a", ⟨"/p", "t", "t", ""⟩)] :=
  C6_rename_rejects "t0" "t1" (envOk "t2") (envOk "t3") "a" "a" _ (Or.inr (Or.inl (by decide)))

/-! ## `Cleanup` -/

theorem foldl_delete_eq_filter (ks : List String) (m : AliasMap) :
    ks.foldl AliasMap.delete m = m.filter (fun p => decide (p.1 ∉ ks)) := by
  induction ks generalizing m with
  | nil => simp
  | cons k t ih =>
    rw [List.foldl_cons, ih, delete_eq_filter, List.filter_filter]
    apply List.filter_congr
    intro p _
    simp only [List.mem_cons, not_or, ne_eq, Bool.decide_and, Bool.and_comm]

theorem eq_of_key_eq (m : AliasMap) (hwf : m.WF) (p q : String × AliasEntry)
    (hp : p ∈ m) (hq : q ∈ m) (h : p.1 = q.1) : p = q :=
  List.inj_on_of_nodup_map hwf hp hq h

/-- Removing the keys of the rejected entries of a map with unique keys leaves exactly
the accepted entries. -/
theorem cleanup_map (m : AliasMap) (hwf : m.WF) (accept : String → Bool) :
    ((m.filter (fun p => !accept p.2.SessionPath)).map Prod.fst).foldl AliasMap.delete m =
      m.filter (fun p => accept p.2.SessionPath) := by
  rw [foldl_delete_eq_filter]
  apply List.filter_congr
  intro p hp
  by_cases ha : accept p.2.SessionPath = true
  · rw [ha]
    simp only [decide_eq_true_eq, List.mem_map, List.mem_filter, not_exists, not_and]
    intro q ⟨hq, hrej⟩ hk
    have := eq_of_key_eq m hwf q p hq hp hk
    rw [this, ha] at hrej
    cases hrej
  · have ha2 : accept p.2.SessionPath = false := by
      cases h : accept p.2.SessionPath
      · rfl
      · exact absurd h ha
    rw [ha2]
    simp only [decide_eq_false_iff_not, not_not, List.mem_map, List.mem_filter]
    exact ⟨p, ⟨hp, by simp [ha2]⟩, rfl⟩

theorem filter_accept_of_no_reject (m : AliasMap) (accept : String → Bool)
    (h : (m.filter (fun p => !accept p.2.SessionPath)).length = 0) :
    m.filter (fun p => accept p.2.SessionPath) = m := by
  rw [List.filter_eq_self]
  intro p hp
  have h0 := List.length_eq_zero.mp h
  rw [List.filter_eq_nil_iff] at h0
  have := h0 p hp
  simpa using this

/-- C7: for a store with unique keys, `Cleanup` returns `checked` = the number of
aliases in the store before the call and `removed` = the number of those whose session
path the predicate rejects; after a successful save the store holds exactly the aliases
whose session path the predicate accepts, each with its entry unchanged. -/
theorem C7_cleanup (tLoad : String) (env : SaveEnv) (sessionExists : String → Bool)
    (w : World) (hwf : (stored w).WF) :
    (Cleanup tLoad env sessionExists w).1.1 = (stored w).length ∧
    (Cleanup tLoad env sessionExists w).1.2 =
      ((stored w).filter (fun p => !sessionExists p.2.SessionPath)).length ∧
    (env.succeeds = true →
      stored (Cleanup tLoad env sessionExists w).2 =
        (stored w).filter (fun p => sessionExists p.2.SessionPath)) := by
  unfold Cleanup
  simp only [Load_aliases_stored, List.length_map]
  refine ⟨trivial, trivial, ?_⟩
  intro hsave
  split_ifs with h
  · rw [stored_of_main _ _ (Save_main_of_succeeds env _ w hsave)]
    simp only [stamp]
    exact cleanup_map (stored w) hwf sessionExists
  · rw [filter_accept_of_no_reject]
    omega

theorem C7_cleanup_witness :
    (Cleanup "t0" (envOk "t1") (fun p => p == "/x")
      (worldOf [("keep", ⟨"/x", "c", "u", ""⟩), ("drop", ⟨"/y", "c", "u", ""⟩)])).1.1 = 2 ∧
    (Cleanup "t0" (envOk "t1") (fun p => p == "/x")
      (worldOf [("keep", ⟨"/x", "c", "u", ""⟩), ("drop", ⟨"/y", "c", "u", ""⟩)])).1.2 = 1 ∧
    stored (Cleanup "t0" (envOk "t1") (fun p => p == "/x")
      (worldOf [("keep", ⟨"/x", "c", "u", ""⟩), ("drop", ⟨"/y", "c", "u", ""⟩)])).2 =
      [("keep", ⟨"/x", "c", "u", ""⟩)] :=
  (fun h => ⟨h.1, h.2.1, h.2.2 (by decide)⟩)
    (C7_cleanup "t0" (envOk "t1") (fun p => p == "/x")
      (worldOf [("keep", ⟨"/x", "c", "u", ""⟩), ("drop", ⟨"/y", "c", "u", ""⟩)])
      (by decide))

/-! ## A failing `Save` -/

theorem restoreBackup_main_of_bak (b : Bool) (cut : Option String) (w : World) (c : Content)
    (hbak : w.bak = some c) (h : (w.main = some c ∧ cut = none) ∨ b = true) :
    (restoreBackup b cut w).main = some c := by
  unfold restoreBackup
  rw [hbak]
  cases b
  · rcases h with ⟨h, hc⟩ | h
    · rw [hc]
      simpa [failedWrite] using h
    · cases h
  · rfl

theorem backupExisting_bak_of_main (env : SaveEnv) (w : World) (c : Content)
    (hmain : w.main = some c) (hok : env.bakWriteOk = true) :
    (backupExisting env w).bak = some c := by
  unfold backupExisting copyFile
  rw [hmain, hok]
  rfl

theorem removeDestination_main (env : SaveEnv) (w : World) :
    (removeDestination env w).main = w.main ∨
      (env.windows = true ∧ (removeDestination env w).main = none) := by
  unfold removeDestination
  split_ifs with h1 h2
  · right
    simp only [Bool.and_eq_true] at h1
    exact ⟨h1.1, rfl⟩
  · left; rfl
  · left; rfl

/-- Where a failing `Save` does restore: when it fails at the write of the temp file or
at the rename, the alias file existed before the call and the backup copy was taken,
then `Save` returns `false` and the alias file has the content it had before the call,
provided the write of `restoreBackup` to the alias file succeeds, or it fails without
having opened the file on a platform where the destination is not removed before the
rename. -/
theorem Save_failed_restores (env : SaveEnv) (f : AliasFile) (w : World) (c : Content)
    (hmain : w.main = some c) (hbak : env.bakWriteOk = true)
    (hm : env.marshalOk = true) (hd : env.ensureDirOk = true)
    (hfail : env.tmpWriteOk = false ∨ env.renameOk = false)
    (hrestore : env.restoreWriteOk = true ∨
      (env.windows = false ∧ env.restoreWriteCut = none)) :
    (Save env f w).1 = false ∧ (Save env f w).2.main = some c := by
  have hb : (backupExisting env
      { main := w.main, tmp := w.tmp, bak := w.bak, saved := w.saved ++ [f] }).bak = some c :=
    backupExisting_bak_of_main env _ c hmain hbak
  unfold Save
  simp only [hm, hd, Bool.not_true, Bool.false_eq_true, if_false]
  cases ht : env.tmpWriteOk
  · simp only [Bool.not_false, if_true]
    refine ⟨trivial, ?_⟩
    apply restoreBackup_main_of_bak
    · exact hb
    · rcases hrestore with h | ⟨_, h⟩
      · right; exact h
      · left
        refine ⟨?_, h⟩
        show (backupExisting env _).main = some c
        rw [backupExisting_main]
        exact hmain
  · have hr : env.renameOk = false := by
      rcases hfail with h | h
      · rw [ht] at h; cases h
      · exact h
    simp only [hr, Bool.not_true, Bool.not_false, Bool.false_eq_true, if_false, if_true,
      cleanupTemp_main]
    refine ⟨trivial, ?_⟩
    apply restoreBackup_main_of_bak
    · rw [removeDestination_bak]; exact hb
    · rcases hrestore with h | ⟨hw, hcut⟩
      · right; exact h
      · left
        refine ⟨?_, hcut⟩
        rcases removeDestination_main env
          { main := (backupExisting env
              { main := w.main, tmp := w.tmp, bak := w.bak, saved := w.saved ++ [f] }).main,
            tmp := some (.file (stamp env f)),
            bak := (backupExisting env
              { main := w.main, tmp := w.tmp, bak := w.bak, saved := w.saved ++ [f] }).bak,
            saved := (backupExisting env
              { main := w.main, tmp := w.tmp, bak := w.bak, saved := w.saved ++ [f] }).saved }
          with h | ⟨hw', _⟩
        · rw [h]
          simp only [backupExisting_main]
          exact hmain
        · rw [hw] at hw'; cases hw'

/-- C8 (failing input): not on Windows, the alias file holds the alias `a` and the write
of the temp file fails, so the alias file has not been touched; `restoreBackup` then
rewrites it in place from the backup, and this write fails after the file was
truncated.  `Save` returns `false` and the alias file is left empty: it does not
decode, and the next `Load` returns the default store without the alias.  The backup
copy still holds the old content. -/
theorem C8_failed_restore_cuts_alias_file :
    (worldOf [("a", ⟨"/p", "c", "u", ""⟩)]).main =
      some (.file ⟨"1.0", [("a", ⟨"/p", "c", "u", ""⟩)], ⟨1, "2026-01-01T00:00:00Z"⟩⟩) ∧
    (Save { envOk "t1" with tmpWriteOk := false, restoreWriteOk := false,
                            restoreWriteCut := some "" }
      ⟨"1.0", [], ⟨0, ""⟩⟩ (worldOf [("a", ⟨"/p", "c", "u", ""⟩)])).1 = false ∧
    (Save { envOk "t1" with tmpWriteOk := false, restoreWriteOk := false,
                            restoreWriteCut := some "" }
      ⟨"1.0", [], ⟨0, ""⟩⟩ (worldOf [("a", ⟨"/p", "c", "u", ""⟩)])).2.main =
      some (.unparsable "") ∧
    (Save { envOk "t1" with tmpWriteOk := false, restoreWriteOk := false,
                            restoreWriteCut := some "" }
      ⟨"1.0", [], ⟨0, ""⟩⟩ (worldOf [("a", ⟨"/p", "c", "u", ""⟩)])).2.bak =
      some (.file ⟨"1.0", [("a", ⟨"/p", "c", "u", ""⟩)], ⟨1, "2026-01-01T00:00:00Z"⟩⟩) ∧
    (Load "t2" (Save { envOk "t1" with tmpWriteOk := false, restoreWriteOk := false,
                                       restoreWriteCut := some "" }
      ⟨"1.0", [], ⟨0, ""⟩⟩ (worldOf [("a", ⟨"/p", "c", "u", ""⟩)])).2).Aliases = [] ∧
    (Save { envOk "t1" with windows := true, renameOk := false, restoreWriteOk := false }
      ⟨"1.0", [], ⟨0, ""⟩⟩ (worldOf [("a", ⟨"/p", "c", "u", ""⟩)])).2.main = none := by
  decide

/-! ## The count of aliases -/

theorem CountOk_of_main (w : World) (f : AliasFile) (h : w.main = some (.file f))
    (hc : f.Metadata.TotalCount = (f.Aliases.length : Int)) : CountOk w := by
  unfold CountOk
  rw [h]
  exact hc

theorem Save_CountOk (env : SaveEnv) (f : AliasFile) (w : World)
    (h : (Save env f w).1 = true) : CountOk (Save env f w).2 := by
  rw [Save_fst] at h
  exact CountOk_of_main _ _ (Save_main_of_succeeds env f w h) rfl

theorem ite_pair_snd {α β : Type} (c : Prop) [Decidable c] (x y : α) (z : β) :
    (if c then (x, z) else (y, z)).2 = z := by
  split_ifs <;> rfl

theorem ite_pair_success {β : Type} (b : Bool) (x y : SetResult) (z : β)
    (hx : x.Success = false) (hy : y.Success = true) :
    (if (!b) = true then (x, z) else (y, z)).1.Success = b := by
  cases b
  · simpa using hx
  · simpa using hy

theorem setStore_spec (tLoad now : String) (env : SaveEnv) (a p t : String) (w : World) :
    ∃ entry : AliasEntry,
      (setStore tLoad now env a p t w).2 =
        (Save env { Load tLoad w with Aliases := (Load tLoad w).Aliases.put a entry } w).2 ∧
      (setStore tLoad now env a p t w).1.Success =
        (Save env { Load tLoad w with Aliases := (Load tLoad w).Aliases.put a entry } w).1 := by
  unfold setStore
  simp only
  apply Exists.intro
  constructor
  · rw [ite_pair_snd]
  · rw [ite_pair_success _ _ _ _ rfl rfl]

theorem Set_cases (tLoad now : String) (env : SaveEnv) (a p t : String) (w : World) :
    ((Set tLoad now env a p t w).1.Success = false ∧ (Set tLoad now env a p t w).2 = w) ∨
    (ValidAlias a ∧ Set tLoad now env a p t w = setStore tLoad now env a p t w) := by
  unfold Set
  split_ifs with h1 h2 h3 h4 h5
  · exact Or.inl ⟨rfl, rfl⟩
  · exact Or.inl ⟨rfl, rfl⟩
  · exact Or.inl ⟨rfl, rfl⟩
  · exact Or.inl ⟨rfl, rfl⟩
  · exact Or.inl ⟨rfl, rfl⟩
  · refine Or.inr ⟨?_, rfl⟩
    by_contra hv
    have hinv : InvalidAlias a := by
      unfold ValidAlias at hv
      unfold InvalidAlias
      by_contra hn
      apply hv
      simp only [not_or, not_exists, not_and, Bool.not_eq_false] at hn
      obtain ⟨n1, n2, n3, n4⟩ := hn
      exact ⟨by omega, by omega, n3, n4⟩
    rcases invalidAlias_checks a hinv with hc | hc | hc | hc
    · exact h1 hc
    · exact h3 hc
    · rw [hc] at h4; exact h4 rfl
    · exact h5 hc

theorem Set_CountOk (tLoad now : String) (env : SaveEnv) (a p t : String) (w : World)
    (h : (Set tLoad now env a p t w).1.Success = true) :
    CountOk (Set tLoad now env a p t w).2 := by
  rcases Set_cases tLoad now env a p t w with ⟨hf, _⟩ | ⟨_, heq⟩
  · rw [hf] at h; cases h
  · rw [heq] at h ⊢
    obtain ⟨entry, h2, h1⟩ := setStore_spec tLoad now env a p t w
    rw [h2]
    apply Save_CountOk
    rw [← h1]; exact h

theorem Delete_spec (tLoad : String) (env : SaveEnv) (a : String) (w : World) :
    ((Delete tLoad env a w).1.Success = false ∧ (Delete tLoad env a w).2 = w) ∨
    ((Delete tLoad env a w).2 =
        (Save env { Load tLoad w with Aliases := (Load tLoad w).Aliases.delete a } w).2 ∧
      (Delete tLoad env a w).1.Success =
        (Save env { Load tLoad w with Aliases := (Load tLoad w).Aliases.delete a } w).1) := by
  unfold Delete
  simp only
  cases (Load tLoad w).Aliases.get? a with
  | none => exact Or.inl ⟨rfl, rfl⟩
  | some e =>
    right
    simp only
    cases h : (Save env _ w).1 <;> simp [h]

theorem Delete_CountOk (tLoad : String) (env : SaveEnv) (a : String) (w : World)
    (h : (Delete tLoad env a w).1.Success = true) :
    CountOk (Delete tLoad env a w).2 := by
  rcases Delete_spec tLoad env a w with ⟨hf, _⟩ | ⟨h2, h1⟩
  · rw [hf] at h; cases h
  · rw [h2]
    apply Save_CountOk
    rw [← h1]; exact h

/-- The outcomes of `renameStore`: rejected without a save; saved; or rolled back. -/
theorem renameStore_spec (tLoad now : String) (env env2 : SaveEnv) (a b : String)
    (w : World) :
    ((renameStore tLoad now env env2 a b w).1.Success = false ∧
      (renameStore tLoad now env env2 a b w).2 = w) ∨
    (∃ e0 : AliasEntry, (Load tLoad w).Aliases.get? a = some e0 ∧
      (((Save env { Load tLoad w with Aliases :=
            ((Load tLoad w).Aliases.delete a).put b { e0 with UpdatedAt := now } } w).1 = true ∧
        (renameStore tLoad now env env2 a b w).1.Success = true ∧
        (renameStore tLoad now env env2 a b w).2 =
          (Save env { Load tLoad w with Aliases :=
            ((Load tLoad w).Aliases.delete a).put b { e0 with UpdatedAt := now } } w).2) ∨
       ((renameStore tLoad now env env2 a b w).1.Success = false ∧
        (renameStore tLoad now env env2 a b w).2 =
          (Save env2 { Load tLoad w with Aliases :=
              ((((Load tLoad w).Aliases.delete a).put b { e0 with UpdatedAt := now }).put a
                { e0 with UpdatedAt := now }).delete b }
            (Save env { Load tLoad w with Aliases :=
              ((Load tLoad w).Aliases.delete a).put b { e0 with UpdatedAt := now } } w).2).2))) := by
  unfold renameStore
  simp only
  cases hga : (Load tLoad w).Aliases.get? a with
  | none => exact Or.inl ⟨rfl, rfl⟩
  | some e0 =>
    simp only
    cases hgb : ((Load tLoad w).Aliases.get? b).isSome
    · right
      refine ⟨e0, rfl, ?_⟩
      simp only [Bool.false_eq_true, if_false]
      cases h : (Save env _ w).1
      · right; simp [h]
      · left; simp [h]
    · left
      simp

theorem Rename_cases (tLoad now : String) (env env2 : SaveEnv) (a b : String) (w : World) :
    ((Rename tLoad now env env2 a b w).1.Success = false ∧
      (Rename tLoad now env env2 a b w).2 = w) ∨
    (ValidAlias b ∧ Rename tLoad now env env2 a b w = renameStore tLoad now env env2 a b w) := by
  unfold Rename
  split_ifs with h1 h3 h4 h5
  · exact Or.inl ⟨rfl, rfl⟩
  · exact Or.inl ⟨rfl, rfl⟩
  · exact Or.inl ⟨rfl, rfl⟩
  · exact Or.inl ⟨rfl, rfl⟩
  · refine Or.inr ⟨?_, rfl⟩
    by_contra hv
    have hinv : InvalidAlias b := by
      unfold ValidAlias at hv
      unfold InvalidAlias
      by_contra hn
      apply hv
      simp only [not_or, not_exists, not_and, Bool.not_eq_false] at hn
      obtain ⟨n1, n2, n3, n4⟩ := hn
      exact ⟨by omega, by omega, n3, n4⟩
    rcases invalidAlias_checks b hinv with hc | hc | hc | hc
    · exact h1 hc
    · exact h3 hc
    · rw [hc] at h4; exact h4 rfl
    · exact h5 hc

theorem Rename_CountOk (tLoad now : String) (env env2 : SaveEnv) (a b : String) (w : World)
    (h : (Rename tLoad now env env2 a b w).1.Success = true) :
    CountOk (Rename tLoad now env env2 a b w).2 := by
  rcases Rename_cases tLoad now env env2 a b w with ⟨hf, _⟩ | ⟨_, heq⟩
  · rw [hf] at h; cases h
  · rw [heq] at h ⊢
    rcases renameStore_spec tLoad now env env2 a b w with
      ⟨hf, _⟩ | ⟨e0, _, ⟨hs, _, hw⟩ | ⟨hf, _⟩⟩
    · rw [hf] at h; cases h
    · rw [hw]
      exact Save_CountOk _ _ _ hs
    · rw [hf] at h; cases h

theorem Cleanup_CountOk (tLoad : String) (env : SaveEnv) (ex : String → Bool) (w : World)
    (hrem : 0 < (Cleanup tLoad env ex w).1.2) (hsave : env.succeeds = true) :
    CountOk (Cleanup tLoad env ex w).2 := by
  unfold Cleanup at hrem ⊢
  simp only at hrem ⊢
  rw [if_pos hrem]
  apply Save_CountOk
  rw [Save_fst]
  exact hsave

/-- C9 (amended): whatever `totalCount` the value handed to `Save` carries, when `Save`
succeeds the alias file written has `totalCount` equal to the number of entries of its
map; hence the same holds after every successful `Set`, `Delete` and `Rename`, and
after every `Cleanup` that removes at least one alias and whose save succeeds. -/
theorem C9_total_count (tLoad now : String) (env env2 : SaveEnv) (w : World) :
    (∀ f, (Save env f w).1 = true → CountOk (Save env f w).2) ∧
    (∀ a p t, (Set tLoad now env a p t w).1.Success = true →
      CountOk (Set tLoad now env a p t w).2) ∧
    (∀ a, (Delete tLoad env a w).1.Success = true → CountOk (Delete tLoad env a w).2) ∧
    (∀ a b, (Rename tLoad now env env2 a b w).1.Success = true →
      CountOk (Rename tLoad now env env2 a b w).2) ∧
    (∀ ex, 0 < (Cleanup tLoad env ex w).1.2 → env.succeeds = true →
      CountOk (Cleanup tLoad env ex w).2) :=
  ⟨fun f => Save_CountOk env f w,
   fun a p t => Set_CountOk tLoad now env a p t w,
   fun a => Delete_CountOk tLoad env a w,
   fun a b => Rename_CountOk tLoad now env env2 a b w,
   fun ex => Cleanup_CountOk tLoad env ex w⟩

/-- C9 (counterexample): an alias file with one alias and `totalCount` 7; a `Cleanup`
whose predicate accepts every path checks one alias, removes none, performs no save and
leaves the file, with its wrong `totalCount`, as it was. -/
theorem C9_cleanup_without_save :
    (Cleanup "t0" (envOk "t1") (fun _ => true)
      ⟨some (.file ⟨"1.0", [("a", ⟨"/p", "c", "u", ""⟩)], ⟨7, "t"⟩⟩), none, none, []⟩) =
      ((1, 0), ⟨some (.file ⟨"1.0", [("a", ⟨"/p", "c", "u", ""⟩)], ⟨7, "t"⟩⟩), none, none, []⟩) ∧
    ¬ CountOk (Cleanup "t0" (envOk "t1") (fun _ => true)
      ⟨some (.file ⟨"1.0", [("a", ⟨"/p", "c", "u", ""⟩)], ⟨7, "t"⟩⟩), none, none, []⟩).2 := by
  decide

theorem C9_total_count_witness :
    CountOk (Save (envOk "t1") ⟨"1.0", [("a", ⟨"/p", "c", "u", ""⟩)], ⟨7, "t"⟩⟩
      ⟨none, none, none, []⟩).2 ∧
    CountOk (Cleanup "t0" (envOk "t1") (fun _ => false)
      ⟨some (.file ⟨"1.0", [("a", ⟨"/p", "c", "u", ""⟩)], ⟨7, "t"⟩⟩), none, none, []⟩).2 :=
  (fun h => ⟨h.1 _ (by decide), h.2.2.2.2 _ (by decide) (by decide)⟩)
    (C9_total_count "t0" "t2" (envOk "t1") (envOk "t3")
      ⟨some (.file ⟨"1.0", [("a", ⟨"/p", "c", "u", ""⟩)], ⟨7, "t"⟩⟩), none, none, []⟩)

/-! ## The alias-key invariant -/

theorem stored_eq_aliasesOf (w : World) : stored w = aliasesOf w.main := by
  unfold stored Load aliasesOf
  cases hm : w.main with
  | none => rfl
  | some c =>
    cases c with
    | unparsable raw => rfl
    | nilAliases v md => rfl
    | file f =>
      simp only
      split_ifs <;> rfl

theorem failedWrite_keeps (P : Option Content → Prop)
    (hcut : ∀ raw, P (some (.unparsable raw))) (cut : Option String) (old : Option Content)
    (h : P old) : P (failedWrite cut old) := by
  cases cut with
  | none => exact h
  | some raw => exact hcut raw

theorem Both_backupExisting (P : Option Content → Prop)
    (hcut : ∀ raw, P (some (.unparsable raw))) (env : SaveEnv) (w : World)
    (h : Both P w) : Both P (backupExisting env w) := by
  obtain ⟨main, tmp, bak, saved⟩ := w
  unfold backupExisting copyFile
  cases main with
  | none => exact h
  | some d =>
    cases env.bakWriteOk
    · exact ⟨h.1, failedWrite_keeps P hcut _ _ h.2⟩
    · exact ⟨h.1, h.1⟩

theorem Both_restoreBackup (P : Option Content → Prop)
    (hcut : ∀ raw, P (some (.unparsable raw))) (b : Bool) (cut : Option String) (w : World)
    (h : Both P w) : Both P (restoreBackup b cut w) := by
  obtain ⟨main, tmp, bak, saved⟩ := w
  unfold restoreBackup
  cases bak with
  | none => exact h
  | some d =>
    cases b
    · exact ⟨failedWrite_keeps P hcut _ _ h.1, h.2⟩
    · exact ⟨h.2, h.2⟩

theorem Both_removeDestination (P : Option Content → Prop) (hnone : P none) (env : SaveEnv)
    (w : World) (h : Both P w) : Both P (removeDestination env w) := by
  unfold removeDestination
  split_ifs
  · exact ⟨hnone, h.2⟩
  · exact h
  · exact h

theorem Both_cleanupTemp (P : Option Content → Prop) (b : Bool) (w : World)
    (h : Both P w) : Both P (cleanupTemp b w) := by
  unfold cleanupTemp
  split_ifs
  · exact h
  · exact h

theorem Both_removeBackup (P : Option Content → Prop) (hnone : P none) (env : SaveEnv)
    (w : World) (h : Both P w) : Both P (removeBackup env w) := by
  unfold removeBackup
  split_ifs
  · exact ⟨h.1, hnone⟩
  · exact h

/-- After `Save`, the alias file and its backup hold the new content, content one of
them held before, or nothing. -/
theorem Both_Save (P : Option Content → Prop) (hnone : P none)
    (hcut : ∀ raw, P (some (.unparsable raw))) (env : SaveEnv)
    (f : AliasFile) (w : World) (h : Both P w) (hnew : P (some (.file (stamp env f)))) :
    Both P (Save env f w).2 := by
  have h0 : Both P { main := w.main, tmp := w.tmp, bak := w.bak, saved := w.saved ++ [f] } := h
  have h1 := Both_backupExisting P hcut env _ h0
  unfold Save
  simp only
  split_ifs
  · exact h0
  · exact h0
  · exact Both_restoreBackup P hcut _ _ _ h1
  · apply Both_cleanupTemp
    apply Both_restoreBackup P hcut
    apply Both_removeDestination P hnone
    exact h1
  · apply Both_removeBackup P hnone
    refine ⟨?_, ?_⟩
    · simp only [removeDestination_tmp]
      exact hnew
    · simp only [removeDestination_bak]
      exact h1.2

theorem KeyInv_iff (w : World) : KeyInv w ↔ Both (fun c => KeysOk (aliasesOf c)) w := by
  unfold KeyInv Both
  rw [stored_eq_aliasesOf]

theorem KeysOk_nil : KeysOk [] := by
  intro k hk
  cases hk

theorem KeyInv_Save (env : SaveEnv) (f : AliasFile) (w : World) (h : KeyInv w)
    (hf : KeysOk f.Aliases) : KeyInv (Save env f w).2 := by
  rw [KeyInv_iff] at h ⊢
  exact Both_Save _ KeysOk_nil (fun _ => KeysOk_nil) env f w h hf

theorem KeysOk_put (m : AliasMap) (k : String) (v : AliasEntry) (h : KeysOk m)
    (hk : ValidAlias k) : KeysOk (m.put k v) := by
  intro x hx
  rcases keys_put m k v x hx with h1 | h1
  · rw [h1]; exact hk
  · exact h x h1

theorem KeysOk_delete (m : AliasMap) (k : String) (h : KeysOk m) : KeysOk (m.delete k) :=
  fun x hx => h x (keys_delete m k x hx)

theorem KeysOk_foldl_delete (ks : List String) (m : AliasMap) (h : KeysOk m) :
    KeysOk (ks.foldl AliasMap.delete m) := by
  induction ks generalizing m with
  | nil => exact h
  | cons k t ih => exact ih _ (KeysOk_delete m k h)

theorem KeyInv_Set (tLoad now : String) (env : SaveEnv) (a p t : String) (w : World)
    (h : KeyInv w) : KeyInv (Set tLoad now env a p t w).2 := by
  rcases Set_cases tLoad now env a p t w with ⟨_, hw⟩ | ⟨hv, heq⟩
  · rw [hw]; exact h
  · rw [heq]
    obtain ⟨entry, h2, _⟩ := setStore_spec tLoad now env a p t w
    rw [h2]
    apply KeyInv_Save _ _ _ h
    simp only [Load_aliases_stored]
    exact KeysOk_put _ _ _ h.1 hv

theorem KeyInv_Delete (tLoad : String) (env : SaveEnv) (a : String) (w : World)
    (h : KeyInv w) : KeyInv (Delete tLoad env a w).2 := by
  rcases Delete_spec tLoad env a w with ⟨_, hw⟩ | ⟨h2, _⟩
  · rw [hw]; exact h
  · rw [h2]
    apply KeyInv_Save _ _ _ h
    simp only [Load_aliases_stored]
    exact KeysOk_delete _ _ h.1

theorem KeyInv_Rename (tLoad now : String) (env env2 : SaveEnv) (a b : String) (w : World)
    (h : KeyInv w) : KeyInv (Rename tLoad now env env2 a b w).2 := by
  rcases Rename_cases tLoad now env env2 a b w with ⟨_, hw⟩ | ⟨hv, heq⟩
  · rw [hw]; exact h
  · rw [heq]
    rcases renameStore_spec tLoad now env env2 a b w with
      ⟨_, hw⟩ | ⟨e0, hget, ⟨_, _, hw⟩ | ⟨_, hw⟩⟩
    · rw [hw]; exact h
    · rw [hw]
      apply KeyInv_Save _ _ _ h
      simp only [Load_aliases_stored]
      exact KeysOk_put _ _ _ (KeysOk_delete _ _ h.1) hv
    · rw [hw]
      have ha : ValidAlias a := by
        rw [Load_aliases_stored] at hget
        exact h.1 a (mem_keys_of_get? _ _ _ hget)
      apply KeyInv_Save
      · apply KeyInv_Save _ _ _ h
        simp only [Load_aliases_stored]
        exact KeysOk_put _ _ _ (KeysOk_delete _ _ h.1) hv
      · simp only [Load_aliases_stored]
        exact KeysOk_delete _ _ (KeysOk_put _ _ _ (KeysOk_put _ _ _ (KeysOk_delete _ _ h.1) hv) ha)

theorem KeyInv_Cleanup (tLoad : String) (env : SaveEnv) (ex : String → Bool) (w : World)
    (h : KeyInv w) : KeyInv (Cleanup tLoad env ex w).2 := by
  unfold Cleanup
  simp only
  split_ifs
  · apply KeyInv_Save _ _ _ h
    simp only [Load_aliases_stored]
    exact KeysOk_foldl_delete _ _ h.1
  · exact h

/-- C10 (amended): if every key of the stored alias map is a valid alias name, and so
is every key of the map held by the `.bak` sibling when there is one, then the same
holds after any call of `Set`, `Rename`, `Delete` or `Cleanup`, with any arguments and
whether the call succeeds or fails. -/
theorem C10_key_invariant (w : World) (h : KeyInv w) :
    (∀ tLoad now env a p t, KeyInv (Set tLoad now env a p t w).2) ∧
    (∀ tLoad now env env2 a b, KeyInv (Rename tLoad now env env2 a b w).2) ∧
    (∀ tLoad env a, KeyInv (Delete tLoad env a w).2) ∧
    (∀ tLoad env ex, KeyInv (Cleanup tLoad env ex w).2) :=
  ⟨fun tLoad now env a p t => KeyInv_Set tLoad now env a p t w h,
   fun tLoad now env env2 a b => KeyInv_Rename tLoad now env env2 a b w h,
   fun tLoad env a => KeyInv_Delete tLoad env a w h,
   fun tLoad env ex => KeyInv_Cleanup tLoad env ex w h⟩

theorem C10_key_invariant_witness :
    KeyInv (worldOf [("a", ⟨"/p", "c", "u", ""⟩)]) ∧
    KeyInv (Set "t0" "t1" (envTmpFails "t2") "b" "/q" "" (worldOf [("a", ⟨"/p", "c", "u", ""⟩)])).2 :=
  ⟨by decide, (C10_key_invariant (worldOf [("a", ⟨"/p", "c", "u", ""⟩)]) (by decide)).1
    "t0" "t1" (envTmpFails "t2") "b" "/q" ""⟩

/-- C10 (counterexample): no alias file, so an empty stored map, and a leftover `.bak`
holding the key `bad key`; a `Set` whose save fails at the temp file restores the alias
file from that `.bak`, and the stored map then has a key that is not a valid name. -/
theorem C10_stale_backup_restored :
    KeysOk (stored ⟨none, none,
      some (.file ⟨"1.0", [("bad key", ⟨"/p", "c", "u", ""⟩)], ⟨1, "t"⟩⟩), []⟩) ∧
    (Set "t0" "t1" (envTmpFails "t2") "x" "/q" "" ⟨none, none,
      some (.file ⟨"1.0", [("bad key", ⟨"/p", "c", "u", ""⟩)], ⟨1, "t"⟩⟩), []⟩).1.Success = false ∧
    stored (Set "t0" "t1" (envTmpFails "t2") "x" "/q" "" ⟨none, none,
      some (.file ⟨"1.0", [("bad key", ⟨"/p", "c", "u", ""⟩)], ⟨1, "t"⟩⟩), []⟩).2 =
      [("bad key", ⟨"/p", "c", "u", ""⟩)] ∧
    ¬ KeysOk (stored (Set "t0" "t1" (envTmpFails "t2") "x" "/q" "" ⟨none, none,
      some (.file ⟨"1.0", [("bad key", ⟨"/p", "c", "u", ""⟩)], ⟨1, "t"⟩⟩), []⟩).2) := by
  decide

/-! ## Round trip of `Load` and `Save` -/

theorem Load_version_ne_empty (t : String) (w : World) : (Load t w).Version ≠ "" := by
  have hv : aliasVersion ≠ "" := by decide
  unfold Load
  split
  · exact hv
  · exact hv
  · exact hv
  · split_ifs with h
    · exact hv
    · exact h

theorem Load_of_main_file (t : String) (w : World) (f : AliasFile)
    (h : w.main = some (.file f)) (hv : f.Version ≠ "") : Load t w = f := by
  unfold Load
  rw [h]
  simp only
  rw [if_neg hv]

/-- C11: when the save succeeds, `Save(Load())` followed by `Load` returns the alias map
and the version the first `Load` returned; the file written carries the recomputed
`totalCount` and the `lastUpdated` of the save. -/
theorem C11_save_load_round_trip (t t2 : String) (env : SaveEnv) (w : World)
    (hsave : env.succeeds = true) :
    (Load t2 (Save env (Load t w) w).2).Aliases = (Load t w).Aliases ∧
    (Load t2 (Save env (Load t w) w).2).Version = (Load t w).Version ∧
    (Load t2 (Save env (Load t w) w).2).Metadata =
      ⟨((Load t w).Aliases.length : Int), env.now⟩ := by
  have hm := Save_main_of_succeeds env (Load t w) w hsave
  have hl : Load t2 (Save env (Load t w) w).2 = stamp env (Load t w) :=
    Load_of_main_file t2 _ _ hm (Load_version_ne_empty t w)
  rw [hl]
  exact ⟨rfl, rfl, rfl⟩

theorem C11_save_load_round_trip_witness :
    (Load "t2" (Save (envOk "t1") (Load "t0" (worldOf [("a", ⟨"/p", "c", "u", "T"⟩)]))
      (worldOf [("a", ⟨"/p", "c", "u", "T"⟩)])).2).Aliases = [("a", ⟨"/p", "c", "u", "T"⟩)] ∧
    (Load "t2" (Save (envOk "t1") (Load "t0" (worldOf [("a", ⟨"/p", "c", "u", "T"⟩)]))
      (worldOf [("a", ⟨"/p", "c", "u", "T"⟩)])).2).Version = "1.0" ∧
    (Load "t2" (Save (envOk "t1") (Load "t0" (worldOf [("a", ⟨"/p", "c", "u", "T"⟩)]))
      (worldOf [("a", ⟨"/p", "c", "u", "T"⟩)])).2).Metadata = ⟨1, "t1"⟩ :=
  C11_save_load_round_trip "t0" "t2" (envOk "t1") (worldOf [("a", ⟨"/p", "c", "u", "T"⟩)]) rfl

/-! ## Creating and updating with `Set` -/

theorem setStore_result (tLoad now : String) (env : SaveEnv) (a p t : String) (w : World)
    (h : (setStore tLoad now env a p t w).1.Success = true) :
    env.succeeds = true ∧
    (setStore tLoad now env a p t w).1.IsNew = ((stored w).get? a).isNone ∧
    (stored (setStore tLoad now env a p t w).2).get? a =
      some { SessionPath := p, UpdatedAt := now, Title := t,
             CreatedAt := (((stored w).get? a).map (fun e => e.CreatedAt)).getD now } := by
  have hs : env.succeeds = true := by
    cases hsv : env.succeeds
    · exfalso
      unfold setStore at h
      simp only [Save_fst, hsv, Bool.not_false, if_true] at h
      cases h
    · rfl
  refine ⟨hs, ?_, ?_⟩
  · unfold setStore
    simp only [Save_fst, hs, Bool.not_true, Bool.false_eq_true, if_false, Load_aliases_stored]
  · unfold setStore
    simp only [Save_fst, hs, Bool.not_true, Bool.false_eq_true, if_false]
    rw [stored_of_main _ _ (Save_main_of_succeeds env _ w hs)]
    simp only [stamp, get?_put_self, title_ite, Load_aliases_stored]
    cases (stored w).get? a <;> rfl

/-- C12: when `Set` succeeds on an alias that is in the store, the stored entry keeps
the `CreatedAt` it had, gets `UpdatedAt` = the current time, and `IsNew` is false; when
the alias was not in the store, the stored entry has `CreatedAt` = `UpdatedAt` = the
current time and `IsNew` is true. -/
theorem C12_set_created_updated (tLoad now : String) (env : SaveEnv)
    (a p t : String) (w : World)
    (h : (Set tLoad now env a p t w).1.Success = true) :
    (∀ e0, (stored w).get? a = some e0 →
      (Set tLoad now env a p t w).1.IsNew = false ∧
      ∃ e, (stored (Set tLoad now env a p t w).2).get? a = some e ∧
        e.CreatedAt = e0.CreatedAt ∧ e.UpdatedAt = now) ∧
    ((stored w).get? a = none →
      (Set tLoad now env a p t w).1.IsNew = true ∧
      ∃ e, (stored (Set tLoad now env a p t w).2).get? a = some e ∧
        e.CreatedAt = now ∧ e.UpdatedAt = now) := by
  rcases Set_cases tLoad now env a p t w with ⟨hf, _⟩ | ⟨_, heq⟩
  · rw [hf] at h; cases h
  · rw [heq] at h ⊢
    obtain ⟨_, h1, h2⟩ := setStore_result tLoad now env a p t w h
    constructor
    · intro e0 he0
      rw [he0] at h1 h2
      exact ⟨h1, _, h2, rfl, rfl⟩
    · intro hn
      rw [hn] at h1 h2
      exact ⟨h1, _, h2, rfl, rfl⟩

theorem C12_set_created_updated_witness :
    (Set "t0" "2026-02-01T00:00:00Z" (envOk "t1") "a" "/q" ""
      (worldOf [("a", ⟨"/p", "2026-01-01T00:00:00Z", "2026-01-01T00:00:00Z", "T"⟩)])).1.IsNew = false ∧
    (stored (Set "t0" "2026-02-01T00:00:00Z" (envOk "t1") "a" "/q" ""
      (worldOf [("a", ⟨"/p", "2026-01-01T00:00:00Z", "2026-01-01T00:00:00Z", "T"⟩)])).2).get? "a" =
      some ⟨"/q", "2026-01-01T00:00:00Z", "2026-02-01T00:00:00Z", ""⟩ ∧
    (Set "t0" "2026-02-01T00:00:00Z" (envOk "t1") "b" "/q" ""
      (worldOf [("a", ⟨"/p", "2026-01-01T00:00:00Z", "2026-01-01T00:00:00Z", "T"⟩)])).1.IsNew = true ∧
    (stored (Set "t0" "2026-02-01T00:00:00Z" (envOk "t1") "b" "/q" ""
      (worldOf [("a", ⟨"/p", "2026-01-01T00:00:00Z", "2026-01-01T00:00:00Z", "T"⟩)])).2).get? "b" =
      some ⟨"/q", "2026-02-01T00:00:00Z", "2026-02-01T00:00:00Z", ""⟩ :=
  ⟨((C12_set_created_updated "t0" "2026-02-01T00:00:00Z" (envOk "t1") "a" "/q" ""
      (worldOf [("a", ⟨"/p", "2026-01-01T00:00:00Z", "2026-01-01T00:00:00Z", "T"⟩)])
      (by decide)).1 ⟨"/p", "2026-01-01T00:00:00Z", "2026-01-01T00:00:00Z", "T"⟩ (by decide)).1,
   by decide,
   ((C12_set_created_updated "t0" "2026-02-01T00:00:00Z" (envOk "t1") "b" "/q" ""
      (worldOf [("a", ⟨"/p", "2026-01-01T00:00:00Z", "2026-01-01T00:00:00Z", "T"⟩)])
      (by decide)).2 (by decide)).1,
   by decide⟩

/-! ## `ResolveSessionAlias` -/

/-- C15: `ResolveSessionAlias(s)` is the stored session path of the alias `s` when `s`
is a syntactically valid alias name that is in the store, and `s` itself in every other
case. -/
theorem C15_resolve_session_alias (tLoad : String) (s : String) (w : World) :
    (∀ e, SyntacticAlias s → (stored w).get? s = some e →
      ResolveSessionAlias tLoad s w = e.SessionPath) ∧
    (¬ (SyntacticAlias s ∧ ∃ e, (stored w).get? s = some e) →
      ResolveSessionAlias tLoad s w = s) := by
  unfold ResolveSessionAlias Resolve
  constructor
  · intro e hs he
    have hv : validAliasName s = true := (validAliasName_iff s).mpr hs
    have hne : s ≠ "" := fun h0 => hs.1 ((str_eq_empty s).mp h0)
    rw [if_neg (by simp [hne, hv]), Load_aliases_stored, he]
  · intro hn
    split_ifs with hc
    · rfl
    · rw [Load_aliases_stored]
      cases hg : (stored w).get? s with
      | none => rfl
      | some e =>
        exfalso
        apply hn
        simp only [Bool.or_eq_true, decide_eq_true_eq, Bool.not_eq_true', not_or,
          Bool.not_eq_false] at hc
        exact ⟨(validAliasName_iff s).mp hc.2, e, hg⟩

theorem C15_resolve_session_alias_witness :
    ResolveSessionAlias "t0" "myalias" (worldOf [("myalias", ⟨"/path/to/session", "c", "u", ""⟩)])
      = "/path/to/session" ∧
    ResolveSessionAlias "t0" "/some/file.tmp"
      (worldOf [("myalias", ⟨"/path/to/session", "c", "u", ""⟩)]) = "/some/file.tmp" :=
  ⟨(C15_resolve_session_alias "t0" "myalias"
      (worldOf [("myalias", ⟨"/path/to/session", "c", "u", ""⟩)])).1
      ⟨"/path/to/session", "c", "u", ""⟩ (by decide) (by decide),
   (C15_resolve_session_alias "t0" "/some/file.tmp"
      (worldOf [("myalias", ⟨"/path/to/session", "c", "u", ""⟩)])).2
      (fun h => absurd h.1 (by decide))⟩

/-! ## Sorting -/

theorem lexLt_irrefl (a : List Nat) : lexLt a a = false := by
  induction a with
  | nil => rfl
  | cons x xs ih => simp [lexLt, ih]

theorem lexLt_asymm (a b : List Nat) (h : lexLt a b = true) : lexLt b a = false := by
  induction a generalizing b with
  | nil =>
    cases b with
    | nil => simp [lexLt] at h
    | cons y ys => simp [lexLt]
  | cons x xs ih =>
    cases b with
    | nil => simp [lexLt] at h
    | cons y ys =>
      simp only [lexLt, Bool.or_eq_true, decide_eq_true_eq, Bool.and_eq_true, beq_iff_eq,
        Bool.or_eq_false_iff, decide_eq_false_iff_not, Bool.and_eq_false_iff] at h ⊢
      rcases h with h | ⟨h1, h2⟩
      · exact ⟨by omega, Or.inl (by simp; omega)⟩
      · exact ⟨by omega, Or.inr (ih ys h2)⟩

theorem lexLt_neg_trans (a b c : List Nat) (h1 : lexLt a b = false) (h2 : lexLt b c = false) :
    lexLt a c = false := by
  induction a generalizing b c with
  | nil =>
    cases c with
    | nil => rfl
    | cons z zs =>
      cases b with
      | nil => simp [lexLt] at h2
      | cons y ys => simp [lexLt] at h1
  | cons x xs ih =>
    cases c with
    | nil => rfl
    | cons z zs =>
      cases b with
      | nil => simp [lexLt] at h2
      | cons y ys =>
        simp only [lexLt, Bool.or_eq_false_iff, decide_eq_false_iff_not,
          Bool.and_eq_false_iff, beq_eq_false_iff_ne, ne_eq] at h1 h2 ⊢
        obtain ⟨h1a, h1b⟩ := h1
        obtain ⟨h2a, h2b⟩ := h2
        refine ⟨by omega, ?_⟩
        by_cases hxz : x = z
        · right
          subst hxz
          have hxy : x = y := by omega
          subst hxy
          rcases h1b with h | h
          · exact absurd rfl h
          · rcases h2b with h' | h'
            · exact absurd rfl h'
            · exact ih ys zs h h'
        · left; exact hxz

theorem insertFromRight_perm {α : Type} (less : α → α → Bool) (x : α) (l : List α) :
    (insertFromRight less x l).Perm (x :: l) := by
  induction l with
  | nil => exact List.Perm.refl _
  | cons y ys ih =>
    unfold insertFromRight
    split_ifs
    · exact (List.Perm.cons y ih).trans (List.Perm.swap x y ys)
    · exact List.Perm.refl _

theorem foldl_insert_perm {α : Type} (less : α → α → Bool) (l acc : List α) :
    (l.foldl (fun sortedRev x => insertFromRight less x sortedRev) acc).Perm (l ++ acc) := by
  induction l generalizing acc with
  | nil => exact List.Perm.refl _
  | cons x xs ih =>
    rw [List.foldl_cons]
    refine (ih _).trans ?_
    refine (List.Perm.append_left xs (insertFromRight_perm less x acc)).trans ?_
    simp only [List.cons_append]
    exact List.perm_middle

theorem sortSlice_perm {α : Type} (less : α → α → Bool) (l : List α) :
    (sortSlice less l).Perm l := by
  unfold sortSlice
  refine (List.reverse_perm _).trans ?_
  simpa using foldl_insert_perm less l []

theorem insertFromRight_pairwise {α : Type} (less : α → α → Bool)
    (hasym : ∀ x y, less x y = true → less y x = false)
    (hnt : ∀ x y z, less x y = false → less y z = false → less x z = false)
    (x : α) (l : List α) (h : l.Pairwise (fun a b => less a b = false)) :
    (insertFromRight less x l).Pairwise (fun a b => less a b = false) := by
  induction l with
  | nil => simp [insertFromRight]
  | cons y ys ih =>
    rw [List.pairwise_cons] at h
    unfold insertFromRight
    split_ifs with hxy
    · rw [List.pairwise_cons]
      refine ⟨?_, ih h.2⟩
      intro z hz
      rcases List.mem_cons.mp ((insertFromRight_perm less x ys).subset hz) with hz | hz
      · rw [hz]; exact hasym x y hxy
      · exact h.1 z hz
    · have hxy' : less x y = false := by
        cases hl : less x y
        · rfl
        · exact absurd hl hxy
      rw [List.pairwise_cons]
      refine ⟨?_, List.pairwise_cons.mpr h⟩
      intro z hz
      rcases List.mem_cons.mp hz with hz | hz
      · rw [hz]; exact hxy'
      · exact hnt x y z hxy' (h.1 z hz)

theorem foldl_insert_pairwise {α : Type} (less : α → α → Bool)
    (hasym : ∀ x y, less x y = true → less y x = false)
    (hnt : ∀ x y z, less x y = false → less y z = false → less x z = false)
    (l acc : List α) (h : acc.Pairwise (fun a b => less a b = false)) :
    (l.foldl (fun sortedRev x => insertFromRight less x sortedRev) acc).Pairwise
      (fun a b => less a b = false) := by
  induction l generalizing acc with
  | nil => exact h
  | cons x xs ih =>
    rw [List.foldl_cons]
    exact ih _ (insertFromRight_pairwise less hasym hnt x acc h)

/-- The result of `sortSlice` is sorted: no element is less than an earlier one. -/
theorem sortSlice_sorted {α : Type} (less : α → α → Bool)
    (hasym : ∀ x y, less x y = true → less y x = false)
    (hnt : ∀ x y z, less x y = false → less y z = false → less x z = false)
    (l : List α) : (sortSlice less l).Pairwise (fun a b => less b a = false) := by
  unfold sortSlice
  rw [List.pairwise_reverse]
  exact foldl_insert_pairwise less hasym hnt l [] List.Pairwise.nil

theorem newerFirst_asymm (x y : AliasInfo) (h : newerFirst x y = true) :
    newerFirst y x = false :=
  lexLt_asymm _ _ h

theorem newerFirst_neg_trans (x y z : AliasInfo) (h1 : newerFirst x y = false)
    (h2 : newerFirst y z = false) : newerFirst x z = false :=
  lexLt_neg_trans _ _ _ h2 h1

theorem sorted_aliases (l : List AliasInfo) :
    (sortSlice newerFirst l).Pairwise
      (fun x y => strGe (effective x) (effective y) = true) := by
  have h := sortSlice_sorted newerFirst newerFirst_asymm newerFirst_neg_trans l
  refine h.imp ?_
  intro a b hab
  unfold strGe
  unfold newerFirst at hab
  rw [hab]
  rfl

/-! ## `List` of the alias store -/

/-- The steps of `ListAliases`: sort, filter, cap. -/
theorem ListAliases_eq (lower : Char → Char) (tLoad search : String) (limit : Int)
    (w : World) :
    ListAliases lower tLoad search limit w =
      (if limit > 0 then List.take limit.toNat else id)
        ((if search ≠ "" then
            List.filter (searchMatches lower (ToLowerWith lower search)) else id)
          (sortSlice newerFirst ((stored w).map aliasInfo))) := by
  unfold ListAliases
  simp only [Load_aliases_stored]
  have hL : (if search ≠ "" then
        List.filter (searchMatches lower (ToLowerWith lower search))
          (sortSlice newerFirst ((stored w).map aliasInfo))
      else sortSlice newerFirst ((stored w).map aliasInfo)) =
      (if search ≠ "" then
          List.filter (searchMatches lower (ToLowerWith lower search)) else id)
        (sortSlice newerFirst ((stored w).map aliasInfo)) := by
    split_ifs <;> rfl
  rw [hL]
  generalize (if search ≠ "" then
      List.filter (searchMatches lower (ToLowerWith lower search)) else id)
    (sortSlice newerFirst ((stored w).map aliasInfo)) = L
  by_cases hl : limit > 0
  · rw [if_pos hl]
    split_ifs with h1
    · rfl
    · rw [List.take_of_length_le]
      have : ¬ ((L.length : Int) > limit) := fun hc => h1 ⟨hl, hc⟩
      omega
  · rw [if_neg hl, if_neg (fun hc => hl hc.1)]
    rfl

theorem Contains_empty (s : String) : Contains s "" = true := by
  unfold Contains
  cases hs : s.data with
  | nil => rfl
  | cons c cs => simp [List.tails, List.isPrefixOf]

theorem ToLowerWith_empty (lower : Char → Char) : ToLowerWith lower "" = "" := rfl

theorem searchMatches_empty (lower : Char → Char) (a : AliasInfo) :
    searchMatches lower (ToLowerWith lower "") a = true := by
  unfold searchMatches
  rw [ToLowerWith_empty, Contains_empty]
  rfl

/-- The filter step keeps the entries that match the search; an empty search keeps all. -/
theorem filter_step (lower : Char → Char) (search : String) (l : List AliasInfo) :
    (if search ≠ "" then
        List.filter (searchMatches lower (ToLowerWith lower search)) else id) l =
      l.filter (searchMatches lower (ToLowerWith lower search)) := by
  split_ifs with h
  · rfl
  · have h0 : search = "" := not_not.mp h
    rw [h0]
    simp only [id]
    symm
    rw [List.filter_eq_self]
    intro a _
    exact searchMatches_empty lower a

/-- C13: the result of `List` is ordered newest first by effective time stamp, compared
byte-wise: of two consecutive results the first has an effective time stamp greater than
or equal to the second.  On a non-empty store `List("", 1)` returns exactly one entry,
and no stored entry has a greater effective time stamp. -/
theorem C13_list_newest_first (lower : Char → Char) (tLoad search : String) (limit : Int)
    (w : World) :
    List.Chain' (fun x y => strGe (effective x) (effective y) = true)
      (ListAliases lower tLoad search limit w) ∧
    (stored w ≠ [] →
      ∃ x, ListAliases lower tLoad "" 1 w = [x] ∧
        ∀ p ∈ stored w, strGe (effective x) (effective (aliasInfo p)) = true) := by
  constructor
  · apply List.Pairwise.chain'
    rw [ListAliases_eq, filter_step]
    have hs := sorted_aliases ((stored w).map aliasInfo)
    have hf := hs.sublist (List.filter_sublist
      (p := searchMatches lower (ToLowerWith lower search))
      (sortSlice newerFirst ((stored w).map aliasInfo)))
    split_ifs
    · exact hf.sublist (List.take_sublist _ _)
    · exact hf
  · intro hne
    rw [ListAliases_eq, filter_step]
    have hall : (sortSlice newerFirst ((stored w).map aliasInfo)).filter
        (searchMatches lower (ToLowerWith lower "")) =
        sortSlice newerFirst ((stored w).map aliasInfo) := by
      rw [List.filter_eq_self]
      intro a _
      exact searchMatches_empty lower a
    rw [hall]
    have hs := sorted_aliases ((stored w).map aliasInfo)
    have hp := sortSlice_perm newerFirst ((stored w).map aliasInfo)
    cases hsl : sortSlice newerFirst ((stored w).map aliasInfo) with
    | nil =>
      exfalso
      rw [hsl] at hp
      have := hp.symm.eq_nil
      simp only [List.map_eq_nil_iff] at this
      exact hne this
    | cons x rest =>
      refine ⟨x, by simp, ?_⟩
      intro p hp'
      rw [hsl] at hs hp
      have hmem : aliasInfo p ∈ x :: rest :=
        hp.symm.subset (List.mem_map_of_mem aliasInfo hp')
      rcases List.mem_cons.mp hmem with h | h
      · rw [h]
        unfold strGe strGt
        rw [lexLt_irrefl]
        rfl
      · exact (List.pairwise_cons.mp hs).1 _ h

theorem C13_list_newest_first_witness :
    ListAliases Char.toLower "t0" "" 1
      (worldOf [("alpha", ⟨"/path/a", "2026-01-01T00:00:00Z", "2026-01-01T00:00:00Z", "Alpha"⟩),
                ("beta", ⟨"/path/b", "2026-01-02T00:00:00Z", "2026-01-03T00:00:00Z", "Beta"⟩)]) =
      [⟨"beta", "/path/b", "2026-01-02T00:00:00Z", "2026-01-03T00:00:00Z", "Beta"⟩] ∧
    List.Chain' (fun x y => strGe (effective x) (effective y) = true)
      (ListAliases Char.toLower "t0" "" 0
        (worldOf [("alpha", ⟨"/path/a", "2026-01-01T00:00:00Z", "2026-01-01T00:00:00Z", "Alpha"⟩),
                ("beta", ⟨"/path/b", "2026-01-02T00:00:00Z", "2026-01-03T00:00:00Z", "Beta"⟩)])) ∧
    ∃ x, ListAliases Char.toLower "t0" "" 1
      (worldOf [("alpha", ⟨"/path/a", "2026-01-01T00:00:00Z", "2026-01-01T00:00:00Z", "Alpha"⟩),
                ("beta", ⟨"/path/b", "2026-01-02T00:00:00Z", "2026-01-03T00:00:00Z", "Beta"⟩)]) = [x] ∧
      ∀ p ∈ stored (worldOf [("alpha", ⟨"/path/a", "2026-01-01T00:00:00Z", "2026-01-01T00:00:00Z", "Alpha"⟩),
                ("beta", ⟨"/path/b", "2026-01-02T00:00:00Z", "2026-01-03T00:00:00Z", "Beta"⟩)]),
        strGe (effective x) (effective (aliasInfo p)) = true :=
  ⟨by decide,
   (C13_list_newest_first Char.toLower "t0" "" 0
      (worldOf [("alpha", ⟨"/path/a", "2026-01-01T00:00:00Z", "2026-01-01T00:00:00Z", "Alpha"⟩),
                ("beta", ⟨"/path/b", "2026-01-02T00:00:00Z", "2026-01-03T00:00:00Z", "Beta"⟩)])).1,
   (C13_list_newest_first Char.toLower "t0" "" 0
      (worldOf [("alpha", ⟨"/path/a", "2026-01-01T00:00:00Z", "2026-01-01T00:00:00Z", "Alpha"⟩),
                ("beta", ⟨"/path/b", "2026-01-02T00:00:00Z", "2026-01-03T00:00:00Z", "Beta"⟩)])).2 (by decide)⟩

/-- C14: `List` returns only stored entries whose name or title contains the search
string ignoring case (every entry matches an empty search), and the cap comes after the
filter: the number of results is the minimum of `limit` and the number of matching
entries when `limit > 0`, and the number of matching entries otherwise. -/
theorem C14_list_filter_and_cap (lower : Char → Char) (tLoad search : String) (limit : Int)
    (w : World) :
    (∀ a ∈ ListAliases lower tLoad search limit w,
      a ∈ (stored w).map aliasInfo ∧
      (Contains (ToLowerWith lower a.Name) (ToLowerWith lower search) = true ∨
        Contains (ToLowerWith lower a.Title) (ToLowerWith lower search) = true)) ∧
    (search = "" → ∀ a, searchMatches lower (ToLowerWith lower search) a = true) ∧
    (ListAliases lower tLoad search limit w).length =
      (if limit > 0 then
        min limit.toNat
          (((stored w).map aliasInfo).filter
            (searchMatches lower (ToLowerWith lower search))).length
      else
        (((stored w).map aliasInfo).filter
          (searchMatches lower (ToLowerWith lower search))).length) := by
  have hp := sortSlice_perm newerFirst ((stored w).map aliasInfo)
  refine ⟨?_, ?_, ?_⟩
  · intro a ha
    rw [ListAliases_eq, filter_step] at ha
    have ha2 : a ∈ (sortSlice newerFirst ((stored w).map aliasInfo)).filter
        (searchMatches lower (ToLowerWith lower search)) := by
      split_ifs at ha
      · exact List.mem_of_mem_take ha
      · exact ha
    rw [List.mem_filter] at ha2
    refine ⟨hp.subset ha2.1, ?_⟩
    have := ha2.2
    unfold searchMatches at this
    simpa using this
  · intro h0 a
    rw [h0]
    exact searchMatches_empty lower a
  · rw [ListAliases_eq, filter_step]
    have hlen := (hp.filter (searchMatches lower (ToLowerWith lower search))).length_eq
    split_ifs
    · rw [List.length_take, hlen]
    · simp only [id]
      exact hlen

theorem C14_list_filter_and_cap_witness :
    ListAliases Char.toLower "t0" "alp" 0
      (worldOf [("alpha", ⟨"/path/a", "2026-01-01T00:00:00Z", "2026-01-01T00:00:00Z", "Alpha"⟩),
                ("beta", ⟨"/path/b", "2026-01-02T00:00:00Z", "2026-01-03T00:00:00Z", "Beta"⟩)]) =
      [⟨"alpha", "/path/a", "2026-01-01T00:00:00Z", "2026-01-01T00:00:00Z", "Alpha"⟩] ∧
    (ListAliases Char.toLower "t0" "A" 1
      (worldOf [("alpha", ⟨"/path/a", "2026-01-01T00:00:00Z", "2026-01-01T00:00:00Z", "Alpha"⟩),
                ("beta", ⟨"/path/b", "2026-01-02T00:00:00Z", "2026-01-03T00:00:00Z", "Beta"⟩)])).length =
      min 1 2 ∧
    searchMatches Char.toLower (ToLowerWith Char.toLower "")
      ⟨"beta", "/path/b", "2026-01-02T00:00:00Z", "2026-01-03T00:00:00Z", "Beta"⟩ = true :=
  ⟨by decide,
   (C14_list_filter_and_cap Char.toLower "t0" "A" 1
      (worldOf [("alpha", ⟨"/path/a", "2026-01-01T00:00:00Z", "2026-01-01T00:00:00Z", "Alpha"⟩),
                ("beta", ⟨"/path/b", "2026-01-02T00:00:00Z", "2026-01-03T00:00:00Z", "Beta"⟩)])).2.2,
   (C14_list_filter_and_cap Char.toLower "t0" "" 1
      (worldOf [("alpha", ⟨"/path/a", "2026-01-01T00:00:00Z", "2026-01-01T00:00:00Z", "Alpha"⟩),
                ("beta", ⟨"/path/b", "2026-01-02T00:00:00Z", "2026-01-03T00:00:00Z", "Beta"⟩)])).2.1 rfl _⟩

/-! ## Session file names -/

theorem isDigit_toNat (c : Char) (h : isDigit c = true) : 48 ≤ c.toNat ∧ c.toNat ≤ 57 := by
  simp only [isDigit, Bool.and_eq_true, decide_eq_true_eq, char_le_iff] at h
  have h1 : '0'.toNat = 48 := rfl
  have h2 : '9'.toNat = 57 := rfl
  omega

theorem isDigit_ne_dash (c : Char) (h : isDigit c = true) : c ≠ '-' := by
  intro hc
  rw [hc] at h
  exact absurd h (by decide)

theorem takeWhile_stop {α : Type} (p : α → Bool) (a : List α) (x : α) (b : List α)
    (ha : ∀ c ∈ a, p c = true) (hx : p x = false) :
    (a ++ x :: b).takeWhile p = a ∧ (a ++ x :: b).dropWhile p = x :: b := by
  induction a with
  | nil => simp [List.takeWhile, List.dropWhile, hx]
  | cons c cs ih =>
    have hc := ha c (List.mem_cons_self _ _)
    have := ih (fun d hd => ha d (List.mem_cons_of_mem _ hd))
    simp [List.takeWhile, List.dropWhile, hc, this]

theorem datePattern_elim (l : List Char) (h : datePattern l = true) :
    ∃ y1 y2 y3 y4 m1 m2 d1 d2 : Char,
      l = [y1, y2, y3, y4, '-', m1, m2, '-', d1, d2] ∧
      (isDigit y1 = true ∧ isDigit y2 = true ∧ isDigit y3 = true ∧ isDigit y4 = true ∧
        isDigit m1 = true ∧ isDigit m2 = true ∧ isDigit d1 = true ∧ isDigit d2 = true) := by
  unfold datePattern at h
  split at h
  · rename_i y1 y2 y3 y4 s1 m1 m2 s2 d1 d2
    simp only [Bool.and_eq_true, beq_iff_eq] at h
    obtain ⟨⟨⟨⟨⟨⟨⟨⟨⟨h1, h2⟩, h3⟩, h4⟩, h5⟩, h6⟩, h7⟩, h8⟩, h9⟩, h10⟩ := h
    subst h5 h8
    exact ⟨y1, y2, y3, y4, m1, m2, d1, d2, rfl, h1, h2, h3, h4, h6, h7, h9, h10⟩
  · cases h

theorem datePattern_intro (y1 y2 y3 y4 m1 m2 d1 d2 : Char)
    (h : isDigit y1 = true ∧ isDigit y2 = true ∧ isDigit y3 = true ∧ isDigit y4 = true ∧
      isDigit m1 = true ∧ isDigit m2 = true ∧ isDigit d1 = true ∧ isDigit d2 = true) :
    datePattern [y1, y2, y3, y4, '-', m1, m2, '-', d1, d2] = true := by
  obtain ⟨h1, h2, h3, h4, h5, h6, h7, h8⟩ := h
  simp [datePattern, h1, h2, h3, h4, h5, h6, h7, h8]

theorem splitSep_date (y1 y2 y3 y4 m1 m2 d1 d2 : Char)
    (h : isDigit y1 = true ∧ isDigit y2 = true ∧ isDigit y3 = true ∧ isDigit y4 = true ∧
      isDigit m1 = true ∧ isDigit m2 = true ∧ isDigit d1 = true ∧ isDigit d2 = true) :
    splitSep '-' [y1, y2, y3, y4, '-', m1, m2, '-', d1, d2] =
      [[y1, y2, y3, y4], [m1, m2], [d1, d2]] := by
  obtain ⟨h1, h2, h3, h4, h5, h6, h7, h8⟩ := h
  simp [splitSep, isDigit_ne_dash _ h1, isDigit_ne_dash _ h2, isDigit_ne_dash _ h3,
    isDigit_ne_dash _ h4, isDigit_ne_dash _ h5, isDigit_ne_dash _ h6, isDigit_ne_dash _ h7,
    isDigit_ne_dash _ h8]

theorem Atoi_four (a b c d : Char) :
    Atoi [a, b, c, d] = 1000 * digitVal a + 100 * digitVal b + 10 * digitVal c + digitVal d := by
  simp only [Atoi, digitVal, List.foldl_cons, List.foldl_nil]
  omega

theorem Atoi_two (a b : Char) : Atoi [a, b] = 10 * digitVal a + digitVal b := by
  simp only [Atoi, digitVal, List.foldl_cons, List.foldl_nil]
  omega

theorem daysIn_pos (y m : Nat) : 28 ≤ daysIn y m := by
  unfold daysIn
  split_ifs <;> omega

theorem timeDate_round_trip (y m d : Nat) :
    ((timeDate y m d).2.1 = m ∧ (timeDate y m d).2.2 = d) ↔ d ≤ daysIn y m := by
  unfold timeDate
  split_ifs with h1 h2
  · simp [h1]
  · simp only [h1, iff_false, not_and]
    intro h; omega
  · simp only [h1, iff_false, not_and]
    intro h; omega

/-- What a match of `filenameRegex` says about the name. -/
theorem filenameRegex_some (name ds ids : String) (h : filenameRegex name = some (ds, ids)) :
    datePattern (name.data.take 10) = true ∧ ds = ⟨name.data.take 10⟩ ∧
    ((ids = "" ∧ name.data.drop 10 = sessionSuffix) ∨
      (8 ≤ ids.data.length ∧ (∀ c ∈ ids.data, idChar c = true) ∧
        name.data.drop 10 = '-' :: ids.data ++ sessionSuffix)) := by
  unfold filenameRegex at h
  simp only at h
  by_cases hd : datePattern (name.data.take 10) = true
  swap
  · simp [hd] at h
  rw [hd] at h
  simp only [Bool.not_true, Bool.false_eq_true, if_false] at h
  refine ⟨hd, ?_⟩
  generalize hrest : name.data.drop 10 = rest at h ⊢
  split at h
  · rename_i r
    by_cases h1 : (decide (8 ≤ (r.takeWhile idChar).length) &&
        r.dropWhile idChar == sessionSuffix) = true
    · rw [if_pos h1] at h
      simp only [Option.some.injEq, Prod.mk.injEq] at h
      obtain ⟨hds, hids⟩ := h
      simp only [Bool.and_eq_true, decide_eq_true_eq, beq_iff_eq] at h1
      refine ⟨hds.symm, Or.inr ?_⟩
      rw [← hids]
      refine ⟨h1.1, fun c hc => List.mem_takeWhile_imp hc, ?_⟩
      show '-' :: r = '-' :: (r.takeWhile idChar ++ sessionSuffix)
      rw [← h1.2, List.takeWhile_append_dropWhile]
    · rw [if_neg h1] at h
      by_cases h2 : ('-' :: r == sessionSuffix) = true
      · rw [if_pos h2] at h
        simp only [Option.some.injEq, Prod.mk.injEq] at h
        obtain ⟨hds, hids⟩ := h
        exact ⟨hds.symm, Or.inl ⟨hids.symm, by simpa using h2⟩⟩
      · rw [if_neg h2] at h
        cases h
  · cases h

/-- A name of the right form matches `filenameRegex`. -/
theorem filenameRegex_of_form (name : String) (date seg : List Char)
    (hd : datePattern date = true) (hseg : IdSegment seg)
    (hname : name.data = date ++ seg ++ sessionSuffix) :
    filenameRegex name = some (⟨date⟩, ⟨seg.drop 1⟩) := by
  have hlen : date.length = 10 := by
    obtain ⟨y1, y2, y3, y4, m1, m2, d1, d2, hl, _⟩ := datePattern_elim date hd
    rw [hl]; rfl
  have htake : name.data.take 10 = date := by
    rw [hname, List.append_assoc, ← hlen, List.take_left']
    rfl
  have hdrop : name.data.drop 10 = seg ++ sessionSuffix := by
    rw [hname, List.append_assoc, ← hlen, List.drop_left']
    rfl
  unfold filenameRegex
  simp only [htake, hdrop, hd, Bool.not_true, Bool.false_eq_true, if_false]
  rcases hseg with h0 | ⟨id, hid, hlen8, hall⟩
  · subst h0
    rfl
  · subst hid
    have hsfx : sessionSuffix = '-' :: "session.tmp".data := rfl
    have hstop := takeWhile_stop idChar id '-' "session.tmp".data hall (by decide)
    simp only [List.cons_append, List.drop_succ_cons, List.drop_zero]
    rw [hsfx, hstop.1, hstop.2]
    simp [hlen8]

theorem daysIn_le (y m : Nat) : daysIn y m ≤ 31 := by
  unfold daysIn
  split_ifs <;> omega

/-- `ParseFilename` on a name that matches `filenameRegex`. -/
theorem ParseFilename_of_regex (loc : Location) (name ids : String)
    (y1 y2 y3 y4 m1 m2 d1 d2 : Char)
    (hdig : isDigit y1 = true ∧ isDigit y2 = true ∧ isDigit y3 = true ∧ isDigit y4 = true ∧
      isDigit m1 = true ∧ isDigit m2 = true ∧ isDigit d1 = true ∧ isDigit d2 = true)
    (hre : filenameRegex name = some (⟨[y1, y2, y3, y4, '-', m1, m2, '-', d1, d2]⟩, ids)) :
    ParseFilename loc name =
      if (1 ≤ 10 * digitVal m1 + digitVal m2 ∧ 10 * digitVal m1 + digitVal m2 ≤ 12 ∧
          1 ≤ 10 * digitVal d1 + digitVal d2 ∧ 10 * digitVal d1 + digitVal d2 ≤ 31) ∧
          (timeDateIn loc
            (1000 * digitVal y1 + 100 * digitVal y2 + 10 * digitVal y3 + digitVal y4)
            (10 * digitVal m1 + digitVal m2) (10 * digitVal d1 + digitVal d2)).2.1 =
            10 * digitVal m1 + digitVal m2 ∧
          (timeDateIn loc
            (1000 * digitVal y1 + 100 * digitVal y2 + 10 * digitVal y3 + digitVal y4)
            (10 * digitVal m1 + digitVal m2) (10 * digitVal d1 + digitVal d2)).2.2 =
            10 * digitVal d1 + digitVal d2 then
        some { Filename := name
               ShortID := if ids = "" then "no-id" else ids
               Date := ⟨[y1, y2, y3, y4, '-', m1, m2, '-', d1, d2]⟩
               Datetime := timeDateIn loc
                 (1000 * digitVal y1 + 100 * digitVal y2 + 10 * digitVal y3 + digitVal y4)
                 (10 * digitVal m1 + digitVal m2) (10 * digitVal d1 + digitVal d2) }
      else none := by
  unfold ParseFilename
  rw [hre]
  simp only [splitSep_date _ _ _ _ _ _ _ _ hdig, List.getD_cons_zero, List.getD_cons_succ,
    Atoi_four, Atoi_two]
  generalize 1000 * digitVal y1 + 100 * digitVal y2 + 10 * digitVal y3 + digitVal y4 = Y
  generalize 10 * digitVal m1 + digitVal m2 = M
  generalize 10 * digitVal d1 + digitVal d2 = D
  generalize timeDateIn loc Y M D = T
  by_cases hc : (1 ≤ M ∧ M ≤ 12 ∧ 1 ≤ D ∧ D ≤ 31) ∧ T.2.1 = M ∧ T.2.2 = D
  · rw [if_pos hc]
    obtain ⟨hr, ht⟩ := hc
    rw [if_neg (by simp; omega), if_neg (by simp [ht.1, ht.2])]
  · rw [if_neg hc]
    split_ifs with c1 c2
    · rfl
    · rfl
    · exfalso
      simp only [Bool.or_eq_true, decide_eq_true_eq, not_or, not_lt, not_le, ne_eq,
        Decidable.not_not] at c1 c2
      exact hc ⟨by omega, c2.1, c2.2⟩

/-- A result of `ParseFilename`, in any location, says that the name has the form of a
session file name, and what the fields are. -/
theorem ParseFilename_sound (loc : Location) (name : String) (r : FileInfo)
    (h : ParseFilename loc name = some r) :
    ∃ seg, SessionShape name seg ∧ name.data.drop 10 = seg ++ sessionSuffix ∧
      r.Filename = name ∧ r.Date = ⟨name.data.take 10⟩ ∧
      r.ShortID = (if seg = [] then "no-id" else ⟨seg.drop 1⟩) := by
  cases hre : filenameRegex name with
  | none =>
    unfold ParseFilename at h
    rw [hre] at h
    cases h
  | some p =>
    obtain ⟨ds, ids⟩ := p
    obtain ⟨hd, hds, hcases⟩ := filenameRegex_some name ds ids hre
    obtain ⟨y1, y2, y3, y4, m1, m2, d1, d2, hl, hdig⟩ := datePattern_elim _ hd
    rw [hds, hl] at hre
    rw [ParseFilename_of_regex loc name ids _ _ _ _ _ _ _ _ hdig hre] at h
    rw [Option.ite_none_right_eq_some, Option.some.injEq] at h
    obtain ⟨_, h⟩ := h
    have hname : name.data = name.data.take 10 ++ name.data.drop 10 :=
      (List.take_append_drop 10 name.data).symm
    rcases hcases with ⟨hid, hdrop⟩ | ⟨hlen, hall, hdrop⟩
    · refine ⟨[], ⟨y1, y2, y3, y4, m1, m2, d1, d2, hdig, Or.inl rfl, ?_⟩, ?_, ?_, ?_, ?_⟩
      · rw [hname, hl, hdrop]; rfl
      · rw [hdrop]; rfl
      · rw [← h]
      · rw [← h, hl]
      · rw [← h]
        simp only [hid, if_true]
    · refine ⟨'-' :: ids.data,
        ⟨y1, y2, y3, y4, m1, m2, d1, d2, hdig, Or.inr ⟨ids.data, rfl, hlen, hall⟩, ?_⟩,
        ?_, ?_, ?_, ?_⟩
      · rw [hname, hl, hdrop]; simp
      · rw [hdrop]
      · rw [← h]
      · rw [← h, hl]
      · rw [← h]
        have hne : ids ≠ "" := by
          intro h0
          rw [h0] at hlen
          simp at hlen
        simp only [hne, if_false, List.drop_succ_cons, List.drop_zero, reduceCtorEq]

theorem shiftDays_zero (d : Int × Nat × Nat) : shiftDays 0 d = d := rfl

/-- In `time.UTC` every midnight exists. -/
theorem utc_midnight : MidnightKept utc := by
  intro y m d
  unfold timeDateIn utc
  simp only [ne_eq, not_true_eq_false, if_false, add_zero, sub_self, Int.zero_ediv,
    shiftDays_zero]

/-- In a location that keeps every midnight, `ParseFilename` returns a result exactly for
the names of the form `YYYY-MM-DD-session.tmp` or `YYYY-MM-DD-<id>-session.tmp` in which
`YYYY-MM-DD` is a real calendar date. -/
theorem ParseFilename_iff_of_midnight (loc : Location) (hloc : MidnightKept loc)
    (name : String) :
    (ParseFilename loc name).isSome = true ↔ ∃ seg, SessionName name seg := by
  constructor
  · intro h0
    obtain ⟨r, h⟩ := Option.isSome_iff_exists.mp h0
    cases hre : filenameRegex name with
    | none =>
      unfold ParseFilename at h
      rw [hre] at h
      cases h
    | some p =>
      obtain ⟨ds, ids⟩ := p
      obtain ⟨hd, hds, hcases⟩ := filenameRegex_some name ds ids hre
      obtain ⟨y1, y2, y3, y4, m1, m2, d1, d2, hl, hdig⟩ := datePattern_elim _ hd
      rw [hds, hl] at hre
      rw [ParseFilename_of_regex loc name ids _ _ _ _ _ _ _ _ hdig hre] at h
      rw [Option.ite_none_right_eq_some] at h
      obtain ⟨⟨⟨r1, r2, r3, _⟩, t1, t2⟩, _⟩ := h
      rw [hloc] at t1 t2
      have hrd : RealDate
          (1000 * digitVal y1 + 100 * digitVal y2 + 10 * digitVal y3 + digitVal y4)
          (10 * digitVal m1 + digitVal m2) (10 * digitVal d1 + digitVal d2) :=
        ⟨r1, r2, r3, (timeDate_round_trip _ _ _).mp ⟨t1, t2⟩⟩
      have hname : name.data = name.data.take 10 ++ name.data.drop 10 :=
        (List.take_append_drop 10 name.data).symm
      rcases hcases with ⟨hid, hdrop⟩ | ⟨hlen, hall, hdrop⟩
      · refine ⟨[], y1, y2, y3, y4, m1, m2, d1, d2, hdig, Or.inl rfl, ?_, hrd⟩
        rw [hname, hl, hdrop]; rfl
      · refine ⟨'-' :: ids.data, y1, y2, y3, y4, m1, m2, d1, d2, hdig,
          Or.inr ⟨ids.data, rfl, hlen, hall⟩, ?_, hrd⟩
        rw [hname, hl, hdrop]; simp
  · intro ⟨seg, y1, y2, y3, y4, m1, m2, d1, d2, hdig, hseg, hname, hreal⟩
    have hre := filenameRegex_of_form name _ seg (datePattern_intro _ _ _ _ _ _ _ _ hdig)
      hseg hname
    rw [ParseFilename_of_regex loc name _ _ _ _ _ _ _ _ _ hdig hre]
    obtain ⟨r1, r2, r3, r4⟩ := hreal
    have hle := daysIn_le
      (1000 * digitVal y1 + 100 * digitVal y2 + 10 * digitVal y3 + digitVal y4)
      (10 * digitVal m1 + digitVal m2)
    have ht := (timeDate_round_trip _ _ _).mpr r4
    rw [if_pos ⟨⟨r1, r2, r3, by omega⟩, by rw [hloc]; exact ht.1, by rw [hloc]; exact ht.2⟩]
    rfl

/-- Names that are rejected and a name that is accepted, in `time.UTC`. -/
theorem ParseFilename_examples :
    ParseFilename utc "2026-02-31-session.tmp" = none ∧
    ParseFilename utc "2026-13-01-session.tmp" = none ∧
    ParseFilename utc "2026-02-29-session.tmp" = none ∧
    ParseFilename utc "session.tmp" = none ∧
    ParseFilename utc "2026-02-01.tmp" = none ∧
    ParseFilename utc "" = none ∧
    ParseFilename utc "2024-02-29-session.tmp" =
      some ⟨"2024-02-29-session.tmp", "no-id", "2024-02-29", (2024, 2, 29)⟩ := by
  decide

/-- C16 (failing input): the local zone is `America/Santiago`, where the clocks go from
24:00 on 5 September 2026 straight to 01:00 on 6 September.  The name
`2026-09-06-session.tmp` has the form of a session file name and 6 September 2026 is a
real date, but `time.Date` resolves its midnight, which does not exist there, to 23:00
of 5 September; `Day()` is 5, not 6, and `ParseFilename` returns nil.  In `time.UTC`
the same name is accepted. -/
theorem C16_real_date_rejected_in_santiago :
    (∃ seg, SessionName "2026-09-06-session.tmp" seg) ∧
    RealDate 2026 9 6 ∧
    timeDateIn santiago 2026 9 6 = (2026, 9, 5) ∧
    ParseFilename santiago "2026-09-06-session.tmp" = none ∧
    ParseFilename santiago "2026-09-05-session.tmp" =
      some ⟨"2026-09-05-session.tmp", "no-id", "2026-09-05", (2026, 9, 5)⟩ ∧
    ParseFilename utc "2026-09-06-session.tmp" =
      some ⟨"2026-09-06-session.tmp", "no-id", "2026-09-06", (2026, 9, 6)⟩ :=
  ⟨(ParseFilename_iff_of_midnight utc utc_midnight _).mp (by decide),
   by decide, by decide, by decide, by decide, by decide⟩

/-- C17: a result `r` of `ParseFilename(name)` has `Filename` = the name and `Date` = the
first 10 characters of the name; its `ShortID` is the id segment between the date and
`-session.tmp` when there is one, and the sentinel `no-id` when there is none; so
`ShortID` is `no-id` exactly when the name carries no id segment. -/
theorem C17_parse_filename_fields (loc : Location) (name : String) (r : FileInfo)
    (h : ParseFilename loc name = some r) :
    r.Filename = name ∧ r.Date = ⟨name.data.take 10⟩ ∧
    (name.data.drop 10 = sessionSuffix → r.ShortID = "no-id") ∧
    (∀ id : List Char, name.data.drop 10 = '-' :: id ++ sessionSuffix →
      8 ≤ id.length → (∀ c ∈ id, idChar c = true) → r.ShortID = ⟨id⟩) ∧
    (r.ShortID = "no-id" ↔ name.data.drop 10 = sessionSuffix) := by
  obtain ⟨seg, hs, hdrop, hf, hdate, hid⟩ := ParseFilename_sound loc name r h
  obtain ⟨_, _, _, _, _, _, _, _, _, hseg, _⟩ := hs
  have key : ∀ id : List Char, 8 ≤ id.length → (∀ c ∈ id, idChar c = true) →
      '-' :: id ++ sessionSuffix ≠ sessionSuffix := by
    intro id hlen _ heq
    have := congrArg List.length heq
    simp at this
    omega
  have hsentinel : ∀ id : List Char, 8 ≤ id.length → (⟨id⟩ : String) ≠ "no-id" := by
    intro id hlen heq
    have := congrArg String.length heq
    have h5 : ("no-id" : String).length = 5 := rfl
    rw [h5] at this
    change id.length = 5 at this
    omega
  refine ⟨hf, hdate, ?_, ?_, ?_⟩
  · intro hd
    rcases hseg with h0 | ⟨id, hid', hlen, hall⟩
    · rw [hid, if_pos h0]
    · exfalso
      rw [hid'] at hdrop
      rw [hdrop] at hd
      exact key id hlen hall hd
  · intro id hd hlen hall
    rcases hseg with h0 | ⟨id', hid', hlen', hall'⟩
    · exfalso
      rw [h0] at hdrop
      rw [hdrop] at hd
      exact key id hlen hall hd.symm
    · rw [hid, if_neg (by rw [hid']; simp), hid']
      rw [hid', hd] at hdrop
      simp only [List.cons_append, List.cons.injEq, true_and] at hdrop
      have := List.append_cancel_right hdrop
      simp [this]
  · rcases hseg with h0 | ⟨id, hid', hlen, hall⟩
    · rw [hid, if_pos h0, hdrop, h0]
      simp
    · rw [hid, if_neg (by rw [hid']; simp), hdrop, hid']
      simp only [List.drop_succ_cons, List.drop_zero]
      constructor
      · intro h1
        exact absurd h1 (hsentinel id hlen)
      · intro h1
        exact absurd h1 (key id hlen hall)

theorem C17_parse_filename_fields_witness :
    ParseFilename utc "2026-02-01-a1b2c3d4-session.tmp" =
      some ⟨"2026-02-01-a1b2c3d4-session.tmp", "a1b2c3d4", "2026-02-01", (2026, 2, 1)⟩ ∧
    (⟨"2026-02-01-a1b2c3d4-session.tmp", "a1b2c3d4", "2026-02-01", (2026, 2, 1)⟩ :
      FileInfo).Filename = "2026-02-01-a1b2c3d4-session.tmp" ∧
    (⟨"2026-02-01-a1b2c3d4-session.tmp", "a1b2c3d4", "2026-02-01", (2026, 2, 1)⟩ :
      FileInfo).Date = ⟨("2026-02-01-a1b2c3d4-session.tmp" : String).data.take 10⟩ ∧
    ((⟨"2026-02-01-a1b2c3d4-session.tmp", "a1b2c3d4", "2026-02-01", (2026, 2, 1)⟩ :
      FileInfo).ShortID = "no-id" ↔
      ("2026-02-01-a1b2c3d4-session.tmp" : String).data.drop 10 = sessionSuffix) :=
  (fun h => ⟨by decide, h.1, h.2.1, h.2.2.2.2⟩)
    (C17_parse_filename_fields utc "2026-02-01-a1b2c3d4-session.tmp"
      ⟨"2026-02-01-a1b2c3d4-session.tmp", "a1b2c3d4", "2026-02-01", (2026, 2, 1)⟩ (by decide))

/-! ## Listing and finding sessions -/

theorem ParseFilename_suffix (loc : Location) (name : String) (r : FileInfo)
    (h : ParseFilename loc name = some r) :
    HasSuffix name ".tmp" = true ∧ 22 ≤ name.data.length := by
  obtain ⟨seg, hs, _⟩ := ParseFilename_sound loc name r h
  obtain ⟨y1, y2, y3, y4, m1, m2, d1, d2, _, _, hname⟩ := hs
  constructor
  · unfold HasSuffix
    rw [hname]
    have : (".tmp" : String).data <:+ [y1, y2, y3, y4, '-', m1, m2, '-', d1, d2] ++ seg ++ sessionSuffix :=
      ⟨[y1, y2, y3, y4, '-', m1, m2, '-', d1, d2] ++ seg ++ "-session".data, by
        simp [sessionSuffix]⟩
    simpa using this
  · rw [hname]
    simp [sessionSuffix]

theorem listEntry_isSome (loc : Location) (dir dateFilter search : String) (e : DirEntry) :
    (listEntry loc dir dateFilter search e).isSome = isListed loc dateFilter search e := by
  unfold listEntry isListed
  cases hd : e.IsDir
  · cases hp : ParseFilename loc e.Name with
    | none => simp
    | some info =>
      have hsfx := (ParseFilename_suffix loc e.Name info hp).1
      simp only [hsfx, Bool.not_true, Bool.or_self, Bool.false_eq_true, if_false,
        Bool.not_false, Bool.true_and]
      cases hst : e.Stat with
      | none => simp
      | some st =>
        by_cases h1 : dateFilter = "" <;> by_cases h2 : info.Date = dateFilter <;>
          by_cases h3 : search = "" <;> cases h4 : Contains info.ShortID search <;>
          simp [h1, h2, h3, h4]
  · simp

theorem filterMap_length_eq {α β : Type} (f : α → Option β) (l : List α) :
    (l.filterMap f).length = (l.filter (fun a => (f a).isSome)).length := by
  induction l with
  | nil => rfl
  | cons a t ih =>
    cases h : f a with
    | none => simp [List.filterMap_cons, h, ih]
    | some b => simp [List.filterMap_cons, h, ih]

theorem wrap64_of_small (x : Int) (h0 : 0 ≤ x) (h1 : x < 2 ^ 63) : wrap64 x = x := by
  unfold wrap64
  omega

theorem modifiedAfter_asymm (x y : SessionEntry) (h : modifiedAfter x y = true) :
    modifiedAfter y x = false := by
  unfold modifiedAfter at *
  simp only [decide_eq_true_eq, decide_eq_false_iff_not] at *
  omega

theorem modifiedAfter_neg_trans (x y z : SessionEntry) (h1 : modifiedAfter x y = false)
    (h2 : modifiedAfter y z = false) : modifiedAfter x z = false := by
  unfold modifiedAfter at *
  simp only [decide_eq_false_iff_not] at *
  omega

/-- The claim C19 on the inputs whose sum `offset + limit` does not wrap around: `Total`
is the number of listed session files, `Sessions` is the page from `offset` up to
`min (offset + limit) Total` of the sessions sorted newest first, and `HasMore` says
whether `offset + limit < Total`. -/
theorem ListAll_page (loc : Location) (dir : String) (entries : List DirEntry)
    (limit offset : Int)
    (dateFilter search : String)
    (hsum : (if offset < 0 then 0 else offset) + (if limit ≤ 0 then 50 else limit) < 2 ^ 63) :
    ∃ r sorted, ListAll loc dir (some entries) limit offset dateFilter search = some r ∧
      sorted = sortSlice modifiedAfter (entries.filterMap (listEntry loc dir dateFilter search)) ∧
      sorted.Perm (entries.filterMap (listEntry loc dir dateFilter search)) ∧
      sorted.Pairwise (fun a b => a.ModifiedTime ≥ b.ModifiedTime) ∧
      r.Limit = (if limit ≤ 0 then 50 else limit) ∧
      r.Offset = (if offset < 0 then 0 else offset) ∧
      r.Total = ((entries.filter (isListed loc dateFilter search)).length : Int) ∧
      r.Sessions = (sorted.drop r.Offset.toNat).take
        ((min (r.Offset + r.Limit) r.Total).toNat - r.Offset.toNat) ∧
      (r.Total ≤ r.Offset → r.Sessions = []) ∧
      (r.HasMore = true ↔ r.Offset + r.Limit < r.Total) := by
  generalize hlim : (if limit ≤ 0 then (50 : Int) else limit) = lim at hsum
  generalize hoff : (if offset < 0 then (0 : Int) else offset) = off at hsum
  have hlim0 : 0 < lim := by rw [← hlim]; split_ifs <;> omega
  have hoff0 : 0 ≤ off := by rw [← hoff]; split_ifs <;> omega
  have hcount : ((entries.filterMap (listEntry loc dir dateFilter search)).length : Int) =
      ((entries.filter (isListed loc dateFilter search)).length : Int) := by
    rw [filterMap_length_eq]
    simp only [listEntry_isSome]
  have hperm := sortSlice_perm modifiedAfter (entries.filterMap (listEntry loc dir dateFilter search))
  have hsorted := sortSlice_sorted modifiedAfter modifiedAfter_asymm modifiedAfter_neg_trans
    (entries.filterMap (listEntry loc dir dateFilter search))
  have htot : ((sortSlice modifiedAfter
      (entries.filterMap (listEntry loc dir dateFilter search))).length : Int) =
      ((entries.filter (isListed loc dateFilter search)).length : Int) := by
    rw [hperm.length_eq, hcount]
  unfold ListAll
  simp only [hlim, hoff, wrap64_of_small (off + lim) (by omega) hsum, htot]
  generalize hS : sortSlice modifiedAfter
    (entries.filterMap (listEntry loc dir dateFilter search)) = S at hperm hsorted htot ⊢
  generalize ((entries.filter (isListed loc dateFilter search)).length : Int) = total at htot ⊢
  have htot0 : 0 ≤ total := by rw [← htot]; omega
  have hbounds : 0 ≤ (if off > total then total else off) ∧
      (if off > total then total else off) ≤
        (if off + lim > total then total else off + lim) ∧
      (if off + lim > total then total else off + lim) ≤ total := by
    split_ifs <;> omega
  rw [if_pos hbounds]
  refine ⟨_, S, rfl, rfl, hperm, ?_, rfl, rfl, rfl, ?_, ?_, ?_⟩
  · refine hsorted.imp ?_
    intro a b hab
    unfold modifiedAfter at hab
    simp only [decide_eq_false_iff_not] at hab
    omega
  · simp only
    by_cases h1 : off > total
    · have hd : S.drop total.toNat = [] := by
        apply List.drop_of_length_le
        omega
      have hd2 : S.drop off.toNat = [] := by
        apply List.drop_of_length_le
        omega
      simp only [if_pos h1, hd, hd2, List.take_nil]
    · simp only [if_neg h1]
      congr 1
      split_ifs <;> omega
  · simp only
    intro hle
    have hd : S.drop (if off > total then total else off).toNat = [] := by
      apply List.drop_of_length_le
      split_ifs <;> omega
    rw [hd, List.take_nil]
  · simp only [decide_eq_true_eq]
    split_ifs <;> omega

/-- C19 (failing input): one session file, `limit` 1 and `offset` the largest `int`.
`offset + limit` wraps around to a negative number, so `end` is below `start` and the
slice expression `sessions[start:end]` panics; the claim asks for `Total` 1, no
sessions and `HasMore` false. -/
theorem C19_list_all_offset_overflow :
    ListAll utc "/s" (some [⟨"2026-02-01-session.tmp", false, some ⟨10, 5⟩⟩]) 1
      9223372036854775807 "" "" = none ∧
    ([⟨"2026-02-01-session.tmp", false, some ⟨10, 5⟩⟩].filter (isListed utc "" "")).length = 1 ∧
    wrap64 (9223372036854775807 + 1) = -9223372036854775808 := by
  decide

/-- The loop of `FindByID` stops at the first entry that qualifies and returns it when
`os.Stat` succeeds on it. -/
theorem findLoop_eq (loc : Location) (dir sessionID : String) (entries : List DirEntry) :
    findLoop loc dir sessionID entries =
      match entries.find? (qualifies loc sessionID) with
      | none => none
      | some e =>
        match ParseFilename loc e.Name, e.Stat with
        | some info, some stat =>
          some { toFileInfo := info, SessionPath := joinPath dir e.Name, HasContent := false,
                 Size := stat.Size, ModifiedTime := stat.ModTime, CreatedTime := stat.ModTime }
        | _, _ => none := by
  induction entries with
  | nil => rfl
  | cons e rest ih =>
    unfold findLoop
    rw [List.find?_cons]
    cases hd : e.IsDir
    · cases hp : ParseFilename loc e.Name with
      | none =>
        have hq : qualifies loc sessionID e = false := by simp [qualifies, hp]
        rw [hq]
        simp only [Bool.false_or]
        split_ifs <;> exact ih
      | some info =>
        have hsfx := (ParseFilename_suffix loc e.Name info hp).1
        simp only [hsfx, Bool.not_true, Bool.or_self, Bool.false_eq_true, if_false]
        cases hm : idMatches sessionID e.Name info
        · have hq : qualifies loc sessionID e = false := by simp [qualifies, hp, hd, hm]
          rw [hq]
          simp only [Bool.not_false, if_true]
          exact ih
        · have hq : qualifies loc sessionID e = true := by simp [qualifies, hp, hd, hm]
          rw [hq]
          simp only [Bool.not_true, Bool.false_eq_true, if_false, hp]
          cases e.Stat <;> rfl
    · have hq : qualifies loc sessionID e = false := by simp [qualifies, hd]
      rw [hq]
      simp only [Bool.true_or, if_true]
      exact ih

theorem qualifies_empty (loc : Location) (e : DirEntry) : qualifies loc "" e = false := by
  unfold qualifies
  cases hp : ParseFilename loc e.Name with
  | none => simp
  | some info =>
    have hlen := (ParseFilename_suffix loc e.Name info hp).2
    have h1 : e.Name ≠ "" := by
      intro h; rw [h] at hlen; simp at hlen
    have h2 : e.Name ≠ ".tmp" := by
      intro h; rw [h] at hlen; simp at hlen
    have h3 : e.Name ≠ "-session.tmp" := by
      intro h; rw [h] at hlen; simp at hlen
    have hz : ("" : String).utf8ByteSize = 0 := rfl
    simp [idMatches, h1, h2, h3, hz]

/-- C20 (amended): `FindByID` returns the first entry, in directory-entry order, that is
not a directory, whose name parses as a session file name and which matches the id in
one of the three ways, when `os.Stat` succeeds on that entry; it returns absent when
`os.Stat` fails on it, when no entry qualifies, and in particular for the empty id. -/
theorem C20_find_by_id (loc : Location) (dir sessionID : String) (entries : List DirEntry)
    (b : Bool) :
    (∀ e info stat, entries.find? (qualifies loc sessionID) = some e →
      ParseFilename loc e.Name = some info → e.Stat = some stat →
      FindByID loc dir (some entries) sessionID b =
        some { toFileInfo := info, SessionPath := joinPath dir e.Name, HasContent := false,
               Size := stat.Size, ModifiedTime := stat.ModTime,
               CreatedTime := stat.ModTime }) ∧
    (∀ e, entries.find? (qualifies loc sessionID) = some e → e.Stat = none →
      FindByID loc dir (some entries) sessionID b = none) ∧
    (entries.find? (qualifies loc sessionID) = none →
      FindByID loc dir (some entries) sessionID b = none) ∧
    FindByID loc dir (some entries) "" b = none ∧
    FindByID loc dir none sessionID b = none := by
  unfold FindByID
  simp only [findLoop_eq]
  refine ⟨?_, ?_, ?_, ?_, trivial⟩
  · intro e info stat he hp hs
    rw [he]
    simp only [hp, hs]
  · intro e he hs
    rw [he]
    simp only [hs]
    cases ParseFilename loc e.Name <;> rfl
  · intro he
    rw [he]
  · have : entries.find? (qualifies loc "") = none := by
      rw [List.find?_eq_none]
      intro e _
      rw [qualifies_empty]
      exact Bool.false_ne_true
    rw [this]

theorem C20_find_by_id_witness :
    FindByID utc "/s" (some [⟨"notes.txt", false, some ⟨1, 1⟩⟩,
        ⟨"2026-02-01-a1b2c3d4-session.tmp", false, some ⟨10, 5⟩⟩,
        ⟨"2026-02-02-a1b2ffff-session.tmp", false, some ⟨20, 6⟩⟩]) "a1b2" false =
      some { toFileInfo := ⟨"2026-02-01-a1b2c3d4-session.tmp", "a1b2c3d4", "2026-02-01",
               (2026, 2, 1)⟩,
             SessionPath := "/s/2026-02-01-a1b2c3d4-session.tmp", HasContent := false,
             Size := 10, ModifiedTime := 5, CreatedTime := 5 } :=
  (C20_find_by_id utc "/s" "a1b2" [⟨"notes.txt", false, some ⟨1, 1⟩⟩,
        ⟨"2026-02-01-a1b2c3d4-session.tmp", false, some ⟨10, 5⟩⟩,
        ⟨"2026-02-02-a1b2ffff-session.tmp", false, some ⟨20, 6⟩⟩] false).1
    ⟨"2026-02-01-a1b2c3d4-session.tmp", false, some ⟨10, 5⟩⟩
    ⟨"2026-02-01-a1b2c3d4-session.tmp", "a1b2c3d4", "2026-02-01", (2026, 2, 1)⟩
    ⟨10, 5⟩ (by decide) (by decide) rfl

/-- C20 (counterexample): the only entry is a directory whose name parses as a session
file name with short id `abcdefgh`; the id `abcdefgh` is a prefix of that short id, yet
`FindByID` skips the directory and returns absent. -/
theorem C20_directory_is_skipped :
    ParseFilename utc "2026-02-01-abcdefgh-session.tmp" =
      some ⟨"2026-02-01-abcdefgh-session.tmp", "abcdefgh", "2026-02-01", (2026, 2, 1)⟩ ∧
    idMatches "abcdefgh" "2026-02-01-abcdefgh-session.tmp"
      ⟨"2026-02-01-abcdefgh-session.tmp", "abcdefgh", "2026-02-01", (2026, 2, 1)⟩ = true ∧
    FindByID utc "/s" (some [⟨"2026-02-01-abcdefgh-session.tmp", true, some ⟨0, 5⟩⟩])
      "abcdefgh" false = none := by
  decide

/-! ## Session metadata -/

theorem reSpace_isSpace (c : Char) (h : reSpace c = true) : isSpace c = true := by
  simp only [reSpace, Bool.or_eq_true, beq_iff_eq] at h
  unfold isSpace
  rcases h with (((h | h) | h) | h) | h <;> simp [h]

theorem findSection_skip (hdr pre s : List Char)
    (h : ∀ k < pre.length, hdr.isPrefixOf ((pre ++ s).drop k) = false) :
    findSection hdr (pre ++ s) = findSection hdr s := by
  induction pre with
  | nil => rfl
  | cons c p ih =>
    have h0 := h 0 (by simp)
    simp only [List.drop_zero] at h0
    have hrest : ∀ k < p.length, hdr.isPrefixOf ((p ++ s).drop k) = false := by
      intro k hk
      have := h (k + 1) (by simp; omega)
      simpa using this
    have hs : sectionAt hdr (c :: (p ++ s)) = none := by
      unfold sectionAt
      rw [show c :: (p ++ s) = c :: p ++ s from rfl, h0]
      rfl
    show findSection hdr (c :: (p ++ s)) = _
    conv_lhs => rw [findSection]
    rw [hs]
    exact ih hrest

theorem isPrefixOf_append_self (a b : List Char) : a.isPrefixOf (a ++ b) = true := by
  induction a with
  | nil => cases b <;> rfl
  | cons x xs ih => simp [List.isPrefixOf, ih]

theorem findSection_here (hdr : List Char) (c : Char) (b : List Char) (hne : hdr ≠ [])
    (hc : reSpace c = false) :
    findSection hdr (hdr ++ '\n' :: c :: b) = some (lazyUntilBreak (c :: b)) := by
  have hs : sectionAt hdr (hdr ++ '\n' :: c :: b) = some (lazyUntilBreak (c :: b)) := by
    unfold sectionAt
    rw [isPrefixOf_append_self, if_pos rfl, List.drop_left]
    have h1 : skipSpaceNewline (c :: b) = none := by
      unfold skipSpaceNewline
      rw [hc]
      rfl
    have h2 : skipSpaceNewline ('\n' :: c :: b) = some (c :: b) := by
      rw [skipSpaceNewline, h1]
      rfl
    rw [h2]
    rfl
  cases hdr with
  | nil => exact absurd rfl hne
  | cons x xs =>
    show findSection (x :: xs) (x :: (xs ++ '\n' :: c :: b)) = _
    conv_lhs => rw [findSection]
    rw [show x :: (xs ++ '\n' :: c :: b) = x :: xs ++ '\n' :: c :: b from rfl, hs]

theorem NoHashes_tail (c : Char) (t : List Char) (h : NoHashes (c :: t)) : NoHashes t := by
  unfold NoHashes at *
  simp only [List.tails, List.any_cons, Bool.or_eq_false_iff] at h
  exact h.2

theorem lazy_item (t tail : List Char) (hnl : '\n' ∉ t) (hh : NoHashes t)
    (htail : tail.head? = some '\n') :
    lazyUntilBreak (t ++ tail) = t ++ lazyUntilBreak tail := by
  induction t with
  | nil => rfl
  | cons c t' ih =>
    have hc : c ≠ '\n' := fun h => hnl (by rw [h]; exact List.mem_cons_self _ _)
    have hnl' : '\n' ∉ t' := fun h => hnl (List.mem_cons_of_mem _ h)
    have hbreak : ("###".data.isPrefixOf (c :: (t' ++ tail)) ||
        "\n\n".data.isPrefixOf (c :: (t' ++ tail))) = false := by
      have h2 : "\n\n".data.isPrefixOf (c :: (t' ++ tail)) = false := by
        show List.isPrefixOf ['\n', '\n'] (c :: (t' ++ tail)) = false
        simp [List.isPrefixOf, Ne.symm hc]
      have h1 : "###".data.isPrefixOf (c :: (t' ++ tail)) = false := by
        cases hp : "###".data.isPrefixOf (c :: (t' ++ tail))
        · rfl
        · exfalso
          change List.isPrefixOf ['#', '#', '#'] (c :: (t' ++ tail)) = true at hp
          cases tail with
          | nil => simp at htail
          | cons d tl =>
            simp only [List.head?_cons, Option.some.injEq] at htail
            subst htail
            unfold NoHashes at hh
            cases t' with
            | nil => simp [List.isPrefixOf] at hp
            | cons a t'' =>
              cases t'' with
              | nil => simp [List.isPrefixOf] at hp
              | cons b t''' =>
                simp only [List.cons_append, List.isPrefixOf, Bool.and_eq_true, beq_iff_eq,
                  Bool.and_true] at hp
                obtain ⟨e1, e2, e3⟩ := hp
                subst e1 e2 e3
                simp [List.tails, List.isPrefixOf] at hh
      rw [h1, h2]; rfl
    show lazyUntilBreak (c :: (t' ++ tail)) = c :: (t' ++ lazyUntilBreak tail)
    rw [lazyUntilBreak, hbreak]
    simp only [Bool.false_eq_true, if_false]
    rw [ih hnl' (NoHashes_tail c t' hh)]

/-- The lazy group passes over a checkbox line whose text has no `###`. -/
theorem lazy_line (m : Char) (hm1 : m ≠ '#') (hm2 : m ≠ '\n') (t tail : List Char)
    (hnl : '\n' ∉ t) (hh : NoHashes t) (htail : tail.head? = some '\n') :
    lazyUntilBreak (['-', ' ', '[', m, ']'] ++ ' ' :: (t ++ tail)) =
      ['-', ' ', '[', m, ']'] ++ ' ' :: (t ++ lazyUntilBreak tail) := by
  have hm1' : ('#' == m) = false := by simpa using Ne.symm hm1
  have hm2' : ('\n' == m) = false := by simpa using Ne.symm hm2
  simp only [List.cons_append, List.nil_append]
  rw [lazyUntilBreak, lazyUntilBreak, lazyUntilBreak, lazyUntilBreak, lazyUntilBreak,
    lazyUntilBreak]
  simp only [show "###".data = ['#', '#', '#'] from rfl, show "\n\n".data = ['\n', '\n'] from rfl,
    List.isPrefixOf, hm1', hm2', Bool.false_and, Bool.or_self, Bool.false_eq_true, if_false,
    show ('#' == '-') = false from rfl, show ('\n' == '-') = false from rfl,
    show ('#' == ' ') = false from rfl, show ('\n' == ' ') = false from rfl,
    show ('#' == '[') = false from rfl, show ('\n' == '[') = false from rfl,
    show ('#' == ']') = false from rfl, show ('\n' == ']') = false from rfl]
  rw [lazy_item t tail hnl hh htail]

theorem takeWhile_all {α : Type} (p : α → Bool) (a : List α) (ha : ∀ c ∈ a, p c = true) :
    a.takeWhile p = a ∧ a.dropWhile p = [] := by
  induction a with
  | nil => exact ⟨rfl, rfl⟩
  | cons c cs ih =>
    have hc := ha c (List.mem_cons_self _ _)
    have := ih (fun d hd => ha d (List.mem_cons_of_mem _ hd))
    simp [List.takeWhile, List.dropWhile, hc, this]

/-- The text of a line up to the newline that ends it, or to the end of the text. -/
theorem line_text (t Z : List Char) (hnl : '\n' ∉ t) (hZ : Z = [] ∨ Z.head? = some '\n') :
    (t ++ Z).takeWhile (fun d => d != '\n') = t ∧
    (t ++ Z).dropWhile (fun d => d != '\n') = Z := by
  have hall : ∀ c ∈ t, (fun d => d != '\n') c = true := by
    intro c hc
    have : c ≠ '\n' := fun h => hnl (h ▸ hc)
    simpa using this
  rcases hZ with h | h
  · subst h
    simpa using takeWhile_all _ t hall
  · cases Z with
    | nil => simp at h
    | cons z zs =>
      simp only [List.head?_cons, Option.some.injEq] at h
      subst h
      exact takeWhile_stop _ t '\n' zs hall (by simp)

theorem checkboxAt_line (m : Char) (t Z : List Char) (ht : ItemText t)
    (hZ : Z = [] ∨ Z.head? = some '\n') :
    checkboxAt ['-', ' ', '[', m, ']'] (['-', ' ', '[', m, ']'] ++ ' ' :: (t ++ Z)) =
      some (t, Z) := by
  obtain ⟨hhead, _, hnl⟩ := ht
  unfold checkboxAt
  rw [isPrefixOf_append_self, if_pos rfl, List.drop_left]
  cases t with
  | nil => simp at hhead
  | cons c t' =>
    simp only [List.head?_cons, Option.map_some', Option.some.injEq] at hhead
    have hc : reSpace c = false := by
      cases h : reSpace c
      · rfl
      · rw [reSpace_isSpace c h] at hhead
        cases hhead
    have hl := line_text (c :: t') Z hnl hZ
    have h1 : spaceThenText (c :: t' ++ Z) = some (c :: t', Z) := by
      show spaceThenText (c :: (t' ++ Z)) = _
      rw [spaceThenText, hc]
      simp only [Bool.false_eq_true, if_false]
      rw [show c :: (t' ++ Z) = c :: t' ++ Z from rfl, hl.1, hl.2]
    rw [spaceThenText, show reSpace ' ' = true from rfl, if_pos rfl, h1]

theorem findAllFrom_skip (mark a b : List Char) :
    findAllFrom mark a.length (a ++ b) = findAllFrom mark 0 b := by
  induction a with
  | nil => rfl
  | cons x xs ih =>
    show findAllFrom mark (xs.length + 1) (x :: (xs ++ b)) = _
    rw [findAllFrom]
    exact ih

theorem findAllFrom_newline (m : Char) (Z : List Char) :
    findAllFrom ['-', ' ', '[', m, ']'] 0 ('\n' :: Z) =
      findAllFrom ['-', ' ', '[', m, ']'] 0 Z := by
  rw [findAllFrom]
  have : checkboxAt ['-', ' ', '[', m, ']'] ('\n' :: Z) = none := by
    unfold checkboxAt
    simp [List.isPrefixOf]
  rw [this]

/-- `FindAll` takes the text of a checkbox line and goes on after the line. -/
theorem findAllFrom_line (m : Char) (t Z : List Char) (ht : ItemText t)
    (hZ : Z = [] ∨ Z.head? = some '\n') :
    findAllFrom ['-', ' ', '[', m, ']'] 0 (['-', ' ', '[', m, ']'] ++ ' ' :: (t ++ Z)) =
      t :: findAllFrom ['-', ' ', '[', m, ']'] 0 Z := by
  have hc := checkboxAt_line m t Z ht hZ
  show findAllFrom ['-', ' ', '[', m, ']'] 0 ('-' :: ([' ', '[', m, ']'] ++ ' ' :: (t ++ Z))) = _
  rw [findAllFrom]
  rw [show '-' :: ([' ', '[', m, ']'] ++ ' ' :: (t ++ Z)) =
    ['-', ' ', '[', m, ']'] ++ ' ' :: (t ++ Z) from rfl, hc]
  simp only
  have hlen : (['-', ' ', '[', m, ']'] ++ ' ' :: (t ++ Z)).length - Z.length - 1 =
      ([' ', '[', m, ']'] ++ ' ' :: t).length := by
    simp only [List.length_append, List.length_cons, List.length_nil]
    omega
  rw [hlen]
  have := findAllFrom_skip ['-', ' ', '[', m, ']'] ([' ', '[', m, ']'] ++ ' ' :: t) Z
  simp only [List.append_assoc, List.cons_append, List.nil_append] at this ⊢
  rw [this]

theorem lazy_newline_next (c : Char) (X : List Char) (hc : c ≠ '\n') :
    lazyUntilBreak ('\n' :: c :: X) = '\n' :: lazyUntilBreak (c :: X) := by
  rw [lazyUntilBreak]
  have : ("###".data.isPrefixOf ('\n' :: c :: X) ||
      "\n\n".data.isPrefixOf ('\n' :: c :: X)) = false := by
    show (List.isPrefixOf ['#', '#', '#'] ('\n' :: c :: X) ||
      List.isPrefixOf ['\n', '\n'] ('\n' :: c :: X)) = false
    simp [List.isPrefixOf, Ne.symm hc]
  rw [this]
  rfl

theorem lazy_newline_end (post : List Char) (h : SectionEnd post) :
    lazyUntilBreak ('\n' :: post) = [] ∨ lazyUntilBreak ('\n' :: post) = ['\n'] := by
  rcases h with h | h | h
  · subst h
    right
    rfl
  · cases post with
    | nil => simp at h
    | cons z zs =>
      simp only [List.head?_cons, Option.some.injEq] at h
      subst h
      left
      rw [lazyUntilBreak]
      have : ("###".data.isPrefixOf ('\n' :: '\n' :: zs) ||
          "\n\n".data.isPrefixOf ('\n' :: '\n' :: zs)) = true := by
        show (List.isPrefixOf ['#', '#', '#'] ('\n' :: '\n' :: zs) ||
          List.isPrefixOf ['\n', '\n'] ('\n' :: '\n' :: zs)) = true
        simp [List.isPrefixOf]
      rw [if_pos this]
  · right
    cases post with
    | nil => simp [List.isPrefixOf] at h
    | cons z zs =>
      have hz : z = '#' := by
        change List.isPrefixOf ['#', '#', '#'] (z :: zs) = true at h
        simp only [List.isPrefixOf, Bool.and_eq_true, beq_iff_eq] at h
        exact h.1.symm
      subst hz
      rw [lazy_newline_next '#' zs (by decide), lazyUntilBreak, h]
      rfl

/-- The items found in the group of a section whose lines are checkbox lines. -/
theorem items_of_lines (m : Char) (hm1 : m ≠ '#') (hm2 : m ≠ '\n')
    (ts : List (List Char)) (post : List Char) (hts : ts ≠ [])
    (hti : ∀ t ∈ ts, ItemText t ∧ NoHashes t) (hpost : SectionEnd post) :
    findAllFrom ['-', ' ', '[', m, ']'] 0
      (lazyUntilBreak (checkboxLines ⟨['-', ' ', '[', m, ']']⟩ ts ++ post)) = ts := by
  induction ts with
  | nil => exact absurd rfl hts
  | cons t ts' ih =>
    obtain ⟨hit, hnh⟩ := hti t (List.mem_cons_self _ _)
    have hti' : ∀ u ∈ ts', ItemText u ∧ NoHashes u :=
      fun u hu => hti u (List.mem_cons_of_mem _ hu)
    have hshape : checkboxLines ⟨['-', ' ', '[', m, ']']⟩ (t :: ts') ++ post =
        ['-', ' ', '[', m, ']'] ++ ' ' :: (t ++ '\n' ::
          (checkboxLines ⟨['-', ' ', '[', m, ']']⟩ ts' ++ post)) := by
      simp [checkboxLines]
    rw [hshape, lazy_line m hm1 hm2 t _ hit.2.2 hnh (List.head?_cons ..)]
    cases ts' with
    | nil =>
      have hnil : checkboxLines ⟨['-', ' ', '[', m, ']']⟩ [] ++ post = post := rfl
      rw [hnil]
      rcases lazy_newline_end post hpost with h | h
      · rw [h, findAllFrom_line m t [] hit (Or.inl rfl)]
        rfl
      · rw [h, findAllFrom_line m t ['\n'] hit (Or.inr rfl), findAllFrom_newline]
        rfl
    | cons t2 ts'' =>
      have hnext : checkboxLines ⟨['-', ' ', '[', m, ']']⟩ (t2 :: ts'') ++ post =
          '-' :: ([' ', '[', m, ']'] ++ ' ' :: (t2 ++ '\n' ::
            (checkboxLines ⟨['-', ' ', '[', m, ']']⟩ ts'' ++ post))) := by
        simp [checkboxLines]
      have ih' := ih (by simp) hti'
      rw [hnext] at ih' ⊢
      rw [lazy_newline_next '-' _ (by decide),
        findAllFrom_line m t _ hit (Or.inr (List.head?_cons ..)), findAllFrom_newline, ih']

theorem TrimSpace_item (t : List Char) (ht : ItemText t) : TrimSpace ⟨t⟩ = ⟨t⟩ := by
  obtain ⟨hhead, hlast, _⟩ := ht
  unfold TrimSpace
  have h1 : t.dropWhile isSpace = t := by
    cases t with
    | nil => rfl
    | cons c cs =>
      simp only [List.head?_cons, Option.map_some', Option.some.injEq] at hhead
      simp [List.dropWhile, hhead]
  have h2 : t.reverse.dropWhile isSpace = t.reverse := by
    cases hr : t.reverse with
    | nil => rfl
    | cons c cs =>
      have : t.getLast? = some c := by
        rw [← List.head?_reverse, hr]
        rfl
      rw [this] at hlast
      simp only [Option.map_some', Option.some.injEq] at hlast
      simp [List.dropWhile, hlast]
  simp only [h1, h2, List.reverse_reverse]

/-- The items of a section of `ParseMetadata` whose header is followed by checkbox
lines. -/
theorem sectionItems_lines (hdr : String) (m : Char) (hm1 : m ≠ '#') (hm2 : m ≠ '\n')
    (hhdr : hdr.data ≠ []) (content : String) (pre post : List Char)
    (ts : List (List Char)) (hts : ts ≠ [])
    (hti : ∀ t ∈ ts, ItemText t ∧ NoHashes t) (hpost : SectionEnd post)
    (hc : content.data = pre ++ (hdr.data ++ '\n' ::
      (checkboxLines ⟨['-', ' ', '[', m, ']']⟩ ts ++ post)))
    (hfirst : FirstOccurrence hdr content.data pre.length) :
    sectionItems hdr ⟨['-', ' ', '[', m, ']']⟩ content = ts.map String.mk := by
  unfold sectionItems
  rw [hc] at hfirst ⊢
  rw [findSection_skip hdr.data pre _ hfirst]
  cases ts with
  | nil => exact absurd rfl hts
  | cons t ts' =>
    have hshape : checkboxLines ⟨['-', ' ', '[', m, ']']⟩ (t :: ts') ++ post =
        '-' :: ([' ', '[', m, ']'] ++ ' ' :: (t ++ '\n' ::
          (checkboxLines ⟨['-', ' ', '[', m, ']']⟩ ts' ++ post))) := by
      simp [checkboxLines]
    have hitems := items_of_lines m hm1 hm2 (t :: ts') post hts hti hpost
    rw [hshape] at hitems ⊢
    rw [findSection_here hdr.data '-' _ hhdr (by decide)]
    simp only [hitems]
    apply List.map_congr_left
    intro u hu
    exact TrimSpace_item u (hti u hu).1

/-- C18 (amended): when the first `### Completed` of the content is followed by the
lines `- [x] t1`, ..., `- [x] tn` and then a blank line, and the first `### In Progress`
is followed by the lines `- [ ] u1`, ..., `- [ ] um` and then the end of the content, a
blank line or `###`, with n and m at least 1 and every t and u a non-empty single-line
text without white space at its start or end that does not contain `###`, then
`ParseMetadata` returns `Completed` = [t1, ..., tn] and `InProgress` = [u1, ..., um]. -/
theorem C18_parse_metadata_items (content : String) (pre1 rest1 pre2 post : List Char)
    (ts us : List (List Char)) (hts : ts ≠ []) (hus : us ≠ [])
    (hti : ∀ t ∈ ts, ItemText t ∧ NoHashes t) (hui : ∀ u ∈ us, ItemText u ∧ NoHashes u)
    (hC : content.data = pre1 ++ ("### Completed".data ++ '\n' ::
      (checkboxLines "- [x]" ts ++ '\n' :: rest1)))
    (hC1 : FirstOccurrence "### Completed" content.data pre1.length)
    (hP : content.data = pre2 ++ ("### In Progress".data ++ '\n' ::
      (checkboxLines "- [ ]" us ++ post)))
    (hP1 : FirstOccurrence "### In Progress" content.data pre2.length)
    (hpost : SectionEnd post) :
    (ParseMetadata content).Completed = ts.map String.mk ∧
    (ParseMetadata content).InProgress = us.map String.mk := by
  have hne : content ≠ "" := by
    intro h0
    rw [h0] at hC
    have := congrArg List.length hC
    simp at this
    omega
  unfold ParseMetadata
  rw [if_neg hne]
  exact ⟨sectionItems_lines "### Completed" 'x' (by decide) (by decide) (by decide) content
      pre1 ('\n' :: rest1) ts hts hti (Or.inr (Or.inl rfl)) hC hC1,
    sectionItems_lines "### In Progress" ' ' (by decide) (by decide) (by decide) content
      pre2 post us hus hui hpost hP hP1⟩

theorem C18_parse_metadata_items_witness :
    (ParseMetadata "### Completed\n- [x] A\n- [x] B\n\n### In Progress\n- [ ] C\n").Completed =
      ["A", "B"] ∧
    (ParseMetadata "### Completed\n- [x] A\n- [x] B\n\n### In Progress\n- [ ] C\n").InProgress =
      ["C"] :=
  C18_parse_metadata_items "### Completed\n- [x] A\n- [x] B\n\n### In Progress\n- [ ] C\n"
    [] "### In Progress\n- [ ] C\n".data "### Completed\n- [x] A\n- [x] B\n\n".data []
    [['A'], ['B']] [['C']] (by decide) (by decide) (by decide) (by decide) (by decide)
    (by decide) (by decide) (by decide) (by decide)

/-- C18 (counterexample): an item text that contains `###` is cut there, because the
group of the section ends at the first `###`; and a header that is followed by no line
but directly by the blank line takes its items from the text after the blank line. -/
theorem C18_item_with_hashes_is_cut :
    ItemText "A ### B".data ∧
    ParseMetadata "### Completed\n- [x] A ### B\n\n### In Progress\n- [ ] C\n" =
      ⟨["A"], ["C"]⟩ ∧
    ParseMetadata "### Completed\n\n- [x] stray\n\n### In Progress\n- [ ] C\n" =
      ⟨["stray"], ["C"]⟩ := by
  decide

/-! ## The package-manager detector -/

theorem managers_of_known (n : String) (h : KnownManager n) :
    managers n = some (managersAt n) := by
  rcases h with h | h | h | h <;> subst h <;> rfl

theorem managers_of_unknown (n : String) (h : ¬ KnownManager n) : managers n = none := by
  unfold KnownManager at h
  simp only [not_or] at h
  unfold managers
  rw [if_neg h.1, if_neg h.2.1, if_neg h.2.2.1, if_neg h.2.2.2]

theorem known_ne_empty (n : String) (h : KnownManager n) : n ≠ "" := by
  rcases h with h | h | h | h <;> subst h <;> decide

theorem named_some (s n : String) (h : named s = some n) : s = n ∧ KnownManager n := by
  unfold named at h
  split_ifs at h with hk
  cases h
  exact ⟨rfl, hk⟩


theorem lockFile_of_priority (n : String) (h : n ∈ detectionPriority) :
    (managersAt n).LockFile = lockFileOf n ∧ KnownManager n := by
  simp only [detectionPriority, List.mem_cons, List.mem_singleton, List.not_mem_nil,
    or_false] at h
  rcases h with h | h | h | h <;> subst h <;> exact ⟨rfl, by decide⟩

theorem lockFileLoop_eq (h : Host) (dir : String) (l : List String)
    (hl : ∀ n ∈ l, n ∈ detectionPriority) :
    lockFileLoop h dir l = (l.find? (hasLockFile h dir)).getD "" := by
  induction l with
  | nil => rfl
  | cons n rest ih =>
    have hn := (lockFile_of_priority n (hl n (List.mem_cons_self _ _))).1
    unfold lockFileLoop
    simp only [hn, List.find?_cons, hasLockFile]
    cases hx : h.Exists (h.Join [dir, lockFileOf n])
    · simp only [Bool.false_eq_true, if_false]
      rw [ih (fun m hm => hl m (List.mem_cons_of_mem _ hm))]
    · simp

theorem DetectFromLockFile_eq (h : Host) (dir : String) :
    DetectFromLockFile h dir = (lockStage h dir).getD "" :=
  lockFileLoop_eq h dir detectionPriority (fun _ hn => hn)

theorem lockStage_known (h : Host) (dir n : String) (hn : lockStage h dir = some n) :
    KnownManager n :=
  (lockFile_of_priority n (List.mem_of_find?_eq_some hn)).2

theorem splitSep_ne_nil (sep : Char) (s : List Char) : splitSep sep s ≠ [] := by
  cases s with
  | nil => simp [splitSep]
  | cons c cs =>
    unfold splitSep
    split_ifs
    · simp
    · cases splitSep sep cs <;> simp

theorem headD_splitSep (sep : Char) (s : List Char) :
    (splitSep sep s).headD [] = s.takeWhile (fun c => c ≠ sep) := by
  induction s with
  | nil => rfl
  | cons c cs ih =>
    unfold splitSep
    by_cases hc : c = sep
    · simp [hc]
    · rw [if_neg hc]
      cases hs : splitSep sep cs with
      | nil => exact absurd hs (splitSep_ne_nil sep cs)
      | cons p ps => rw [hs] at ih; simp at ih; simp [hc, ← ih]

theorem DetectFromPackageJSON_eq (h : Host) (dir : String) :
    DetectFromPackageJSON h dir = (packageJSONStage h dir).getD "" := by
  unfold DetectFromPackageJSON packageJSONStage
  cases hr : h.ReadFile (h.Join [dir, "package.json"]) with
  | none => rfl
  | some content =>
    simp only [Option.some_bind]
    cases hu : h.Unmarshal content with
    | none => rfl
    | some pm =>
      simp only [Option.some_bind, headD_splitSep]
      have hb : (⟨pm.data.takeWhile (fun c => c ≠ '@')⟩ : String) = beforeAt pm := rfl
      rw [hb]
      by_cases hp : pm = ""
      · subst hp; rfl
      · rw [if_neg hp]
        unfold named
        by_cases hk : KnownManager (beforeAt pm)
        · rw [if_pos hk, managers_of_known _ hk]; rfl
        · rw [if_neg hk, managers_of_unknown _ hk]; rfl

theorem configStage_eq (h : Host) (path source : String) :
    configStage h path source =
      (fileStage h path).map (fun n => ⟨n, managersAt n, source⟩) := by
  unfold configStage fileStage
  cases hr : h.ReadFile path with
  | none => rfl
  | some content =>
    simp only [Option.some_bind]
    cases hu : h.Unmarshal content with
    | none => rfl
    | some pm =>
      simp only [Option.some_bind]
      unfold named
      by_cases hk : KnownManager pm
      · rw [if_pos hk, if_pos (known_ne_empty pm hk), managers_of_known _ hk]; rfl
      · rw [if_neg hk, managers_of_unknown _ hk]
        split_ifs <;> rfl

theorem packageJSONStage_known (h : Host) (dir n : String)
    (hn : packageJSONStage h dir = some n) : KnownManager n := by
  unfold packageJSONStage at hn
  simp only [Option.bind_eq_some] at hn
  obtain ⟨pm, _, hpm⟩ := hn
  exact (named_some _ _ hpm).2

theorem fileStage_known (h : Host) (path n : String)
    (hn : fileStage h path = some n) : KnownManager n := by
  unfold fileStage at hn
  simp only [Option.bind_eq_some] at hn
  obtain ⟨pm, _, hpm⟩ := hn
  exact (named_some _ _ hpm).2

/-- The result of `Detect` in terms of the five stages. -/
theorem Detect_eq (h : Host) (projectDir : String) :
    Detect h projectDir =
      match firstNamed (stages h (if projectDir = "" then h.Getwd else projectDir)) with
      | some (n, source) => ⟨n, managersAt n, source⟩
      | none => ⟨"npm", npmConfig, "default"⟩ := by
  unfold Detect stages
  generalize (if projectDir = "" then h.Getwd else projectDir) = dir
  simp only [configStage_eq, DetectFromPackageJSON_eq, DetectFromLockFile_eq, configPath]
  have henv : (if h.Getenv "CLAUDE_PACKAGE_MANAGER" ≠ "" then
      managers (h.Getenv "CLAUDE_PACKAGE_MANAGER") else none) =
      (envStage h).map managersAt := by
    unfold envStage named
    by_cases hk : KnownManager (h.Getenv "CLAUDE_PACKAGE_MANAGER")
    · rw [if_pos hk, if_pos (known_ne_empty _ hk), managers_of_known _ hk]; rfl
    · rw [if_neg hk, managers_of_unknown _ hk]
      split_ifs <;> rfl
  rw [henv]
  cases he : envStage h with
  | some n =>
    have := (named_some _ _ he).1
    simp only [Option.map_some', firstNamed, this]
  | none =>
    simp only [Option.map_none', firstNamed]
    cases fileStage h (h.Join [dir, ".claude", "package-manager.json"]) with
    | some n => rfl
    | none =>
      simp only [Option.map_none', firstNamed]
      cases hp : packageJSONStage h dir with
      | some n =>
        have hn : n ≠ "" := known_ne_empty n (packageJSONStage_known h dir n hp)
        simp only [Option.getD_some, firstNamed, if_pos hn]
      | none =>
        simp only [Option.getD_none, firstNamed, ne_eq, not_true_eq_false, if_false]
        cases hl : lockStage h dir with
        | some n =>
          have hn : n ≠ "" := known_ne_empty n (lockStage_known h dir n hl)
          simp only [Option.getD_some, firstNamed, if_pos hn]
        | none =>
          simp only [Option.getD_none, firstNamed, ne_eq, not_true_eq_false, if_false]
          cases fileStage h (h.Join [h.ClaudeDir, "package-manager.json"]) with
          | some n => rfl
          | none => rfl

theorem firstNamed_stages_known (h : Host) (dir n source : String)
    (hf : firstNamed (stages h dir) = some (n, source)) : KnownManager n := by
  unfold stages at hf
  cases he : envStage h with
  | some m =>
    rw [he] at hf
    simp only [firstNamed, Option.some.injEq, Prod.mk.injEq] at hf
    exact hf.1 ▸ (named_some _ _ he).2
  | none =>
    rw [he] at hf
    cases hp : fileStage h (h.Join [dir, ".claude", "package-manager.json"]) with
    | some m =>
      rw [hp] at hf
      simp only [firstNamed, Option.some.injEq, Prod.mk.injEq] at hf
      exact hf.1 ▸ fileStage_known _ _ _ hp
    | none =>
      rw [hp] at hf
      cases hj : packageJSONStage h dir with
      | some m =>
        rw [hj] at hf
        simp only [firstNamed, Option.some.injEq, Prod.mk.injEq] at hf
        exact hf.1 ▸ packageJSONStage_known _ _ _ hj
      | none =>
        rw [hj] at hf
        cases hl : lockStage h dir with
        | some m =>
          rw [hl] at hf
          simp only [firstNamed, Option.some.injEq, Prod.mk.injEq] at hf
          exact hf.1 ▸ lockStage_known _ _ _ hl
        | none =>
          rw [hl] at hf
          cases hg : fileStage h (h.Join [h.ClaudeDir, "package-manager.json"]) with
          | some m =>
            rw [hg] at hf
            simp only [firstNamed, Option.some.injEq, Prod.mk.injEq] at hf
            exact hf.1 ▸ fileStage_known _ _ _ hg
          | none =>
            rw [hg] at hf
            simp [firstNamed] at hf

/-- C21: `DetectFromLockFile` returns the first manager in the order pnpm, bun, yarn, npm
whose lock file exists in the directory, and the empty string when none exists; and
with `pnpm-lock.yaml` and `yarn.lock` both present, when neither the environment
variable nor the project config file nor the `packageManager` field of `package.json`
names a manager, `Detect` returns pnpm, found by its lock file. -/
theorem C21_lock_file_priority (h : Host) (projectDir : String) :
    DetectFromLockFile h projectDir =
      ((["pnpm", "bun", "yarn", "npm"].find? (hasLockFile h projectDir)).getD "") ∧
    ((∀ n ∈ ["pnpm", "bun", "yarn", "npm"], hasLockFile h projectDir n = false) →
      DetectFromLockFile h projectDir = "") ∧
    (h.Exists (h.Join [if projectDir = "" then h.Getwd else projectDir,
        "pnpm-lock.yaml"]) = true →
      h.Exists (h.Join [if projectDir = "" then h.Getwd else projectDir,
        "yarn.lock"]) = true →
      envStage h = none →
      fileStage h (h.Join [if projectDir = "" then h.Getwd else projectDir, ".claude",
        "package-manager.json"]) = none →
      packageJSONStage h (if projectDir = "" then h.Getwd else projectDir) = none →
      Detect h projectDir = ⟨"pnpm", pnpmConfig, "lock-file"⟩) := by
  refine ⟨DetectFromLockFile_eq h projectDir, ?_, ?_⟩
  · intro hnone
    rw [DetectFromLockFile_eq]
    unfold lockStage
    rw [List.find?_eq_none.mpr (fun n hn => by rw [hnone n hn]; exact Bool.false_ne_true)]
    rfl
  · intro hpnpm _ he hp hj
    rw [Detect_eq]
    generalize (if projectDir = "" then h.Getwd else projectDir) = dir at *
    have hl : lockStage h dir = some "pnpm" := by
      unfold lockStage
      rw [List.find?_cons_of_pos]
      exact hpnpm
    unfold stages
    rw [he, hp, hj, hl]
    rfl

theorem C21_lock_file_priority_witness :
    Detect (hostOf "" [("/work/yarn.lock", ""), ("/work/pnpm-lock.yaml", "")]) "" =
      ⟨"pnpm", pnpmConfig, "lock-file"⟩ ∧
    DetectFromLockFile (hostOf "" []) "/work" = "" :=
  ⟨(C21_lock_file_priority (hostOf "" [("/work/yarn.lock", ""), ("/work/pnpm-lock.yaml", "")])
      "").2.2 (by decide) (by decide) (by decide) (by decide) (by decide),
   (C21_lock_file_priority (hostOf "" []) "/work").2.1 (by decide)⟩

/-- C22: `Detect` returns the manager of the first stage, in the order environment
variable, project config file, `packageManager` field of `package.json`, lock file,
global config file, that names one of the four managers, with `Source` naming that
stage, and npm with `Source` = `default` when no stage does; a known name in
`CLAUDE_PACKAGE_MANAGER` wins over every file; the `Name` returned is always one of the
four managers and `Config` is the entry of that manager in the table `managers`. -/
theorem C22_detect_priority (h : Host) (projectDir : String) :
    (∀ n source,
      firstNamed (stages h (if projectDir = "" then h.Getwd else projectDir)) =
        some (n, source) →
      Detect h projectDir = ⟨n, managersAt n, source⟩) ∧
    (firstNamed (stages h (if projectDir = "" then h.Getwd else projectDir)) = none →
      Detect h projectDir = ⟨"npm", managersAt "npm", "default"⟩) ∧
    (KnownManager (h.Getenv "CLAUDE_PACKAGE_MANAGER") →
      Detect h projectDir = ⟨h.Getenv "CLAUDE_PACKAGE_MANAGER",
        managersAt (h.Getenv "CLAUDE_PACKAGE_MANAGER"), "environment"⟩) ∧
    KnownManager (Detect h projectDir).Name ∧
    managers (Detect h projectDir).Name = some (Detect h projectDir).Config := by
  rw [Detect_eq]
  generalize (if projectDir = "" then h.Getwd else projectDir) = dir
  refine ⟨?_, ?_, ?_, ?_⟩
  · intro n source hf
    rw [hf]
  · intro hf
    rw [hf]
    rfl
  · intro hk
    have he : envStage h = some (h.Getenv "CLAUDE_PACKAGE_MANAGER") := by
      unfold envStage named
      rw [if_pos hk]
    unfold stages
    rw [he]
    rfl
  · cases hf : firstNamed (stages h dir) with
    | none => exact ⟨by decide, rfl⟩
    | some p =>
      obtain ⟨n, source⟩ := p
      have hk := firstNamed_stages_known h dir n source hf
      exact ⟨hk, managers_of_known n hk⟩

theorem C22_detect_priority_witness :
    Detect (hostOf "yarn" [("/p/.claude/package-manager.json",
        "\x7b\"packageManager\": \"bun\"\x7d"), ("/p/pnpm-lock.yaml", "")]) "/p" =
      ⟨"yarn", yarnConfig, "environment"⟩ ∧
    Detect (hostOf "deno" [("/p/.claude/package-manager.json",
        "\x7b\"packageManager\": \"bun\"\x7d"), ("/p/pnpm-lock.yaml", "")]) "/p" =
      ⟨"bun", bunConfig, "project-config"⟩ ∧
    Detect (hostOf "" []) "/p" = ⟨"npm", npmConfig, "default"⟩ :=
  ⟨(C22_detect_priority (hostOf "yarn" [("/p/.claude/package-manager.json",
        "\x7b\"packageManager\": \"bun\"\x7d"), ("/p/pnpm-lock.yaml", "")]) "/p").2.2.1
      (by decide),
   (C22_detect_priority (hostOf "deno" [("/p/.claude/package-manager.json",
        "\x7b\"packageManager\": \"bun\"\x7d"), ("/p/pnpm-lock.yaml", "")]) "/p").1
      "bun" "project-config" (by decide),
   (C22_detect_priority (hostOf "" []) "/p").2.1 (by decide)⟩

/-! ## The inline hooks -/

theorem Log_stdout (m : String) (o : Output) : (Log m o).stdout = o.stdout := rfl

theorem Passthrough_stdout (raw : List Nat) (o : Output) :
    (Passthrough raw o).stdout = o.stdout ++ [raw] := rfl

/-- C25: each of the six pipeline-filter hooks writes to standard output the raw bytes
it was given, once and nothing else, on every path; the blocking paths of
`BlockDevServer` and `BlockRandomDocs`, which return 2, are among them. -/
theorem C25_hooks_pass_raw_through (windows : Bool) (tmux : String)
    (input : List (String × JSON)) (raw : List Nat) :
    (BlockDevServer windows input raw ⟨[], []⟩).2.stdout = [raw] ∧
    (TmuxReminder windows tmux input raw ⟨[], []⟩).stdout = [raw] ∧
    (GitPushReminder input raw ⟨[], []⟩).stdout = [raw] ∧
    (BlockRandomDocs input raw ⟨[], []⟩).2.stdout = [raw] ∧
    (PRCreatedLog input raw ⟨[], []⟩).stdout = [raw] ∧
    (BuildAnalysis input raw ⟨[], []⟩).stdout = [raw] ∧
    BlockDevServer false [("tool_input", .object [("command", .string "npm run dev")])]
      [123, 125] ⟨[], []⟩ =
      (2, ⟨[[123, 125]], ["[Hook] BLOCKED: Dev server must run in tmux for log access\n",
        "[Hook] Use: tmux new-session -d -s dev \"npm run dev\"\n",
        "[Hook] Then: tmux attach -t dev\n"]⟩) ∧
    BlockRandomDocs [("tool_input", .object [("file_path", .string "notes.md")])]
      [123, 125] ⟨[], []⟩ =
      (2, ⟨[[123, 125]], ["[Hook] BLOCKED: Unnecessary documentation file creation\n",
        "[Hook] File: notes.md\n", "[Hook] Use README.md for documentation instead\n"]⟩) := by
  refine ⟨?_, ?_, ?_, ?_, ?_, ?_, by decide, by decide⟩
  · unfold BlockDevServer
    dsimp only
    split_ifs <;> rfl
  · unfold TmuxReminder
    dsimp only
    split_ifs <;> rfl
  · unfold GitPushReminder
    dsimp only
    split_ifs <;> rfl
  · unfold BlockRandomDocs
    dsimp only
    split_ifs <;> rfl
  · unfold PRCreatedLog
    dsimp only
    split_ifs <;> rfl
  · unfold BuildAnalysis
    dsimp only
    split_ifs <;> rfl

theorem any_tails_eq (l s : List Char) :
    s.tails.any (fun t => t == l) = l.isSuffixOf s := by
  rw [Bool.eq_iff_iff]
  simp only [List.any_eq_true, List.mem_tails, beq_iff_eq, List.isSuffixOf_iff_suffix]
  constructor
  · rintro ⟨t, ht, rfl⟩; exact ht
  · intro hl; exact ⟨l, hl, rfl⟩

theorem randomDocRe_eq (p : String) :
    randomDocRe p = (HasSuffix p ".md" || HasSuffix p ".txt") := by
  unfold randomDocRe matchesSomewhere HasSuffix
  rw [← any_tails_eq, ← any_tails_eq, Bool.eq_iff_iff]
  simp only [List.any_eq_true, Bool.or_eq_true]
  constructor
  · rintro ⟨t, ht, h1 | h1⟩
    · exact Or.inl ⟨t, ht, h1⟩
    · exact Or.inr ⟨t, ht, h1⟩
  · rintro (⟨t, ht, h1⟩ | ⟨t, ht, h1⟩)
    · exact ⟨t, ht, Or.inl h1⟩
    · exact ⟨t, ht, Or.inr h1⟩

theorem allowedDocRe_eq (p : String) :
    allowedDocRe p = (HasSuffix p "README.md" || HasSuffix p "CLAUDE.md" ||
      HasSuffix p "AGENTS.md" || HasSuffix p "CONTRIBUTING.md") := by
  unfold allowedDocRe matchesSomewhere HasSuffix
  rw [← any_tails_eq, ← any_tails_eq, ← any_tails_eq, ← any_tails_eq, Bool.eq_iff_iff]
  simp only [List.any_eq_true, Bool.or_eq_true]
  constructor
  · rintro ⟨t, ht, ((h1 | h1) | h1) | h1⟩
    · exact Or.inl (Or.inl (Or.inl ⟨t, ht, h1⟩))
    · exact Or.inl (Or.inl (Or.inr ⟨t, ht, h1⟩))
    · exact Or.inl (Or.inr ⟨t, ht, h1⟩)
    · exact Or.inr ⟨t, ht, h1⟩
  · rintro (((⟨t, ht, h1⟩ | ⟨t, ht, h1⟩) | ⟨t, ht, h1⟩) | ⟨t, ht, h1⟩)
    · exact ⟨t, ht, Or.inl (Or.inl (Or.inl h1))⟩
    · exact ⟨t, ht, Or.inl (Or.inl (Or.inr h1))⟩
    · exact ⟨t, ht, Or.inl (Or.inr h1)⟩
    · exact ⟨t, ht, Or.inr h1⟩

theorem plansPathRe_eq (p : String) : plansPathRe p = Contains p ".claude/plans/" := rfl

theorem GetToolInputString_file_path (input : List (String × JSON)) :
    GetToolInputString input "file_path" = (toolInputFilePath input).getD "" := by
  unfold GetToolInputString GetToolInput toolInputFilePath
  cases hl : input.lookup "tool_input" with
  | none => rfl
  | some v =>
    cases v with
    | object ti =>
      simp only [asObject]
      cases hf : ti.lookup "file_path" with
      | none => rfl
      | some u => cases u <;> rfl
    | _ => rfl

theorem blocks_iff (p : String) :
    (p ≠ "" && randomDocRe p && !allowedDocRe p && !plansPathRe p) = true ↔ BlockedDoc p := by
  rw [randomDocRe_eq, allowedDocRe_eq, plansPathRe_eq]
  unfold BlockedDoc
  simp only [Bool.and_eq_true, Bool.or_eq_true, Bool.not_eq_true', decide_eq_true_eq,
    Bool.or_eq_false_iff, not_or, Bool.not_eq_true, ne_eq]
  tauto

/-- C28: `BlockRandomDocs` returns 2 exactly when `tool_input.file_path` is a non-empty
string that ends with `.md` or `.txt`, does not end with `README.md`, `CLAUDE.md`,
`AGENTS.md` or `CONTRIBUTING.md` and does not contain `.claude/plans/`; in every other
case, a missing or non-string `file_path` included, it returns 0. -/
theorem C28_block_random_docs (input : List (String × JSON)) (raw : List Nat) (o : Output) :
    ((BlockRandomDocs input raw o).1 = 2 ↔
      ∃ p, toolInputFilePath input = some p ∧ BlockedDoc p) ∧
    ((¬ ∃ p, toolInputFilePath input = some p ∧ BlockedDoc p) →
      (BlockRandomDocs input raw o).1 = 0) ∧
    (toolInputFilePath input = none → (BlockRandomDocs input raw o).1 = 0) ∧
    ((BlockRandomDocs input raw o).1 = 2 ∨ (BlockRandomDocs input raw o).1 = 0) := by
  have key : (∃ p, toolInputFilePath input = some p ∧ BlockedDoc p) ↔
      BlockedDoc (GetToolInputString input "file_path") := by
    rw [GetToolInputString_file_path]
    cases toolInputFilePath input with
    | none =>
      simp only [Option.getD_none, false_and, exists_false, false_iff, reduceCtorEq]
      intro hb
      exact hb.1 rfl
    | some q => simp
  have hcode : (BlockRandomDocs input raw o).1 =
      if BlockedDoc (GetToolInputString input "file_path") then 2 else 0 := by
    unfold BlockRandomDocs
    by_cases hb : BlockedDoc (GetToolInputString input "file_path")
    · rw [if_pos hb, if_pos ((blocks_iff _).mpr hb)]
    · rw [if_neg hb, if_neg (fun hc => hb ((blocks_iff _).mp hc))]
  rw [hcode, key]
  refine ⟨?_, ?_, ?_, ?_⟩
  · split_ifs with hb <;> simp [hb]
  · intro hb; rw [if_neg hb]
  · intro hn
    rw [GetToolInputString_file_path, hn]
    rfl
  · split_ifs <;> simp

theorem C28_block_random_docs_witness :
    (BlockRandomDocs [("tool_input", .object [("file_path", .string "docs/notes.txt")])]
      [] ⟨[], []⟩).1 = 2 ∧
    (BlockRandomDocs [("tool_input", .object [("file_path", .string "docs/README.md")])]
      [] ⟨[], []⟩).1 = 0 ∧
    (BlockRandomDocs [("tool_input", .object [("file_path", .number "7")])]
      [] ⟨[], []⟩).1 = 0 :=
  ⟨(C28_block_random_docs _ [] ⟨[], []⟩).1.mpr ⟨"docs/notes.txt", rfl, by decide⟩,
   (C28_block_random_docs [("tool_input", .object [("file_path", .string "docs/README.md")])]
      [] ⟨[], []⟩).2.1
      (fun ⟨p, hp, hb⟩ => by
        have hq : p = "docs/README.md" := (Option.some.inj hp).symm
        subst hq
        exact absurd hb (by decide)),
   (C28_block_random_docs [("tool_input", .object [("file_path", .number "7")])]
      [] ⟨[], []⟩).2.2.1 rfl⟩

/-! ## Glob patterns -/

theorem foldl_append_flatMap {α β : Type} (f : α → List β) (l : List α) (acc : List β) :
    l.foldl (fun b ch => b ++ f ch) acc = acc ++ l.flatMap f := by
  induction l generalizing acc with
  | nil => simp
  | cons x xs ih => simp [List.foldl_cons, ih, List.flatMap_cons, List.append_assoc]

theorem globToRegex_data (p : String) : (globToRegex p).data = p.data.flatMap globChar := by
  unfold globToRegex
  simp [foldl_append_flatMap]

theorem globChar_cases (c : Char) :
    (c = '*' ∧ globChar c = ['.', '*']) ∨ (c = '?' ∧ globChar c = ['.']) ∨
    (c ≠ '*' ∧ c ≠ '?' ∧ isRegexMeta c = true ∧ globChar c = ['\\', c]) ∨
    (c ≠ '*' ∧ c ≠ '?' ∧ isRegexMeta c = false ∧ globChar c = [c]) := by
  unfold globChar
  by_cases h1 : c = '*'
  · exact Or.inl ⟨h1, by rw [if_pos h1]⟩
  by_cases h2 : c = '?'
  · exact Or.inr (Or.inl ⟨h2, by rw [if_neg h1, if_pos h2]⟩)
  rw [if_neg h1, if_neg h2]
  by_cases h3 : c = '.' ∨ c = '+' ∨ c = '^' ∨ c = '$' ∨ c = '{' ∨ c = '}' ∨ c = '(' ∨
      c = ')' ∨ c = '|' ∨ c = '[' ∨ c = ']' ∨ c = '\\'
  · refine Or.inr (Or.inr (Or.inl ⟨h1, h2, ?_, by rw [if_pos h3]⟩))
    unfold isRegexMeta
    rcases h3 with h | h | h | h | h | h | h | h | h | h | h | h <;> subst h <;> rfl
  · refine Or.inr (Or.inr (Or.inr ⟨h1, h2, ?_, by rw [if_neg h3]⟩))
    simp only [not_or] at h3
    unfold isRegexMeta
    simp [h1, h2, h3]

/-- The regular expression written for a glob, closed by `$`, does not start with a
star. -/
theorem head_ne_star (l : List Char) :
    ∃ d r, l.flatMap globChar ++ ['$'] = d :: r ∧ d ≠ '*' ∧
      (isRegexMeta d = false ∨ d = '.' ∨ d = '\\' ∨ (d = '$' ∧ l = [])) := by
  cases l with
  | nil => exact ⟨'$', [], rfl, by decide, Or.inr (Or.inr (Or.inr ⟨rfl, rfl⟩))⟩
  | cons c cs =>
    rw [List.flatMap_cons]
    rcases globChar_cases c with ⟨_, h⟩ | ⟨_, h⟩ | ⟨_, _, _, h⟩ | ⟨h1, _, hm, h⟩ <;> rw [h]
    · exact ⟨'.', _, rfl, by decide, Or.inr (Or.inl rfl)⟩
    · exact ⟨'.', _, rfl, by decide, Or.inr (Or.inl rfl)⟩
    · exact ⟨'\\', _, rfl, by decide, Or.inr (Or.inr (Or.inl rfl))⟩
    · exact ⟨c, _, rfl, h1, Or.inl hm⟩

theorem compileBody_glob (l : List Char) :
    compileBody (l.flatMap globChar ++ ['$']) = some (l.map pieceOf) := by
  induction l with
  | nil => rfl
  | cons c cs ih =>
    rw [List.flatMap_cons, List.append_assoc]
    obtain ⟨d, r, hdr, hd, _⟩ := head_ne_star cs
    rw [hdr] at ih ⊢
    rcases globChar_cases c with ⟨hc, h⟩ | ⟨hc, h⟩ | ⟨h1, h2, hm, h⟩ | ⟨h1, h2, hm, h⟩ <;>
      rw [h]
    · subst hc
      show compileBody ('.' :: '*' :: d :: r) = _
      rw [compileBody]
      simp [ih, pieceOf]
    · subst hc
      show compileBody ('.' :: d :: r) = _
      rw [compileBody]
      simp [ih, pieceOf, hd]
    · show compileBody ('\\' :: c :: d :: r) = _
      rw [compileBody]
      simp [ih, pieceOf, hm, h1, h2]
    · show compileBody (c :: d :: r) = _
      have e1 : c ≠ '$' := by rintro rfl; exact absurd hm (by decide)
      have e2 : c ≠ '\\' := by rintro rfl; exact absurd hm (by decide)
      have e3 : c ≠ '.' := by rintro rfl; exact absurd hm (by decide)
      rw [compileBody]
      simp [ih, pieceOf, hm, h1, h2, e1, e2, e3]

theorem compileAnchored_glob (p : String) :
    compileAnchored ("^" ++ globToRegex p ++ "$") = some (p.data.map pieceOf) := by
  unfold compileAnchored
  have : ("^" ++ globToRegex p ++ "$").data = '^' :: (p.data.flatMap globChar ++ ['$']) := by
    simp [String.data_append, globToRegex_data]
  rw [this]
  exact compileBody_glob p.data

theorem matchStar_iff (k : List Char → Bool) (s : List Char) :
    matchStar k s = true ↔ ∃ a b, s = a ++ b ∧ '\n' ∉ a ∧ k b = true := by
  induction s with
  | nil =>
    simp only [matchStar]
    constructor
    · intro h; exact ⟨[], [], rfl, by simp, h⟩
    · rintro ⟨a, b, hab, _, hk⟩
      have := List.append_eq_nil.mp hab.symm
      rw [this.2] at hk
      exact hk
  | cons x s ih =>
    simp only [matchStar, Bool.or_eq_true, Bool.and_eq_true, bne_iff_ne, ne_eq, ih]
    constructor
    · rintro (h | ⟨hx, a, b, hab, ha, hk⟩)
      · exact ⟨[], x :: s, rfl, by simp, h⟩
      · refine ⟨x :: a, b, by rw [hab]; rfl, ?_, hk⟩
        simp only [List.mem_cons, not_or]
        exact ⟨fun h => hx h.symm, ha⟩
    · rintro ⟨a, b, hab, ha, hk⟩
      cases a with
      | nil =>
        left
        rw [hab]
        exact hk
      | cons y a' =>
        right
        simp only [List.cons_append, List.cons.injEq] at hab
        simp only [List.mem_cons, not_or] at ha
        refine ⟨?_, a', b, hab.2, ha.2, hk⟩
        rw [hab.1]
        exact fun h => ha.1 h.symm

theorem matchPieces_glob (p s : List Char) (hs : '\n' ∉ s) :
    matchPieces (p.map pieceOf) s = true ↔ GlobMatch p s := by
  induction p generalizing s with
  | nil =>
    simp [matchPieces, GlobMatch]
  | cons c p ih =>
    rw [List.map_cons]
    unfold GlobMatch
    by_cases h1 : c = '*'
    · have hpc : pieceOf c = Piece.anyStar := by unfold pieceOf; rw [if_pos h1]
      rw [if_pos h1, hpc]
      simp only [matchPieces]
      rw [matchStar_iff]
      constructor
      · rintro ⟨a, b, hab, _, hk⟩
        have hb : '\n' ∉ b := fun h => hs (by rw [hab]; exact List.mem_append_right a h)
        exact ⟨a, b, hab, (ih b hb).mp hk⟩
      · rintro ⟨a, b, hab, hg⟩
        have hb : '\n' ∉ b := fun h => hs (by rw [hab]; exact List.mem_append_right a h)
        have ha : '\n' ∉ a := fun h => hs (by rw [hab]; exact List.mem_append_left b h)
        exact ⟨a, b, hab, ha, (ih b hb).mpr hg⟩
    · rw [if_neg h1]
      by_cases h2 : c = '?'
      · have hpc : pieceOf c = Piece.anyChar := by unfold pieceOf; rw [if_neg h1, if_pos h2]
        rw [if_pos h2, hpc]
        cases s with
        | nil => simp [matchPieces]
        | cons x t =>
          simp only [List.mem_cons, not_or] at hs
          simp only [matchPieces, Bool.and_eq_true, bne_iff_ne, ne_eq, List.cons.injEq,
            ih t hs.2]
          constructor
          · rintro ⟨_, h⟩; exact ⟨x, t, ⟨rfl, rfl⟩, h⟩
          · rintro ⟨y, u, ⟨_, hu⟩, h⟩
            exact ⟨fun hx => hs.1 hx.symm, hu ▸ h⟩
      · have hpc : pieceOf c = Piece.literal c := by
          unfold pieceOf; rw [if_neg h1, if_neg h2]
        rw [if_neg h2, hpc]
        cases s with
        | nil => simp [matchPieces]
        | cons x t =>
          simp only [List.mem_cons, not_or] at hs
          simp only [matchPieces, Bool.and_eq_true, beq_iff_eq, List.cons.injEq, ih t hs.2]
          constructor
          · rintro ⟨hx, h⟩; exact ⟨t, ⟨hx, rfl⟩, h⟩
          · rintro ⟨u, ⟨hx, hu⟩, h⟩
            exact ⟨hx, hu ▸ h⟩

theorem GlobMatch_plain (p s : List Char) (hp : ∀ c ∈ p, c ≠ '*' ∧ c ≠ '?') :
    GlobMatch p s ↔ s = p := by
  induction p generalizing s with
  | nil => simp [GlobMatch]
  | cons c p ih =>
    have hc := hp c (List.mem_cons_self _ _)
    unfold GlobMatch
    rw [if_neg hc.1, if_neg hc.2]
    constructor
    · rintro ⟨t, ht, hg⟩
      rw [ht, (ih t (fun d hd => hp d (List.mem_cons_of_mem _ hd))).mp hg]
    · intro h
      exact ⟨p, h, (ih p (fun d hd => hp d (List.mem_cons_of_mem _ hd))).mpr rfl⟩

/-- C24: for every glob pattern `p` and every file name `s` without a newline, the
expression `^globToRegex(p)$` compiles and matches `s` if and only if `s` matches `p`
as a glob in which a star stands for any sequence of characters, a question mark for
exactly one character and every other character for itself; a pattern without star and
question mark matches exactly the text equal to it. -/
theorem C24_glob_to_regex (p s : String) (hs : '\n' ∉ s.data) :
    (∃ b, globMatches p s = some b ∧ (b = true ↔ GlobMatch p.data s.data)) ∧
    ((∀ c ∈ p.data, c ≠ '*' ∧ c ≠ '?') → (globMatches p s = some true ↔ s = p)) := by
  unfold globMatches
  rw [compileAnchored_glob]
  refine ⟨⟨_, rfl, matchPieces_glob p.data s.data hs⟩, ?_⟩
  intro hp
  simp only [Option.map_some', Option.some.injEq]
  rw [matchPieces_glob p.data s.data hs, GlobMatch_plain p.data s.data hp]
  constructor
  · intro h; exact String.ext h
  · intro h; rw [h]

theorem C24_glob_to_regex_witness :
    globMatches "*-session.tmp" "2024-01-01-session.tmp" = some true ∧
    GlobMatch "*-session.tmp".data "2024-01-01-session.tmp".data ∧
    (globMatches "a.b" "a.b" = some true ↔ ("a.b" : String) = "a.b") ∧
    globMatches "a.b" "axb" = some false :=
  ⟨by decide,
   ((fun h => Exists.elim h (fun b hb => hb.2.mp (Option.some.inj (hb.1.symm.trans
      (by decide : globMatches "*-session.tmp" "2024-01-01-session.tmp" = some true)))))
     (C24_glob_to_regex "*-session.tmp" "2024-01-01-session.tmp" (by decide)).1),
   (C24_glob_to_regex "a.b" "a.b" (by decide)).2 (by decide),
   by decide⟩

/-! ## Replacing in a file -/

/-- C23 (failing input): a file of two lines that both match
`\*\*Last Updated:\*\*.*`.  The claim, like the comment of `ReplaceRegexInFile`, says
that only the first match is replaced and the text after it stays as it was; the code
calls `ReplaceAllString`, and the second line is replaced as well.  On the example of
the claim, where only the first line matches, the second line is kept. -/
theorem C23_replace_regex_replaces_all (expand : String → List Char → List Char) :
    ReplaceRegexInFile (compileLastUpdated expand) true
      (some "**Last Updated:** 10:00\n**Last Updated:** 09:00\n")
      "\\*\\*Last Updated:\\*\\*.*" "**Last Updated:** 15:30" =
      (true, some "**Last Updated:** 15:30\n**Last Updated:** 15:30\n") ∧
    ReplaceRegexInFile (compileLastUpdated expand) true
      (some "**Last Updated:** 10:00\nother line")
      "\\*\\*Last Updated:\\*\\*.*" "**Last Updated:** 15:30" =
      (true, some "**Last Updated:** 15:30\nother line") :=
  ⟨rfl, rfl⟩

/-! ## The summary of a session -/

theorem scanTool_userMessages (entry : List (String × JSON)) (st : Scan) :
    (scanTool entry st).userMessages = st.userMessages := by
  unfold scanTool
  dsimp only
  split_ifs <;> rfl

theorem scanBlock_userMessages (st : Scan) (block : JSON) :
    (scanBlock st block).userMessages = st.userMessages := by
  unfold scanBlock
  split
  · dsimp only
    split_ifs
    · split
      · split
        · split_ifs <;> rfl
        · rfl
      · rfl
    · split
      · split
        · split_ifs <;> rfl
        · rfl
      · rfl
    · rfl
  · rfl

theorem foldl_scanBlock_userMessages (blocks : List JSON) (st : Scan) :
    (blocks.foldl scanBlock st).userMessages = st.userMessages := by
  induction blocks generalizing st with
  | nil => rfl
  | cons b bs ih => rw [List.foldl_cons, ih, scanBlock_userMessages]

theorem scanAssistant_userMessages (entry : List (String × JSON)) (st : Scan) :
    (scanAssistant entry st).userMessages = st.userMessages := by
  unfold scanAssistant
  split_ifs
  · split
    · split
      · exact foldl_scanBlock_userMessages _ _
      · rfl
    · rfl
  · rfl

theorem first200_eq (t : String) :
    (if (utf8Bytes t).length > 200 then (utf8Bytes t).take 200 else utf8Bytes t) =
      first200 t := by
  unfold first200
  split_ifs with h
  · rfl
  · rw [List.take_of_length_le (by omega)]

theorem getD_eq_user (v : Option String) :
    v.getD "" = "user" ↔ (v == some "user") = true := by
  cases v <;> simp

theorem scanUser_userMessages (entry : List (String × JSON)) (st : Scan) :
    (scanUser entry st).userMessages = st.userMessages ++
      (if isUserMessage entry = true ∧ extractText entry ≠ "" then
        [first200 (extractText entry)] else []) := by
  have hne : (("" : String) = "user") = False := by decide
  unfold scanUser isUserMessage
  dsimp only
  rw [first200_eq]
  cases asObject (entry.lookup "message") with
  | none =>
    dsimp only
    simp only [getD_eq_user, Bool.or_eq_true, Bool.or_false, hne, or_false]
    split_ifs <;> simp_all
  | some msg =>
    dsimp only
    simp only [getD_eq_user, Bool.or_eq_true]
    split_ifs <;> simp_all

/-- The user texts of a list of raw lines. -/
theorem userTexts_eq (Unmarshal : String → Option (List (String × JSON))) (content : String) :
    userTexts Unmarshal content =
      (splitSep '\n' content.data).flatMap (fun l =>
        if TrimSpace ⟨l⟩ = "" then []
        else
          match Unmarshal (TrimSpace ⟨l⟩) with
          | none => []
          | some entry =>
            if isUserMessage entry = true ∧ extractText entry ≠ "" then [extractText entry]
            else []) := by
  unfold userTexts transcriptEntries
  generalize splitSep '\n' content.data = ls
  induction ls with
  | nil => rfl
  | cons l ls ih =>
    rw [List.flatMap_cons, ← ih, List.map_cons]
    by_cases h0 : TrimSpace ⟨l⟩ = ""
    · rw [if_pos h0, List.filter_cons_of_neg (by simpa using h0)]
      rfl
    · rw [if_neg h0, List.filter_cons_of_pos (by simpa using h0), List.filterMap_cons]
      cases hu : Unmarshal (TrimSpace ⟨l⟩) with
      | none => rfl
      | some entry =>
        dsimp only
        by_cases h1 : isUserMessage entry = true
        · rw [List.filter_cons_of_pos h1, List.map_cons]
          by_cases h2 : extractText entry = ""
          · rw [List.filter_cons_of_neg (by simpa using h2), if_neg (fun h => h.2 h2)]
            rfl
          · rw [List.filter_cons_of_pos (by simpa using h2), if_pos ⟨h1, h2⟩]
            rfl
        · rw [List.filter_cons_of_neg h1, if_neg (fun h => h1 h.1)]
          rfl

theorem foldl_scanLine_userMessages (Unmarshal : String → Option (List (String × JSON)))
    (ls : List (List Char)) (st : Scan) :
    ((ls.map String.mk).foldl (scanLine Unmarshal) st).userMessages =
      st.userMessages ++ (ls.flatMap (fun l =>
        if TrimSpace ⟨l⟩ = "" then []
        else
          match Unmarshal (TrimSpace ⟨l⟩) with
          | none => []
          | some entry =>
            if isUserMessage entry = true ∧ extractText entry ≠ "" then [extractText entry]
            else [])).map first200 := by
  induction ls generalizing st with
  | nil => simp
  | cons l ls ih =>
    rw [List.map_cons, List.foldl_cons, ih, List.flatMap_cons, List.map_append,
      ← List.append_assoc]
    congr 1
    unfold scanLine
    dsimp only
    by_cases h0 : TrimSpace ⟨l⟩ = ""
    · rw [if_pos h0, if_pos h0]
      simp
    · rw [if_neg h0, if_neg h0]
      cases hu : Unmarshal (TrimSpace ⟨l⟩) with
      | none => simp
      | some entry =>
        dsimp only
        rw [scanAssistant_userMessages, scanTool_userMessages, scanUser_userMessages]
        split_ifs <;> simp

theorem contentToString_trimmed (v : Option JSON) : ∃ raw, contentToString v = TrimSpace raw := by
  unfold contentToString
  split
  · exact ⟨_, rfl⟩
  · exact ⟨_, rfl⟩
  · exact ⟨"", rfl⟩

theorem extractText_trimmed (entry : List (String × JSON)) :
    ∃ raw, extractText entry = TrimSpace raw := by
  unfold extractText
  split <;> exact contentToString_trimmed _

theorem userTexts_trimmed (Unmarshal : String → Option (List (String × JSON)))
    (content t : String) (ht : t ∈ userTexts Unmarshal content) : ∃ raw, t = TrimSpace raw := by
  unfold userTexts at ht
  rw [List.mem_filter, List.mem_map] at ht
  obtain ⟨⟨entry, _, he⟩, _⟩ := ht
  rw [← he]
  exact extractText_trimmed entry

theorem length_le_utf8Bytes (s : String) : s.length ≤ (utf8Bytes s).length := by
  unfold utf8Bytes
  rw [List.length_map]
  show s.data.length ≤ _
  generalize s.data = l
  induction l with
  | nil => simp
  | cons c cs ih =>
    rw [List.flatMap_cons, List.length_append, String.length_utf8EncodeChar,
      List.length_cons]
    have := c.utf8Size_pos
    omega

theorem scanned_userMessages (Unmarshal : String → Option (List (String × JSON)))
    (content : String) :
    (((splitSep '\n' content.data).map String.mk).foldl (scanLine Unmarshal)
      ⟨[], [], [], 0⟩).userMessages = (userTexts Unmarshal content).map first200 := by
  rw [foldl_scanLine_userMessages, userTexts_eq]
  rfl

/-- C26: `extractSessionSummary` returns absent exactly when the transcript has no user
message with a non-empty text; otherwise `UserMessages` holds the last 10 of these
texts in the order of the transcript, at most 10 entries, each cut to its first 200
bytes, hence at most 200 characters long and a prefix of the trimmed text of the
message, and `TotalMessages` is the number of all user messages with a non-empty
text. -/
theorem C26_session_summary (Unmarshal : String → Option (List (String × JSON)))
    (content : String) (o : Output) :
    ((extractSessionSummary Unmarshal (some content) o).1 = none ↔
      userTexts Unmarshal content = []) ∧
    (∀ r, (extractSessionSummary Unmarshal (some content) o).1 = some r →
      r.UserMessages = lastN 10 ((userTexts Unmarshal content).map first200) ∧
      r.UserMessages.length ≤ 10 ∧
      r.TotalMessages = ((userTexts Unmarshal content).length : Int) ∧
      (∀ m ∈ r.UserMessages, m.length ≤ 200 ∧
        (∀ s : String, utf8Bytes s = m → s.length ≤ 200) ∧
        ∃ t ∈ userTexts Unmarshal content, (∃ raw, t = TrimSpace raw) ∧
          m <+: utf8Bytes t)) := by
  have hum := scanned_userMessages Unmarshal content
  unfold extractSessionSummary
  dsimp only
  rw [hum]
  generalize htx : userTexts Unmarshal content = texts
  have hmem : ∀ t ∈ texts, ∃ raw, t = TrimSpace raw := by
    intro t ht
    rw [← htx] at ht
    exact userTexts_trimmed Unmarshal content t ht
  by_cases h0 : (texts.map first200).length = 0
  · rw [if_pos h0]
    have : texts = [] := by
      rw [List.length_map] at h0
      exact List.length_eq_zero.mp h0
    refine ⟨⟨fun _ => this, fun _ => rfl⟩, ?_⟩
    intro r hr
    cases hr
  · rw [if_neg h0]
    refine ⟨⟨fun h => (by cases h), fun h => ?_⟩, ?_⟩
    · rw [h] at h0
      exact absurd rfl h0
    · intro r hr
      simp only [Option.some.injEq] at hr
      subst hr
      dsimp only
      have hstart : (if (texts.map first200).length > 10 then
          (texts.map first200).length - 10 else 0) = (texts.map first200).length - 10 := by
        split_ifs <;> omega
      rw [hstart]
      refine ⟨rfl, ?_, ?_, ?_⟩
      · rw [List.length_drop]
        omega
      · rw [List.length_map]
      · intro m hm
        have hm' := List.mem_of_mem_drop hm
        rw [List.mem_map] at hm'
        obtain ⟨t, ht, rfl⟩ := hm'
        have hlen : (first200 t).length ≤ 200 := by
          unfold first200
          rw [List.length_take]
          omega
        refine ⟨hlen, ?_, t, ht, hmem t ht, ?_⟩
        · intro s hs
          have := length_le_utf8Bytes s
          rw [hs] at this
          omega
        · exact List.take_prefix _ _

theorem C26_session_summary_witness :
    (extractSessionSummary sampleEntry
      (some "\x7b\"type\":\"user\",\"content\":\" hello \"\x7d\nnot json\n\x7b\"type\":\"user\",\"content\":\"fix the bug\"\x7d\n")
      ⟨[], []⟩).1 =
      some ⟨[utf8Bytes "hello", utf8Bytes "fix the bug"], [], [], 2⟩ ∧
    ([utf8Bytes "hello", utf8Bytes "fix the bug"] : List (List Nat)).length ≤ 10 ∧
    (2 : Int) = ((userTexts sampleEntry
      "\x7b\"type\":\"user\",\"content\":\" hello \"\x7d\nnot json\n\x7b\"type\":\"user\",\"content\":\"fix the bug\"\x7d\n").length : Int) ∧
    (extractSessionSummary sampleEntry (some "not json\n") ⟨[], []⟩).1 = none :=
  ⟨by decide,
   ((C26_session_summary sampleEntry
      "\x7b\"type\":\"user\",\"content\":\" hello \"\x7d\nnot json\n\x7b\"type\":\"user\",\"content\":\"fix the bug\"\x7d\n"
      ⟨[], []⟩).2 ⟨[utf8Bytes "hello", utf8Bytes "fix the bug"], [], [], 2⟩ (by decide)).2.1,
   ((C26_session_summary sampleEntry
      "\x7b\"type\":\"user\",\"content\":\" hello \"\x7d\nnot json\n\x7b\"type\":\"user\",\"content\":\"fix the bug\"\x7d\n"
      ⟨[], []⟩).2 ⟨[utf8Bytes "hello", utf8Bytes "fix the bug"], [], [], 2⟩ (by decide)).2.2.1,
   (C26_session_summary sampleEntry "not json\n" ⟨[], []⟩).1.mpr (by decide)⟩

/-! ## The name of the session file -/

/-- C27 (failing input): without `CLAUDE_SESSION_ID`, in a project named `claudey`, the
short id is the project name, of 7 characters, and `ParseFilename` rejects the file
name that `SessionEnd` builds from it.  The same happens with a session id shorter than
8 characters, with the fall-back id `default`, and with a project name that has a
dash.  A session id that ends in 8 lower-case letters or digits gives a name that is
accepted. -/
theorem C27_short_id_rejected :
    (sessionFileName "2026-02-01" (sessionIDShort [] (utf8Bytes "claudey")) =
      utf8Bytes "2026-02-01-claudey-session.tmp" ∧
      ∀ loc, ParseFilename loc "2026-02-01-claudey-session.tmp" = none) ∧
    (sessionFileName "2026-02-01" (sessionIDShort (utf8Bytes "abc123") []) =
      utf8Bytes "2026-02-01-abc123-session.tmp" ∧
      ∀ loc, ParseFilename loc "2026-02-01-abc123-session.tmp" = none) ∧
    (sessionFileName "2026-02-01" (sessionIDShort [] []) =
      utf8Bytes "2026-02-01-default-session.tmp" ∧
      ∀ loc, ParseFilename loc "2026-02-01-default-session.tmp" = none) ∧
    (sessionFileName "2026-02-01" (sessionIDShort [] (utf8Bytes "my-project")) =
      utf8Bytes "2026-02-01-my-project-session.tmp" ∧
      ∀ loc, ParseFilename loc "2026-02-01-my-project-session.tmp" = none) ∧
    (sessionFileName "2026-02-01"
        (sessionIDShort (utf8Bytes "550e8400-e29b-41d4-a716-446655440000") []) =
      utf8Bytes "2026-02-01-55440000-session.tmp" ∧
      ParseFilename utc "2026-02-01-55440000-session.tmp" =
        some ⟨"2026-02-01-55440000-session.tmp", "55440000", "2026-02-01", (2026, 2, 1)⟩) :=
  ⟨⟨by decide, fun _ => rfl⟩, ⟨by decide, fun _ => rfl⟩, ⟨by decide, fun _ => rfl⟩,
   ⟨by decide, fun _ => rfl⟩, by decide, by decide⟩

/-! ## The slice bounds of `ListAll` -/

/-- The vocabulary `sliceBounds` is what `ListAll` computes: it returns a result exactly
when the bounds are in range. -/
theorem ListAll_isSome_iff (loc : Location) (dir : String) (entries : List DirEntry)
    (limit offset : Int)
    (dateFilter search : String) :
    (ListAll loc dir (some entries) limit offset dateFilter search).isSome = true ↔
      InRange (sliceBounds limit offset
        ((sortSlice modifiedAfter
          (entries.filterMap (listEntry loc dir dateFilter search))).length : Int))
        ((sortSlice modifiedAfter
          (entries.filterMap (listEntry loc dir dateFilter search))).length : Int) := by
  unfold ListAll sliceBounds InRange
  dsimp only
  generalize sortSlice modifiedAfter (entries.filterMap (listEntry loc dir dateFilter search)) = S
  generalize (if limit ≤ 0 then (50 : Int) else limit) = lim
  generalize (if offset < 0 then (0 : Int) else offset) = off
  generalize wrap64 (off + lim) = e0
  generalize (if e0 > (S.length : Int) then (S.length : Int) else e0) = e1
  generalize (if off > (S.length : Int) then (S.length : Int) else off) = st
  by_cases h : 0 ≤ st ∧ st ≤ e1 ∧ e1 ≤ (S.length : Int)
  · rw [if_pos h]
    simp only [Option.isSome_some, true_iff]
    exact h
  · rw [if_neg h]
    simp only [Option.isSome_none, Bool.false_eq_true, false_iff]
    exact h

/-- The bounds are in range whenever the sum of the offset and the limit, after the
defaults are applied, does not wrap around. -/
theorem sliceBounds_inRange (limit offset total : Int) (ht : 0 ≤ total)
    (hsum : (if offset < 0 then 0 else offset) + (if limit ≤ 0 then 50 else limit) < 2 ^ 63) :
    InRange (sliceBounds limit offset total) total := by
  unfold sliceBounds InRange
  dsimp only
  generalize hlim : (if limit ≤ 0 then (50 : Int) else limit) = lim at hsum
  generalize hoff : (if offset < 0 then (0 : Int) else offset) = off at hsum
  have hlim0 : 0 < lim := by rw [← hlim]; split_ifs <;> omega
  have hoff0 : 0 ≤ off := by rw [← hoff]; split_ifs <;> omega
  rw [wrap64_of_small (off + lim) (by omega) hsum]
  split_ifs <;> omega

/-- C29 (failing input): an empty sessions directory, `limit` 0 (so 50) and `offset`
the largest `int`.  The sum `offset + limit` wraps around to a negative number, `end`
is below `start` = 0, the bounds are out of range and `ListAll` panics. -/
theorem C29_slice_bounds_out_of_range :
    sliceBounds 0 9223372036854775807 0 = (0, -9223372036854775759) ∧
    ¬ InRange (sliceBounds 0 9223372036854775807 0) 0 ∧
    (∀ loc, ListAll loc "/s" (some []) 0 9223372036854775807 "" "" = none) :=
  ⟨by decide, by decide, fun loc => by
    unfold ListAll
    simp only [List.filterMap_nil]
    decide⟩

/-! ## `List` and the order of the map iteration -/

theorem lexLt_total (a b : List Nat) (h1 : lexLt a b = false) (h2 : lexLt b a = false) :
    a = b := by
  induction a generalizing b with
  | nil =>
    cases b with
    | nil => rfl
    | cons y ys => simp [lexLt] at h1
  | cons x xs ih =>
    cases b with
    | nil => simp [lexLt] at h2
    | cons y ys =>
      simp only [lexLt, Bool.or_eq_false_iff, decide_eq_false_iff_not, not_lt,
        Bool.and_eq_false_imp, beq_iff_eq] at h1 h2
      have hxy : x = y := by omega
      subst hxy
      rw [ih ys (h1.2 rfl) (h2.2 rfl)]

/-- Sorting two enumerations of the same entries gives the same sequence when no two
entries have the same effective time stamp. -/
theorem sortSlice_newerFirst_unique (l1 l2 : List AliasInfo) (hperm : l1.Perm l2)
    (hd : l1.Pairwise (fun x y => utf8Bytes (effective x) ≠ utf8Bytes (effective y))) :
    sortSlice newerFirst l1 = sortSlice newerFirst l2 := by
  have hp1 := sortSlice_perm newerFirst l1
  have hp2 := sortSlice_perm newerFirst l2
  have hs1 := sortSlice_sorted newerFirst newerFirst_asymm newerFirst_neg_trans l1
  have hs2 := sortSlice_sorted newerFirst newerFirst_asymm newerFirst_neg_trans l2
  have hsym : ∀ {x y : AliasInfo}, utf8Bytes (effective x) ≠ utf8Bytes (effective y) →
      utf8Bytes (effective y) ≠ utf8Bytes (effective x) := fun h => h.symm
  have hd1 := hd.perm hp1.symm hsym
  have hd2 := hd.perm (hperm.trans hp2.symm) hsym
  have strict : ∀ x y : AliasInfo, newerFirst y x = false →
      utf8Bytes (effective x) ≠ utf8Bytes (effective y) → newerFirst x y = true := by
    intro x y h1 h2
    cases h3 : newerFirst x y with
    | true => rfl
    | false =>
      exfalso
      apply h2
      unfold newerFirst strGt at h1 h3
      exact lexLt_total _ _ h1 h3
  have hr1 : (sortSlice newerFirst l1).Pairwise (fun x y => newerFirst x y = true) :=
    (hs1.and hd1).imp (fun h => strict _ _ h.1 h.2)
  have hr2 : (sortSlice newerFirst l2).Pairwise (fun x y => newerFirst x y = true) :=
    (hs2.and hd2).imp (fun h => strict _ _ h.1 h.2)
  refine List.Perm.eq_of_sorted ?_ hr1 hr2 (hp1.trans (hperm.trans hp2.symm))
  intro a b _ _ hab hba
  rw [newerFirst_asymm a b hab] at hba
  cases hba

/-- C30 (amended): two enumerations of the same alias map in different iteration orders
give the same result of `List`, for every search string and limit, provided no two
stored entries have the same effective time stamp. -/
theorem C30_list_order_independent (lower : Char → Char) (tLoad search : String)
    (limit : Int) (w1 w2 : World) (hperm : (stored w1).Perm (stored w2))
    (hd : DistinctTimes (stored w1)) :
    ListAliases lower tLoad search limit w1 = ListAliases lower tLoad search limit w2 := by
  rw [ListAliases_eq, ListAliases_eq]
  have hd' : ((stored w1).map aliasInfo).Pairwise
      (fun x y => utf8Bytes (effective x) ≠ utf8Bytes (effective y)) := by
    rw [List.pairwise_map]
    exact hd
  rw [sortSlice_newerFirst_unique _ _ (hperm.map aliasInfo) hd']

theorem C30_list_order_independent_witness :
    ListAliases Char.toLower "t0" "" 1
      (worldOf [("alpha", ⟨"/path/a", "2026-01-01T00:00:00Z", "2026-01-01T00:00:00Z", "Alpha"⟩),
                ("beta", ⟨"/path/b", "2026-01-02T00:00:00Z", "2026-01-03T00:00:00Z", "Beta"⟩)]) =
    ListAliases Char.toLower "t0" "" 1
      (worldOf [("beta", ⟨"/path/b", "2026-01-02T00:00:00Z", "2026-01-03T00:00:00Z", "Beta"⟩),
                ("alpha", ⟨"/path/a", "2026-01-01T00:00:00Z", "2026-01-01T00:00:00Z", "Alpha"⟩)]) :=
  C30_list_order_independent Char.toLower "t0" "" 1
    (worldOf [("alpha", ⟨"/path/a", "2026-01-01T00:00:00Z", "2026-01-01T00:00:00Z", "Alpha"⟩),
              ("beta", ⟨"/path/b", "2026-01-02T00:00:00Z", "2026-01-03T00:00:00Z", "Beta"⟩)])
    (worldOf [("beta", ⟨"/path/b", "2026-01-02T00:00:00Z", "2026-01-03T00:00:00Z", "Beta"⟩),
              ("alpha", ⟨"/path/a", "2026-01-01T00:00:00Z", "2026-01-01T00:00:00Z", "Alpha"⟩)])
    (by decide) (by decide)

/-- C30 (counterexample): the aliases `alpha` and `beta` have the same effective time
stamp.  Enumerated as alpha, beta the list is alpha, beta and `List("", 1)` is alpha;
enumerated as beta, alpha the list is beta, alpha and `List("", 1)` is beta. -/
theorem C30_ties_follow_iteration_order :
    (stored (worldOf [("alpha", ⟨"/path/a", "2026-01-01T00:00:00Z", "", "Alpha"⟩),
        ("beta", ⟨"/path/b", "2026-01-01T00:00:00Z", "", "Beta"⟩)])).Perm
      (stored (worldOf [("beta", ⟨"/path/b", "2026-01-01T00:00:00Z", "", "Beta"⟩),
        ("alpha", ⟨"/path/a", "2026-01-01T00:00:00Z", "", "Alpha"⟩)])) ∧
    ListAliases Char.toLower "t0" "" 0
      (worldOf [("alpha", ⟨"/path/a", "2026-01-01T00:00:00Z", "", "Alpha"⟩),
        ("beta", ⟨"/path/b", "2026-01-01T00:00:00Z", "", "Beta"⟩)]) =
      [⟨"alpha", "/path/a", "2026-01-01T00:00:00Z", "", "Alpha"⟩,
       ⟨"beta", "/path/b", "2026-01-01T00:00:00Z", "", "Beta"⟩] ∧
    ListAliases Char.toLower "t0" "" 0
      (worldOf [("beta", ⟨"/path/b", "2026-01-01T00:00:00Z", "", "Beta"⟩),
        ("alpha", ⟨"/path/a", "2026-01-01T00:00:00Z", "", "Alpha"⟩)]) =
      [⟨"beta", "/path/b", "2026-01-01T00:00:00Z", "", "Beta"⟩,
       ⟨"alpha", "/path/a", "2026-01-01T00:00:00Z", "", "Alpha"⟩] ∧
    ListAliases Char.toLower "t0" "" 1
      (worldOf [("alpha", ⟨"/path/a", "2026-01-01T00:00:00Z", "", "Alpha"⟩),
        ("beta", ⟨"/path/b", "2026-01-01T00:00:00Z", "", "Beta"⟩)]) ≠
    ListAliases Char.toLower "t0" "" 1
      (worldOf [("beta", ⟨"/path/b", "2026-01-01T00:00:00Z", "", "Beta"⟩),
        ("alpha", ⟨"/path/a", "2026-01-01T00:00:00Z", "", "Alpha"⟩)]) := by
  decide

end Claudey
